import Mathlib

/-!
# A shallow embedding of the `esneider/malloc` boundary-tag allocator

This file embeds the core of `src/malloc.c` (a segregated-free-list
allocator with header/footer boundary tags) as executable Lean
definitions, and proves the specification claims about it.

Modelling conventions, fixed once and used throughout:

* Addresses and sizes are `Nat`.  The C code runs on a 64-bit platform
  (the layout constants below are those of the x86-64 System V ABI, the
  platform of the repository's tests): `sizeof(struct inuse_header) = 4`,
  `sizeof(struct footer) = 4`, `sizeof(struct free_header) = 24`
  (4-byte packed status/size word, 4 bytes padding, two 8-byte pointers),
  `sizeof(struct memory_context) = 8+8+8+8+89*24 = 2168` (the
  `bin_sizes` array of the source has 89 entries, and this matches the
  `180*sizeof(void*) + 91*sizeof(size_t) = 2168` documented in
  `malloc.h`).
* The heap is an association list from chunk-header addresses to the
  chunk metadata stored there (status bit, size field of the header,
  size field of the footer).  Writing a header is `setChunk`; a header
  address absorbed into the body of a larger chunk is erased, since its
  bytes stop being a header.  The doubly-linked free lists threaded
  through the chunk bodies are represented by the per-bin lists of
  addresses in `MState.bins`, in list order; `prev`/`next` pointer
  surgery in the C source corresponds to insertion/removal in those
  lists.
* `size_t` arithmetic never overflows and the 31-bit `size` bitfield
  never truncates on the documented domain (buffers < 2 GB, request
  `+ MIN_INUSE_CHUNK_SIZE < 2^31`); the reachability relation below
  keeps these documented preconditions, so plain `Nat` arithmetic is
  exact.  `Nat` subtraction is used where the C source subtracts; every
  use is guarded by the invariants that rule out underflow.
* The external allocator (`set_external_alloc`) is modelled as an
  oracle: a list of responses, one per invocation, each `none` (the C
  callback returned `NULL`) or `some (addr, actualSize)`.  The ghost
  field `extCalls` records the minimum sizes the allocator requested,
  so that the out-of-memory contract can be stated.
* `NULL` is the address `0`; valid buffers live at positive addresses.
* Uninitialised memory: `init_malloc` never writes the `status` bits of
  the bin sentinels, so they keep the buffer's previous contents.  Both
  tests of the repository pass zero-initialised static buffers; the
  model takes the buffer to be zeroed, so the sentinel checks of
  `check_malloc` pass and are represented structurally.
-/

/-- `MAX_SMALL_REQUEST` from `malloc.c`. -/
def MAX_SMALL_REQUEST : Nat := 256

/-- `sizeof(struct inuse_header)`: one packed 32-bit status/size word. -/
def INUSE_HEADER_SIZE : Nat := 4

/-- `sizeof(struct footer)`: one 32-bit size word. -/
def FOOTER_SIZE : Nat := 4

/-- `sizeof(struct free_header)`: packed word, padding, two pointers. -/
def FREE_HEADER_SIZE : Nat := 24

/-- `MIN_FREE_CHUNK_SIZE = sizeof(struct free_header) + sizeof(struct footer)`. -/
def MIN_FREE_CHUNK_SIZE : Nat := FREE_HEADER_SIZE + FOOTER_SIZE

/-- `MIN_INUSE_CHUNK_SIZE = sizeof(struct inuse_header) + sizeof(struct footer)`. -/
def MIN_INUSE_CHUNK_SIZE : Nat := INUSE_HEADER_SIZE + FOOTER_SIZE

/-- `sizeof(struct bound)` in `add_malloc_buffer`: an inuse header plus a footer. -/
def BOUND_SIZE : Nat := INUSE_HEADER_SIZE + FOOTER_SIZE

/-- `sizeof(struct memory_context)`: two counters, the callback pointer,
the `last_chunk` pointer and the `BIN_NUMBER = 89` bin sentinels. -/
def CONTEXT_SIZE : Nat := 8 + 8 + 8 + 8 + 89 * FREE_HEADER_SIZE

/-- The static `bin_sizes` array of `malloc.c`, verbatim. -/
def bin_sizes : List Nat :=
  [      8,    16,    24,    32,    40,    48,    56,    64,    72,    80,
        88,    96,   104,   112,   120,   128,   136,   144,   152,   160,
       168,   176,   184,   192,   200,   208,   216,   224,   232,   240,
       248,   256,   264,   272,   280,   288,   296,   304,   312,   320,
       328,   336,   344,   352,   360,   368,   376,   384,   392,   400,
       408,   416,   424,   432,   440,   448,   456,   464,   472,   480,
       488,   496,   504,   512,   576,   640,   768,  1024,  2048,  4096,
        0x2000,     0x4000,     0x8000,    0x10000,    0x20000,    0x40000,
       0x80000,   0x100000,   0x200000,   0x400000,   0x800000,  0x1000000,
     0x2000000,  0x4000000,  0x8000000, 0x10000000, 0x20000000, 0x40000000,
    0x80000000]

/-- `BIN_NUMBER`: the number of bins (entries of `bin_sizes`). -/
def BIN_NUMBER : Nat := bin_sizes.length

/-- The metadata stored at a chunk-header address: the status bit
(`true` = `INUSE_STATUS`, `false` = `FREE_STATUS`), the `size` field of
the header, and the `size` field of the footer ending the chunk. -/
structure Chunk where
  status : Bool
  size : Nat
  footer : Nat
deriving DecidableEq, Repr

/-- The heap: an association list from header addresses to chunks. -/
abbrev Heap := List (Nat × Chunk)

/-- Read the chunk header stored at address `a` (first binding wins). -/
def lookupChunk : Heap → Nat → Option Chunk
  | [], _ => none
  | (b, c) :: t, a => if a = b then some c else lookupChunk t a

/-- Remove every binding at address `a` (the bytes there stop being a header). -/
def eraseChunk : Heap → Nat → Heap
  | [], _ => []
  | (b, c) :: t, a => if b = a then eraseChunk t a else (b, c) :: eraseChunk t a

/-- Write a chunk header at address `a`, replacing any previous binding. -/
def setChunk (h : Heap) (a : Nat) (c : Chunk) : Heap :=
  (a, c) :: eraseChunk h a

/-- The `size` field read at header address `a` (`0` if no header is there). -/
def sizeAt (h : Heap) (a : Nat) : Nat :=
  match lookupChunk h a with
  | some c => c.size
  | none => 0

/-- The allocator context (`struct memory_context`), together with the
external-allocator oracle and the ghost trace of its invocations. -/
structure MState where
  chunks : Heap
  bins : List (List Nat)
  free_memory : Nat
  last_chunk : Nat
  last_chunk_size : Nat
  ext : Option (List (Option (Nat × Nat)))
  extCalls : List Nat
deriving DecidableEq, Repr

/-- The binary-search loop of `find_bin`: narrow `[min_bin, max_bin)`
keeping `bin_sizes[min_bin] ≤ size < bin_sizes[max_bin]`.  The `while`
loop shrinks `max_bin - min_bin` on every iteration, so running it with
`max_bin - min_bin` steps of fuel computes its exact result; the fuel
only makes the recursion structural. -/
def fbLoop (sz : Nat) : Nat → Nat → Nat → Nat
  | 0, mi, _ => mi
  | k + 1, mi, ma =>
    if mi + 1 = ma then mi
    else
      let curr := (mi + ma) / 2
      if bin_sizes.getD curr 0 ≤ sz then fbLoop sz k curr ma else fbLoop sz k mi curr

/-- `find_bin`: binary search for the bin index of a given size. -/
def find_bin (sz : Nat) : Nat :=
  fbLoop sz BIN_NUMBER 0 BIN_NUMBER

/-- `find_chunk`: first chunk of the bin whose size is `≥ size`
(`none` stands for coming back around to the sentinel). -/
def find_chunk (h : Heap) : List Nat → Nat → Option Nat
  | [], _ => none
  | a :: t, sz => if sz ≤ sizeAt h a then some a else find_chunk h t sz

/-- The list insertion performed by `add_free_chunk`: the new address is
linked immediately before `find_upper_chunk`'s result, i.e. before the
first chunk of size strictly greater than `sz` (at the end if none). -/
def insertUpper (h : Heap) : List Nat → Nat → Nat → List Nat
  | [], a, _ => [a]
  | x :: t, a, sz => if sizeAt h x ≤ sz then x :: insertUpper h t a sz else a :: x :: t

/-- Unlinking a chunk from the doubly-linked free lists
(`chunk->prev->next = chunk->next; chunk->next->prev = chunk->prev`):
its address disappears from the bins. -/
def removeAddr (bins : List (List Nat)) (a : Nat) : List (List Nat) :=
  bins.map (fun l => l.erase a)

/-- `add_free_chunk`: write a free header and footer at `a`, then link
the chunk before `find_upper_chunk (find_bin sz) sz` in its bin. -/
def add_free_chunk (s : MState) (a sz : Nat) : MState :=
  let chunks' := setChunk s.chunks a ⟨false, sz, sz⟩
  let bi := find_bin sz
  { s with
    chunks := chunks'
    bins := s.bins.set bi (insertUpper chunks' (s.bins.getD bi []) a sz) }

/-- `split_chunk`: turn the (already unlinked) free chunk at `hdr` into
an in-use chunk of `sz0` bytes; a residue of at least
`MIN_FREE_CHUNK_SIZE` bytes goes back to the bins and becomes
`last_chunk`, a smaller residue is absorbed.  Returns the new state and
the user pointer `hdr + sizeof(struct inuse_header)`.  (The C source
also nulls the dead `next`/`prev` pointer fields; that byte-level
effect is modelled separately by `splitWrites` below.)  Reading the
header of an address that holds no chunk (impossible under the
allocator invariant) leaves the state unchanged. -/
def split_chunk (s : MState) (hdr sz0 : Nat) : MState × Nat :=
  match lookupChunk s.chunks hdr with
  | none => (s, hdr + INUSE_HEADER_SIZE)
  | some c =>
    let left := c.size - sz0
    if left < MIN_FREE_CHUNK_SIZE then
      let sz := sz0 + left
      ({ s with
          chunks := setChunk s.chunks hdr ⟨true, sz, sz⟩
          free_memory := s.free_memory - sz
          last_chunk_size := 0 },
        hdr + INUSE_HEADER_SIZE)
    else
      let s1 := add_free_chunk { s with last_chunk := hdr + sz0 } (hdr + sz0) left
      ({ s1 with
          chunks := setChunk s1.chunks hdr ⟨true, sz0, sz0⟩
          free_memory := s1.free_memory - sz0
          last_chunk_size := left },
        hdr + INUSE_HEADER_SIZE)

/-- `add_malloc_buffer`: regions smaller than two boundary sentinels
plus a minimal free chunk are silently ignored; otherwise an in-use
sentinel is written at each end and the middle becomes a free chunk. -/
def add_malloc_buffer (s : MState) (m sz : Nat) : MState :=
  if sz < 2 * BOUND_SIZE + MIN_FREE_CHUNK_SIZE then s
  else
    let chunks1 := setChunk s.chunks m ⟨true, BOUND_SIZE, BOUND_SIZE⟩
    let chunks2 := setChunk chunks1 (m + sz - BOUND_SIZE) ⟨true, BOUND_SIZE, BOUND_SIZE⟩
    let s1 := add_free_chunk { s with chunks := chunks2 } (m + BOUND_SIZE) (sz - 2 * BOUND_SIZE)
    { s1 with free_memory := s1.free_memory + (sz - 2 * BOUND_SIZE) }

/-- `init_malloc`: carve the context out of the start of the buffer
(`size` must be at least `CONTEXT_SIZE`, asserted in the source), start
with zero free memory and empty self-linked bins, and register the rest
via `add_malloc_buffer`.  `last_chunk` is left unread until
`last_chunk_size` becomes nonzero, mirroring the uninitialised pointer
in the source; the model starts it at `0`. -/
def init_malloc (base sz : Nat) (ext : Option (List (Option (Nat × Nat)))) : MState :=
  add_malloc_buffer
    { chunks := []
      bins := List.replicate BIN_NUMBER []
      free_memory := 0
      last_chunk := 0
      last_chunk_size := 0
      ext := ext
      extCalls := [] }
    (base + CONTEXT_SIZE) (sz - CONTEXT_SIZE)

/-- Helper for `firstNE`: scan a suffix of the bins, counting indices. -/
def firstNEAux : List (List Nat) → Nat → Option Nat
  | [], _ => none
  | b :: bs, i => if b = [] then firstNEAux bs (i + 1) else some i

/-- The first non-empty bin at an index `≥ i`
(the `for ( bin = ...; bin == bin->next; ) if ( ++bin >= ... )` walks). -/
def firstNE (bins : List (List Nat)) (i : Nat) : Option Nat :=
  firstNEAux (bins.drop i) i

/-- Length of the external-allocator oracle. -/
def oracleLen : Option (List (Option (Nat × Nat))) → Nat
  | none => 0
  | some l => l.length

/-- `out_of_memory`: ask the external allocator for
`size + 2 * MIN_INUSE_CHUNK_SIZE` bytes (recorded in the ghost trace);
on success register the returned region and retry the allocation
through the continuation `retry` (the recursive call back into
`malloc`).  `sz` is the already-adjusted chunk size, as in the source. -/
def out_of_memoryC (retry : MState → Nat → MState × Option Nat)
    (s : MState) (sz : Nat) : MState × Option Nat :=
  match s.ext with
  | none => (s, none)
  | some l =>
    let total := sz + 2 * MIN_INUSE_CHUNK_SIZE
    match l with
    | [] => ({ s with ext := some [], extCalls := s.extCalls ++ [total] }, none)
    | r :: rest =>
      let s1 := { s with ext := some rest, extCalls := s.extCalls ++ [total] }
      match r with
      | none => (s1, none)
      | some (mem, newSz) =>
        if newSz < total then (s1, none)
        else retry (add_malloc_buffer s1 mem newSz) (sz - MIN_INUSE_CHUNK_SIZE)

/-- `malloc`, fuelled: the fuel only bounds the `out_of_memory → malloc`
recursion, which consumes one oracle entry per round, so
`oracleLen s.ext + 1` fuel (as supplied by `malloc`) is never
exhausted.  `sz0` is the user-requested byte count. -/
def mallocF : Nat → MState → Nat → MState × Option Nat
  | 0, s, _ => (s, none)
  | fuel + 1, s, sz0 =>
    let sz := max (sz0 + MIN_INUSE_CHUNK_SIZE) MIN_FREE_CHUNK_SIZE
    if s.free_memory < sz then out_of_memoryC (mallocF fuel) s sz
    else
      match firstNE s.bins (find_bin sz) with
      | none => out_of_memoryC (mallocF fuel) s sz
      | some i =>
        let pick :=
          match find_chunk s.chunks (s.bins.getD i []) sz with
          | some a => some a
          | none =>
            match firstNE s.bins (i + 1) with
            | none => none
            | some j => (s.bins.getD j []).head?
        match pick with
        | none => out_of_memoryC (mallocF fuel) s sz
        | some a0 =>
          let a :=
            if sz < sizeAt s.chunks a0 ∧ sz ≤ s.last_chunk_size ∧ sz ≤ MAX_SMALL_REQUEST then
              s.last_chunk
            else a0
          let s1 := { s with bins := removeAddr s.bins a }
          let (s2, p) := split_chunk s1 a sz
          (s2, some p)

/-- `malloc` with the canonical fuel. -/
def malloc (s : MState) (sz0 : Nat) : MState × Option Nat :=
  mallocF (oracleLen s.ext + 1) s sz0

/-- The chunk whose footer is the word just below address `x`, i.e. the
chunk in address order ending exactly at `x`.  The C source reads the
4 bytes at `x - sizeof(struct footer)`; under the chunk layout those
bytes are the footer of this chunk. -/
def chunkEndingAt (h : Heap) (x : Nat) : Option (Nat × Chunk) :=
  h.find? (fun p => p.1 + p.2.size == x)

/-- `free`: `NULL` is a no-op; otherwise recover the header, check the
chunk invariants (the source `assert`s them: a failed check is a
precondition violation, modelled as `none`), credit `free_memory`,
coalesce with a free previous neighbour (located through the footer
just below the header) and a free next neighbour (at `header + size`),
unlink absorbed neighbours, and register the merged chunk.  Reads of
addresses holding no header (unreachable under the layout invariants)
find no free neighbour there. -/
def free (s : MState) (memory : Nat) : Option MState :=
  if memory = 0 then some s
  else
    let header := memory - INUSE_HEADER_SIZE
    match lookupChunk s.chunks header with
    | none => none
    | some c =>
      if c.status = true ∧ c.size = c.footer then
        let sz := c.size
        let fm := s.free_memory + sz
        let prevRes : Except Unit (Option (Nat × Nat)) :=
          match chunkEndingAt s.chunks header with
          | none => Except.ok none
          | some pc =>
            match lookupChunk s.chunks (header - pc.2.footer) with
            | some cc =>
              if cc.status = false then
                if cc.size = pc.2.footer then
                  Except.ok (some (header - pc.2.footer, cc.size))
                else Except.error ()
              else Except.ok none
            | none => Except.ok none
        match prevRes with
        | Except.error _ => none
        | Except.ok prevM =>
          let hdr1 := match prevM with | some (p, _) => p | none => header
          let sz1 := match prevM with | some (_, ps) => sz + ps | none => sz
          let bins1 := match prevM with | some (p, _) => removeAddr s.bins p | none => s.bins
          let chunks1 := match prevM with | some _ => eraseChunk s.chunks header | none => s.chunks
          match lookupChunk chunks1 (header + sz) with
          | some nc =>
            if nc.status = false then
              if nc.size = nc.footer then
                let bins2 := removeAddr bins1 (header + sz)
                let chunks2 := eraseChunk chunks1 (header + sz)
                let lcs := if s.last_chunk = header + sz then 0 else s.last_chunk_size
                some (add_free_chunk
                  { s with chunks := chunks2, bins := bins2, free_memory := fm,
                           last_chunk_size := lcs } hdr1 (sz1 + nc.size))
              else none
            else
              some (add_free_chunk
                { s with chunks := chunks1, bins := bins1, free_memory := fm } hdr1 sz1)
          | none =>
            some (add_free_chunk
              { s with chunks := chunks1, bins := bins1, free_memory := fm } hdr1 sz1)
      else none

/-- `realloc`: returns the final state, the returned pointer (`none`
for `NULL`) and, when the data was moved, the ghost byte count handed
to `memcpy`.  The `next_header->size + header->size < size` comparison
is transcribed exactly as in the source (the spec flags it as looking
inverted).  `assert` failures are `none`. -/
def realloc (s : MState) (memory : Nat) (sz0 : Nat) :
    Option (MState × Option Nat × Option Nat) :=
  if memory = 0 then
    let (s', r) := malloc s sz0
    some (s', r, none)
  else
    let header := memory - INUSE_HEADER_SIZE
    match lookupChunk s.chunks header with
    | none => none
    | some c =>
      if c.status = true ∧ c.size = c.footer then
        let sz := sz0 + MIN_INUSE_CHUNK_SIZE
        if sz ≤ c.size then
          let left := c.size - sz
          if left < MIN_FREE_CHUNK_SIZE then some (s, some memory, none)
          else
            let chunks1 := setChunk s.chunks header ⟨true, sz, sz⟩
            let chunks2 := setChunk chunks1 (header + sz) ⟨true, left, left⟩
            match free { s with chunks := chunks2 } (header + sz + INUSE_HEADER_SIZE) with
            | none => none
            | some s' => some (s', some memory, none)
        else
          let nextAddr := header + c.size
          let absorb :=
            match lookupChunk s.chunks nextAddr with
            | some nc => if nc.status = false ∧ nc.size + c.size < sz then some nc.size else none
            | none => none
          match absorb with
          | some nsz =>
            let chunks' := setChunk (eraseChunk s.chunks nextAddr) header
              ⟨true, c.size + nsz, c.size + nsz⟩
            some ({ s with
                      chunks := chunks'
                      bins := removeAddr s.bins nextAddr
                      free_memory := s.free_memory - nsz
                      last_chunk_size := 0 },
                  some memory, none)
          | none =>
            let (s', r) := malloc s sz0
            match r with
            | none => some (s', none, none)
            | some p =>
              match free s' memory with
              | none => none
              | some s'' => some (s'', some p, some sz0)
      else none

/-- The verdicts of `check_malloc`: the offending bin sentinel, block
header, block footer, or the context itself (for a `free_memory`
mismatch); `none` from `check_malloc` means the audit is clean. -/
inductive AuditFault where
  | binF (i : Nat)
  | blockF (a : Nat)
  | footerF (a : Nat)
  | ctxF
deriving DecidableEq, Repr

/-- One bin's walk in `check_malloc`: check each block's `FREE` status
and matching footer, and return the sum of the block sizes.  The
`block->prev == last` check holds structurally in the list model, and a
block address holding no header reads garbage and is reported at that
block.  -/
def auditBin (h : Heap) : List Nat → Except AuditFault Nat
  | [] => Except.ok 0
  | a :: t =>
    match lookupChunk h a with
    | none => Except.error (AuditFault.blockF a)
    | some c =>
      if c.status ≠ false then Except.error (AuditFault.blockF a)
      else if c.size ≠ c.footer then
        Except.error (AuditFault.footerF (a + c.size - FOOTER_SIZE))
      else
        match auditBin h t with
        | Except.error f => Except.error f
        | Except.ok n => Except.ok (c.size + n)

/-- The bin loop of `check_malloc`, from bin index `i` on, accumulating
the free-memory sum.  The sentinel status/size checks pass in the model
(see the module comment on zero-initialised buffers). -/
def auditBins (h : Heap) : List (List Nat) → Except AuditFault Nat
  | [] => Except.ok 0
  | b :: bs =>
    match auditBin h b with
    | Except.error f => Except.error f
    | Except.ok n =>
      match auditBins h bs with
      | Except.error f => Except.error f
      | Except.ok m => Except.ok (n + m)

/-- `check_malloc`: walk every bin, then check that the accumulated sum
of free-chunk sizes equals `context.free_memory`. -/
def check_malloc (s : MState) : Option AuditFault :=
  match auditBins s.chunks s.bins with
  | Except.error f => some f
  | Except.ok n => if n = s.free_memory then none else some AuditFault.ctxF

/-! ## Byte-level model of `split_chunk`'s header writes

The chunk-level model above abstracts the `next`/`prev` pointer fields.
`split_chunk` also performs the byte-level writes
`header->next = NULL; header->prev = NULL` on the chunk being handed
out; to reason about the bytes of the returned user region we transcribe
the function's memory writes against a byte-addressed store.  Bitfields
are packed as by GCC on a little-endian target: `status` is bit 0 of the
32-bit word and `size` occupies bits 1-31; words are little-endian.
In `struct free_header`, the packed word is at offset 0, `next` at
offset 8 (after 4 bytes of padding) and `prev` at offset 16. -/

/-- A byte-addressed memory. -/
def BMem := Nat → Nat

/-- Write one byte. -/
def writeByte (m : BMem) (a v : Nat) : BMem :=
  fun x => if x = a then v % 256 else m x

/-- Write a `w`-byte little-endian value at `a`. -/
def writeLE : Nat → BMem → Nat → Nat → BMem
  | 0, m, _, _ => m
  | w + 1, m, a, v => writeLE w (writeByte m a v) (a + 1) (v / 256)

/-- Read a `w`-byte little-endian value at `a`. -/
def readLE : Nat → BMem → Nat → Nat
  | 0, _, _ => 0
  | w + 1, m, a => m a + 256 * readLE w m (a + 1)

/-- The packed `status`/`size` word of a chunk header. -/
def statusSizeWord (st : Bool) (sz : Nat) : Nat :=
  (if st then 1 else 0) + 2 * (sz % 2 ^ 31)

/-- The byte-level writes of `split_chunk header size`.  `succ` is the
address of the list successor found by `find_upper_chunk` for the
residue (a bin sentinel or another free chunk); the residue's `prev` is
read from the successor, and the two neighbour pointers are updated, as
in `add_free_chunk`.  Afterwards the in-use header is written: the
packed word, `next = NULL`, `prev = NULL`, and the footer. -/
def splitWrites (m : BMem) (hdr sz0 succ : Nat) : BMem :=
  let hsize := readLE 4 m hdr / 2
  let left := hsize - sz0
  let m1 :=
    if left < MIN_FREE_CHUNK_SIZE then m
    else
      let r := hdr + sz0
      let prevPtr := readLE 8 m (succ + 16)
      let m_a := writeLE 4 m r (statusSizeWord false left)
      let m_b := writeLE 8 m_a (r + 8) succ
      let m_c := writeLE 8 m_b (r + 16) prevPtr
      let m_d := writeLE 8 m_c (succ + 16) r
      let m_e := writeLE 8 m_d (prevPtr + 8) r
      writeLE 4 m_e (r + left - 4) left
  let sz := if left < MIN_FREE_CHUNK_SIZE then sz0 + left else sz0
  let m2 := writeLE 4 m1 hdr (statusSizeWord true sz)
  let m3 := writeLE 8 m2 (hdr + 8) 0
  let m4 := writeLE 8 m3 (hdr + 16) 0
  writeLE 4 m4 (hdr + sz - 4) sz

/-! ## The allocator invariant and reachable states -/

/-- All addresses on all bin lists, in bin order. -/
def binsJoin (bins : List (List Nat)) : List Nat := bins.flatten

/-- The sum of the header sizes of all chunks on the bin lists. -/
def binsSum (h : Heap) (bins : List (List Nat)) : Nat :=
  ((binsJoin bins).map (sizeAt h)).sum

/-- Address `x` lies inside some chunk of the heap. -/
def covered (h : Heap) (x : Nat) : Prop :=
  ∃ e ∈ h, e.1 ≤ x ∧ x < e.1 + e.2.size

/-- The memory regions the external-allocator oracle will hand out. -/
def extRegions : Option (List (Option (Nat × Nat))) → List (Nat × Nat)
  | none => []
  | some l => l.filterMap id

/-- Validity of the external allocator: the regions it will return are
smaller than 2 GB (the documented buffer bound), pairwise disjoint, and
disjoint from the chunks the context already manages — the C callback
returns fresh memory. -/
def extOK (s : MState) : Prop :=
  (extRegions s.ext).Pairwise (fun p q => p.1 + p.2 ≤ q.1 ∨ q.1 + q.2 ≤ p.1) ∧
  ∀ p ∈ extRegions s.ext, p.2 < 2 ^ 31 ∧ ∀ x, covered s.chunks x → x < p.1 ∨ p.1 + p.2 ≤ x

/-- The allocator invariant: what `init_malloc` establishes and every
operation preserves.  `binsLen`, `binsFree`, `footerEq` and `sumEq` are
what the auditor checks; the remaining components are needed to push
the invariant through the operations (exact class placement for the
escalation walk, validity of the `last_chunk` hint, chunk disjointness
so that header writes never clobber an unrelated header, and oracle
freshness). -/
structure MInv (s : MState) : Prop where
  binsLen : s.bins.length = BIN_NUMBER
  binsFree : ∀ a ∈ binsJoin s.bins, ∃ c, lookupChunk s.chunks a = some c ∧ c.status = false
  binsND : (binsJoin s.bins).Nodup
  freeInBins : ∀ a c, lookupChunk s.chunks a = some c → c.status = false →
    a ∈ binsJoin s.bins
  sumEq : binsSum s.chunks s.bins = s.free_memory
  classEq : ∀ i, i < s.bins.length → ∀ a ∈ s.bins.getD i [],
    i = find_bin (sizeAt s.chunks a)
  lastOK : s.last_chunk_size ≠ 0 → s.last_chunk ∈ binsJoin s.bins ∧
    s.last_chunk_size ≤ sizeAt s.chunks s.last_chunk
  footerEq : ∀ e ∈ s.chunks, e.2.footer = e.2.size
  sizePos : ∀ e ∈ s.chunks, 8 ≤ e.2.size
  disj : s.chunks.Pairwise (fun e f => e.1 + e.2.size ≤ f.1 ∨ f.1 + f.2.size ≤ e.1)
  extOKh : extOK s

/-- Validity of an external-allocator oracle next to a fresh buffer at
`[base, base + sz)`: the regions it will hand out are < 2 GB, pairwise
disjoint, and disjoint from the buffer. -/
def extInit (ext : Option (List (Option (Nat × Nat)))) (base sz : Nat) : Prop :=
  (extRegions ext).Pairwise (fun p q => p.1 + p.2 ≤ q.1 ∨ q.1 + q.2 ≤ p.1) ∧
  ∀ p ∈ extRegions ext, p.2 < 2 ^ 31 ∧ (base + sz ≤ p.1 ∨ p.1 + p.2 ≤ base)

/-- States reachable from `initialise` by the public operations, under
the documented preconditions: buffers and requests stay below 2 GB
(31-bit size fields), caller-supplied and callback-supplied buffers are
fresh memory, and a buffer is large enough for the context. -/
inductive Reach : MState → Prop where
  | init (base sz : Nat) (ext : Option (List (Option (Nat × Nat)))) :
      CONTEXT_SIZE ≤ sz → sz < 2 ^ 31 →
      extInit ext base sz →
      Reach (init_malloc base sz ext)
  | step_alloc (s : MState) (n : Nat) :
      Reach s → n + MIN_INUSE_CHUNK_SIZE < 2 ^ 31 →
      Reach (malloc s n).1
  | step_free (s : MState) (p : Nat) (s' : MState) :
      Reach s → free s p = some s' → Reach s'
  | step_realloc (s : MState) (p n : Nat) (out : MState × Option Nat × Option Nat) :
      Reach s → n + MIN_INUSE_CHUNK_SIZE < 2 ^ 31 →
      realloc s p n = some out → Reach out.1
  | step_add_buffer (s : MState) (b sz : Nat) :
      Reach s → sz < 2 ^ 31 →
      (∀ x, covered s.chunks x → x < b ∨ b + sz ≤ x) →
      (∀ p ∈ extRegions s.ext, b + sz ≤ p.1 ∨ p.1 + p.2 ≤ b) →
      Reach (add_malloc_buffer s b sz)
  | step_set_ext (s : MState) (ext : Option (List (Option (Nat × Nat)))) :
      Reach s → extOK { s with ext := ext } →
      Reach { s with ext := ext }

/-- Equality of the context fields a caller can observe (everything but
the oracle bookkeeping, which models the external allocator's own
state, not the context's). -/
def coreEq (s t : MState) : Prop :=
  s.chunks = t.chunks ∧ s.bins = t.bins ∧ s.free_memory = t.free_memory ∧
    s.last_chunk = t.last_chunk ∧ s.last_chunk_size = t.last_chunk_size

/-! ## Specification of `find_bin` -/

/-- `bin_sizes` is strictly increasing. -/
lemma bs_sorted : bin_sizes.Sorted (· < ·) := by decide

/-- Monotonicity of `bin_sizes` indexing. -/
lemma bin_sizes_mono : ∀ i j : Nat, i ≤ j → j < BIN_NUMBER →
    bin_sizes.getD i 0 ≤ bin_sizes.getD j 0 := by
  intro i j hij hj
  rcases Nat.eq_or_lt_of_le hij with rfl | hlt
  · exact le_refl _
  · have hi : i < bin_sizes.length := lt_trans hlt hj
    rw [List.getD_eq_getElem bin_sizes 0 hi, List.getD_eq_getElem bin_sizes 0 hj]
    exact le_of_lt (List.pairwise_iff_get.1 bs_sorted ⟨i, hi⟩ ⟨j, hj⟩ hlt)

/-- Bounds of the binary-search loop, with no bracketing assumptions. -/
lemma fbLoop_bounds (sz : Nat) : ∀ k mi ma, mi < ma →
    mi ≤ fbLoop sz k mi ma ∧ fbLoop sz k mi ma < ma := by
  intro k
  induction k with
  | zero => intro mi ma h1; simp only [fbLoop]; omega
  | succ k ih =>
    intro mi ma h1
    simp only [fbLoop]
    by_cases he : mi + 1 = ma
    · simp only [if_pos he]; omega
    · simp only [if_neg he]
      by_cases hb : bin_sizes.getD ((mi + ma) / 2) 0 ≤ sz
      · simp only [if_pos hb]
        have := ih ((mi + ma) / 2) ma (by omega)
        omega
      · simp only [if_neg hb]
        have := ih mi ((mi + ma) / 2) (by omega)
        omega

/-- The binary-search loop keeps the bracket
`bin_sizes[min] ≤ sz < bin_sizes[max]` (with `max = BIN_NUMBER` standing
for infinity) and, with enough fuel, narrows it to one bin. -/
lemma fbLoop_spec (sz : Nat) : ∀ k mi ma, mi < ma → ma ≤ BIN_NUMBER → ma ≤ mi + k + 1 →
    bin_sizes.getD mi 0 ≤ sz → (ma = BIN_NUMBER ∨ sz < bin_sizes.getD ma 0) →
    mi ≤ fbLoop sz k mi ma ∧ fbLoop sz k mi ma < ma ∧
      bin_sizes.getD (fbLoop sz k mi ma) 0 ≤ sz ∧
      (fbLoop sz k mi ma + 1 = BIN_NUMBER ∨ sz < bin_sizes.getD (fbLoop sz k mi ma + 1) 0) := by
  intro k
  induction k with
  | zero =>
    intro mi ma h1 h2 h3 h4 h5
    have hma : ma = mi + 1 := by omega
    simp only [fbLoop]
    subst hma
    exact ⟨le_refl _, Nat.lt_succ_self _, h4, h5⟩
  | succ k ih =>
    intro mi ma h1 h2 h3 h4 h5
    simp only [fbLoop]
    by_cases he : mi + 1 = ma
    · simp only [if_pos he]
      subst he
      exact ⟨le_refl _, Nat.lt_succ_self _, h4, h5⟩
    · simp only [if_neg he]
      have hc1 : mi + 1 ≤ (mi + ma) / 2 := by omega
      have hc2 : (mi + ma) / 2 + 1 ≤ ma := by omega
      by_cases hb : bin_sizes.getD ((mi + ma) / 2) 0 ≤ sz
      · simp only [if_pos hb]
        have := ih ((mi + ma) / 2) ma (by omega) h2 (by omega) hb h5
        exact ⟨by omega, this.2.1, this.2.2.1, this.2.2.2⟩
      · simp only [if_neg hb]
        have := ih mi ((mi + ma) / 2) (by omega) (by omega) (by omega) h4
          (Or.inr (by omega))
        exact ⟨this.1, by omega, this.2.2.1, this.2.2.2⟩

/-- `find_bin` always returns a valid bin index. -/
lemma find_bin_lt (sz : Nat) : find_bin sz < BIN_NUMBER := by
  have := fbLoop_bounds sz BIN_NUMBER 0 BIN_NUMBER (by decide)
  exact this.2

/-- For `8 ≤ sz`, `find_bin sz` is a bin whose class contains `sz`:
its left boundary is `≤ sz` and the next boundary (if any) is `> sz`. -/
lemma find_bin_spec (sz : Nat) (h8 : 8 ≤ sz) :
    bin_sizes.getD (find_bin sz) 0 ≤ sz ∧
      (find_bin sz + 1 = BIN_NUMBER ∨ sz < bin_sizes.getD (find_bin sz + 1) 0) := by
  have h := fbLoop_spec sz BIN_NUMBER 0 BIN_NUMBER (by decide) (le_refl _) (by decide)
    (by simpa using h8) (Or.inl rfl)
  exact ⟨h.2.2.1, h.2.2.2⟩

/-- For `8 ≤ sz`, `find_bin sz` is the largest index whose boundary is `≤ sz`. -/
lemma find_bin_largest (sz : Nat) (h8 : 8 ≤ sz) :
    ∀ j, j < BIN_NUMBER → bin_sizes.getD j 0 ≤ sz → j ≤ find_bin sz := by
  intro j hj hbj
  by_contra hgt
  push_neg at hgt
  have hspec := find_bin_spec sz h8
  rcases hspec.2 with h89 | hup
  · omega
  · have : bin_sizes.getD (find_bin sz + 1) 0 ≤ bin_sizes.getD j 0 :=
      bin_sizes_mono _ _ (by omega) hj
    omega

/-- A chunk that fits a request lands in a bin at least as high as the
request's bin: `find_bin` is monotone. -/
lemma find_bin_mono (sz sz' : Nat) (h8 : 8 ≤ sz) (hle : sz ≤ sz') :
    find_bin sz ≤ find_bin sz' := by
  have h8' : 8 ≤ sz' := le_trans h8 hle
  exact find_bin_largest sz' h8' (find_bin sz) (find_bin_lt sz)
    (le_trans (find_bin_spec sz h8).1 hle)

/-! ## Byte-store lemmas -/

/-- Writes do not affect bytes outside their range. -/
lemma writeLE_out : ∀ (w : Nat) (m : BMem) (a v x : Nat), (x < a ∨ a + w ≤ x) →
    writeLE w m a v x = m x := by
  intro w
  induction w with
  | zero => intro m a v x _; rfl
  | succ w ih =>
    intro m a v x hx
    simp only [writeLE]
    rw [ih _ _ _ _ (by omega)]
    simp only [writeByte]
    rw [if_neg (by omega)]

/-- Writing the value `0` zeroes every byte in range. -/
lemma writeLE_zero : ∀ (w : Nat) (m : BMem) (a x : Nat), a ≤ x → x < a + w →
    writeLE w m a 0 x = 0 := by
  intro w
  induction w with
  | zero => intro m a x h1 h2; omega
  | succ w ih =>
    intro m a x h1 h2
    simp only [writeLE]
    by_cases hxa : x = a
    · subst hxa
      rw [writeLE_out _ _ _ _ _ (by omega)]
      simp [writeByte]
    · exact ih _ _ _ (by omega) (by omega)

/-! ## Heap lemmas -/

/-- Reading through an erasure. -/
lemma lookupChunk_erase (h : Heap) (a b : Nat) :
    lookupChunk (eraseChunk h a) b = if b = a then none else lookupChunk h b := by
  induction h with
  | nil => simp [eraseChunk, lookupChunk]
  | cons e t ih =>
    obtain ⟨k, c⟩ := e
    simp only [eraseChunk]
    by_cases hka : k = a
    · subst hka
      rw [if_pos rfl, ih]
      by_cases hbk : b = k
      · simp [hbk]
      · simp [lookupChunk, hbk]
    · rw [if_neg hka]
      simp only [lookupChunk]
      by_cases hbk : b = k
      · subst hbk
        have hba : ¬ b = a := hka
        simp [hba]
      · rw [if_neg hbk, ih]
        by_cases hba : b = a
        · simp [hba]
        · simp [hba, lookupChunk, hbk]

/-- Reading back a freshly written header. -/
lemma lookupChunk_set_self (h : Heap) (a : Nat) (c : Chunk) :
    lookupChunk (setChunk h a c) a = some c := by
  simp [setChunk, lookupChunk]

/-- A header write leaves other addresses unchanged. -/
lemma lookupChunk_set_ne (h : Heap) (a b : Nat) (c : Chunk) (hne : b ≠ a) :
    lookupChunk (setChunk h a c) b = lookupChunk h b := by
  simp only [setChunk, lookupChunk, if_neg hne, lookupChunk_erase, hne, if_false]

/-- `sizeAt` after a write, at the written address. -/
lemma sizeAt_set_self (h : Heap) (a : Nat) (c : Chunk) :
    sizeAt (setChunk h a c) a = c.size := by
  simp [sizeAt, lookupChunk_set_self]

/-- `sizeAt` after a write, elsewhere. -/
lemma sizeAt_set_ne (h : Heap) (a b : Nat) (c : Chunk) (hne : b ≠ a) :
    sizeAt (setChunk h a c) b = sizeAt h b := by
  simp [sizeAt, lookupChunk_set_ne _ _ _ _ hne]

/-- The inserted chunk is on the list `insertUpper` builds. -/
lemma mem_insertUpper (h : Heap) : ∀ (l : List Nat) (a sz : Nat), a ∈ insertUpper h l a sz := by
  intro l
  induction l with
  | nil => intro a sz; simp [insertUpper]
  | cons x t ih =>
    intro a sz
    simp only [insertUpper]
    split
    · exact List.mem_cons_of_mem _ (ih a sz)
    · exact List.mem_cons_self _ _

/-- Membership of the list `insertUpper` builds. -/
lemma mem_insertUpper_iff (h : Heap) : ∀ (l : List Nat) (a sz b : Nat),
    b ∈ insertUpper h l a sz ↔ b = a ∨ b ∈ l := by
  intro l
  induction l with
  | nil => intro a sz b; simp [insertUpper]
  | cons x t ih =>
    intro a sz b
    simp only [insertUpper]
    split
    · rw [List.mem_cons, ih, List.mem_cons]
      tauto
    · simp only [List.mem_cons]

/-- Membership of the flattened bins. -/
lemma mem_binsJoin (bins : List (List Nat)) (a : Nat) :
    a ∈ binsJoin bins ↔ ∃ l ∈ bins, a ∈ l := by
  simp [binsJoin, List.mem_flatten]

/-- The list written by `List.set` is one of the resulting lists. -/
lemma self_mem_set (bins : List (List Nat)) (i : Nat) (l' : List Nat)
    (hi : i < bins.length) : l' ∈ bins.set i l' := by
  rw [List.mem_iff_getElem]
  exact ⟨i, by simpa using hi, List.getElem_set_self ..⟩

/-- Membership of the flattened bins after updating one bin. -/
lemma mem_binsJoin_set (bins : List (List Nat)) (i : Nat) (l' : List Nat) (a : Nat)
    (hi : i < bins.length) (ha : a ∈ l') : a ∈ binsJoin (bins.set i l') := by
  rw [mem_binsJoin]
  exact ⟨l', self_mem_set bins i l' hi, ha⟩

/-! ## General lemmas about insertion and the operations -/

/-- `insertUpper` places the new chunk after the entries of size `≤ sz`
and before the first entry of size strictly greater than `sz`. -/
lemma insertUpper_eq (h : Heap) : ∀ (l : List Nat) (a sz : Nat),
    insertUpper h l a sz =
      l.takeWhile (fun x => decide (sizeAt h x ≤ sz)) ++
        a :: l.dropWhile (fun x => decide (sizeAt h x ≤ sz)) := by
  intro l
  induction l with
  | nil => intro a sz; simp [insertUpper]
  | cons x t ih =>
    intro a sz
    simp only [insertUpper, List.takeWhile, List.dropWhile]
    by_cases hx : sizeAt h x ≤ sz
    · simp [hx, ih]
    · simp [hx]

/-- `add_free_chunk` does not touch the external-allocator oracle. -/
lemma add_free_chunk_ext (s : MState) (a sz : Nat) : (add_free_chunk s a sz).ext = s.ext := rfl

/-- `add_malloc_buffer` does not touch the external-allocator oracle. -/
lemma add_malloc_buffer_ext (s : MState) (b m : Nat) :
    (add_malloc_buffer s b m).ext = s.ext := by
  simp only [add_malloc_buffer]
  split
  · rfl
  · rfl

/-! ## Claim theorems: search, splitting, insertion, and the `realloc` bugs -/

/-- Claim C9, counterexample: the claim says `find_bin` returns the
*smallest* index `i` with `bin_sizes[i] ≤ size`.  At `size = 16` (which
satisfies the precondition), index `0` already has `bin_sizes[0] = 8 ≤ 16`,
yet `find_bin 16 = 1`: the result is not the smallest such index. -/
theorem C9_counterexample :
    (16 : Nat) < bin_sizes.getD (BIN_NUMBER - 1) 0 ∧
    bin_sizes.getD 0 0 ≤ 16 ∧ find_bin 16 = 1 := by decide

/-- Claim C9, amended: for every `size` with `8 ≤ size` that satisfies
the precondition `size < bin_sizes[BIN_NUMBER-1]`, the binary search
`find_bin size` returns the *largest* class index `i` such that
`bin_sizes[i] ≤ size` — equivalently, the index of the class whose
half-open interval contains `size`. -/
theorem C9_amended (sz : Nat) (h8 : 8 ≤ sz)
    (_hpre : sz < bin_sizes.getD (BIN_NUMBER - 1) 0) :
    bin_sizes.getD (find_bin sz) 0 ≤ sz ∧
    ∀ j, j < BIN_NUMBER → bin_sizes.getD j 0 ≤ sz → j ≤ find_bin sz :=
  ⟨(find_bin_spec sz h8).1, find_bin_largest sz h8⟩

/-- Claim C9, witness for the amended theorem at `size = 100`. -/
theorem C9_amended_witness :
    bin_sizes.getD (find_bin 100) 0 ≤ 100 ∧
    ∀ j, j < BIN_NUMBER → bin_sizes.getD j 0 ≤ 100 → j ≤ find_bin 100 :=
  C9_amended 100 (by decide) (by decide)

/-- Claim C7: splitting a free chunk of header size `c.size` to satisfy
an allocation of `sz0` bytes (the already-adjusted chunk size, which is
at least `MIN_FREE_CHUNK_SIZE`): the returned user pointer is just past
the in-use header; if the residue `c.size - sz0` is smaller than
`MIN_FREE_CHUNK_SIZE` the allocated chunk is the whole original chunk
and `last_chunk_size` becomes `0`; otherwise the allocated chunk is
exactly `sz0` bytes and the residue at `hdr + sz0` is written as a free
chunk, linked into a bin, and becomes `last_chunk` with
`last_chunk_size` equal to its size.  In both cases `free_memory`
decreases by exactly the allocated chunk's size. -/
theorem C7_split_chunk (s : MState) (hdr sz0 : Nat) (c : Chunk)
    (hlook : lookupChunk s.chunks hdr = some c)
    (hmin : MIN_FREE_CHUNK_SIZE ≤ sz0) (hle : sz0 ≤ c.size)
    (hfm : c.size ≤ s.free_memory) (hbins : s.bins.length = BIN_NUMBER) :
    (split_chunk s hdr sz0).2 = hdr + INUSE_HEADER_SIZE ∧
    (c.size - sz0 < MIN_FREE_CHUNK_SIZE →
      lookupChunk (split_chunk s hdr sz0).1.chunks hdr = some ⟨true, c.size, c.size⟩ ∧
      (split_chunk s hdr sz0).1.last_chunk_size = 0 ∧
      (split_chunk s hdr sz0).1.free_memory + c.size = s.free_memory) ∧
    (MIN_FREE_CHUNK_SIZE ≤ c.size - sz0 →
      lookupChunk (split_chunk s hdr sz0).1.chunks hdr = some ⟨true, sz0, sz0⟩ ∧
      lookupChunk (split_chunk s hdr sz0).1.chunks (hdr + sz0) =
        some ⟨false, c.size - sz0, c.size - sz0⟩ ∧
      (hdr + sz0) ∈ binsJoin (split_chunk s hdr sz0).1.bins ∧
      (split_chunk s hdr sz0).1.last_chunk = hdr + sz0 ∧
      (split_chunk s hdr sz0).1.last_chunk_size = c.size - sz0 ∧
      (split_chunk s hdr sz0).1.free_memory + sz0 = s.free_memory) := by
  have h28 : MIN_FREE_CHUNK_SIZE = 28 := by decide
  by_cases hres : c.size - sz0 < MIN_FREE_CHUNK_SIZE
  · have habs : sz0 + (c.size - sz0) = c.size := by omega
    refine ⟨?_, fun _ => ?_, fun hge => by omega⟩
    · simp only [split_chunk, hlook, if_pos hres]
    · simp only [split_chunk, hlook, if_pos hres, habs]
      refine ⟨lookupChunk_set_self .., by trivial, by omega⟩
  · refine ⟨?_, fun hlt => by omega, fun _ => ?_⟩
    · simp only [split_chunk, hlook, if_neg hres]
    · simp only [split_chunk, hlook, if_neg hres, add_free_chunk]
      refine ⟨lookupChunk_set_self .., ?_, ?_, by trivial, by trivial, by omega⟩
      · rw [lookupChunk_set_ne _ _ _ _ (by omega), lookupChunk_set_self]
      · exact mem_binsJoin_set _ _ _ _ (by rw [hbins]; exact find_bin_lt _)
          (mem_insertUpper _ _ _ _)

/-- Claim C7, witness: splitting a 200-byte free chunk at address 100
to satisfy a 50-byte (adjusted) allocation, in a context with empty
bins and 200 bytes of free memory. -/
theorem C7_split_chunk_witness :
    lookupChunk [(100, (⟨false, 200, 200⟩ : Chunk))] 100 = some ⟨false, 200, 200⟩ ∧
    ((split_chunk ⟨[(100, ⟨false, 200, 200⟩)], List.replicate BIN_NUMBER [], 200, 0, 0,
        none, []⟩ 100 50).2 = 100 + INUSE_HEADER_SIZE ∧
      (200 - 50 < MIN_FREE_CHUNK_SIZE →
        lookupChunk (split_chunk ⟨[(100, ⟨false, 200, 200⟩)], List.replicate BIN_NUMBER [],
          200, 0, 0, none, []⟩ 100 50).1.chunks 100 = some ⟨true, 200, 200⟩ ∧
        (split_chunk ⟨[(100, ⟨false, 200, 200⟩)], List.replicate BIN_NUMBER [],
          200, 0, 0, none, []⟩ 100 50).1.last_chunk_size = 0 ∧
        (split_chunk ⟨[(100, ⟨false, 200, 200⟩)], List.replicate BIN_NUMBER [],
          200, 0, 0, none, []⟩ 100 50).1.free_memory + 200 = 200) ∧
      (MIN_FREE_CHUNK_SIZE ≤ 200 - 50 →
        lookupChunk (split_chunk ⟨[(100, ⟨false, 200, 200⟩)], List.replicate BIN_NUMBER [],
          200, 0, 0, none, []⟩ 100 50).1.chunks 100 = some ⟨true, 50, 50⟩ ∧
        lookupChunk (split_chunk ⟨[(100, ⟨false, 200, 200⟩)], List.replicate BIN_NUMBER [],
          200, 0, 0, none, []⟩ 100 50).1.chunks (100 + 50) = some ⟨false, 200 - 50, 200 - 50⟩ ∧
        (100 + 50) ∈ binsJoin (split_chunk ⟨[(100, ⟨false, 200, 200⟩)],
          List.replicate BIN_NUMBER [], 200, 0, 0, none, []⟩ 100 50).1.bins ∧
        (split_chunk ⟨[(100, ⟨false, 200, 200⟩)], List.replicate BIN_NUMBER [],
          200, 0, 0, none, []⟩ 100 50).1.last_chunk = 100 + 50 ∧
        (split_chunk ⟨[(100, ⟨false, 200, 200⟩)], List.replicate BIN_NUMBER [],
          200, 0, 0, none, []⟩ 100 50).1.last_chunk_size = 200 - 50 ∧
        (split_chunk ⟨[(100, ⟨false, 200, 200⟩)], List.replicate BIN_NUMBER [],
          200, 0, 0, none, []⟩ 100 50).1.free_memory + 50 = 200)) :=
  ⟨by decide, C7_split_chunk ⟨[(100, ⟨false, 200, 200⟩)], List.replicate BIN_NUMBER [],
    200, 0, 0, none, []⟩ 100 50 ⟨false, 200, 200⟩ (by decide) (by decide) (by decide)
    (by decide) (by decide)⟩

/-- Claim C10: `split_chunk` nulls the dead `next` and `prev` pointer
fields of the chunk it hands out, and those fields lie past the in-use
header: at byte offsets `8..23` from the chunk header — offsets `4..19`
of the returned user region, which starts at `header + 4` — the memory
is zero immediately after allocation, whatever it held before and
whatever the residue bookkeeping wrote.  `sz0` is the adjusted chunk
size of the allocation, which is at least `MIN_FREE_CHUNK_SIZE`. -/
theorem C10_user_bytes_zero (m : BMem) (hdr sz0 succ : Nat)
    (hmin : MIN_FREE_CHUNK_SIZE ≤ sz0) :
    ∀ o, INUSE_HEADER_SIZE + 4 ≤ o → o < FREE_HEADER_SIZE →
      splitWrites m hdr sz0 succ (hdr + o) = 0 := by
  intro o h8 h24
  have hmin28 : (28 : Nat) ≤ sz0 := hmin
  have h8' : (8 : Nat) ≤ o := h8
  have h24' : o < 24 := h24
  unfold splitWrites
  set hsize := readLE 4 m hdr / 2 with hh
  set left := hsize - sz0 with hl
  set sz := if left < MIN_FREE_CHUNK_SIZE then sz0 + left else sz0 with hszdef
  have hsz28 : 28 ≤ sz := by
    rw [hszdef]; split <;> omega
  rw [writeLE_out 4 _ _ _ _ (by omega)]
  by_cases hi : o < 16
  · rw [writeLE_out 8 _ _ _ _ (by omega)]
    exact writeLE_zero 8 _ _ _ (by omega) (by omega)
  · exact writeLE_zero 8 _ _ _ (by omega) (by omega)

/-- Claim C10, witness: a split of a 40-byte free chunk at address 0
(size word `2 * 40` at offset 0) for an adjusted request of 28 bytes;
the byte at user offset 4 (absolute offset 8) reads zero. -/
theorem C10_user_bytes_zero_witness :
    MIN_FREE_CHUNK_SIZE ≤ 28 ∧
    splitWrites (writeLE 4 (fun _ => 85) 0 (2 * 40)) 0 28 1000 (0 + 8) = 0 :=
  ⟨by decide, C10_user_bytes_zero (writeLE 4 (fun _ => 85) 0 (2 * 40)) 0 28 1000
    (by decide) 8 (by decide) (by decide)⟩

/-- Claim C8: a newly-freed chunk is inserted into its bin immediately
before the first list entry whose size is strictly greater than its own
(at the end of the list — the sentinel — if none exists), so equal-size
chunks sit oldest-first and allocation, which takes the first fitting
entry, serves them FIFO.  First conjunct: the insertion of
`add_free_chunk` splits the bin at exactly that point.  Remaining
conjuncts: the end-to-end scenario — after allocating three equal-size
chunks A (user address 2180), B (2288), C (2396) from a fresh context
and releasing A, then C, then B, the next same-size allocation returns
A's former address. -/
theorem C8_insertion_fifo :
    (∀ (h : Heap) (l : List Nat) (a sz : Nat),
      insertUpper h l a sz =
        l.takeWhile (fun x => decide (sizeAt h x ≤ sz)) ++
          a :: l.dropWhile (fun x => decide (sizeAt h x ≤ sz))) ∧
    (malloc (init_malloc 0 12000 none) 100).2 = some 2180 ∧
    (malloc (malloc (init_malloc 0 12000 none) 100).1 100).2 = some 2288 ∧
    (malloc (malloc (malloc (init_malloc 0 12000 none) 100).1 100).1 100).2 = some 2396 ∧
    ((((free (malloc (malloc (malloc (init_malloc 0 12000 none) 100).1 100).1 100).1
          2180).bind
        (fun s => free s 2396)).bind (fun s => free s 2288)).map
      (fun s => (malloc s 100).2)) = some (some 2180) :=
  ⟨insertUpper_eq, by decide, by decide, by decide, by decide⟩

/-- Claim C3 is the intended behaviour; this theorem documents the code
bug.  Concrete run: a fresh 12000-byte context, two 100-byte
allocations (users 2180 and 2288), the second released.  The in-use
chunk at header 2176 has size 108 and its next neighbour in address
order, at 2284, is free with size 9708; resizing user 2180 to 150 bytes
needs `150 + MIN_INUSE_CHUNK_SIZE = 158 ≤ 108 + 9708` bytes, so by the
claim `resize` should absorb the neighbour in place and return 2180.
Because the source's guard is `next_header.size + header.size < size`
(inverted), the absorb branch is skipped and the call takes the
copy-and-move path, returning the different pointer 2288. -/
theorem C3_code_bug :
    ((free (malloc (malloc (init_malloc 0 12000 none) 100).1 100).1 2288).map (fun s =>
      (lookupChunk s.chunks 2176, lookupChunk s.chunks 2284,
        (realloc s 2180 150).map (fun out => out.2.1)))) =
      some (some ⟨true, 108, 108⟩, some ⟨false, 9708, 9708⟩, some (some 2288)) ∧
    150 + MIN_INUSE_CHUNK_SIZE ≤ 108 + 9708 ∧ (2288 : Nat) ≠ 2180 := by
  refine ⟨by decide, by decide, by decide⟩

/-- Claim C6 is the intended behaviour; this theorem documents the code
bug.  In the same run as for C3, the move path of `resize` hands
`memcpy` the *new* size 150 (the ghost third component), although the
old chunk's user region holds only `108 - MIN_INUSE_CHUNK_SIZE = 100`
bytes: the source copies `new_size` bytes, not
`min(old_user_size, new_size) = 100`, reading past the old region. -/
theorem C6_code_bug :
    ((free (malloc (malloc (init_malloc 0 12000 none) 100).1 100).1 2288).map (fun s =>
      (lookupChunk s.chunks 2176, (realloc s 2180 150).map (fun out => out.2.2)))) =
      some (some ⟨true, 108, 108⟩, some (some 150)) ∧
    min (108 - MIN_INUSE_CHUNK_SIZE) 150 = 100 ∧ (150 : Nat) ≠ 100 := by
  refine ⟨by decide, by decide, by decide⟩

/-- Claim C4, counterexample: a context with 66 bytes of free memory
and an installed growth callback; the allocation `allocate 100` cannot
be satisfied (`108 > 66`), the callback is invoked — but it is asked
for a minimum of `124 = max(100 + 8, 28) + 2*8` bytes, not the claimed
`100 + 2 * MIN_INUSE_CHUNK_SIZE = 116`. -/
theorem C4_counterexample :
    (malloc (init_malloc 0 2250 (some [some (10000, 300)])) 100).1.extCalls = [124] ∧
    100 + 2 * MIN_INUSE_CHUNK_SIZE = 116 ∧ (124 : Nat) ≠ 116 := by
  refine ⟨by decide, by decide, by decide⟩

/-- Claim C4, amended: when a request of `n` bytes cannot be satisfied
from the current free memory and the installed growth callback answers
with a region `(b, m)` of sufficient size, `allocate` asks the callback
for a minimum of `max(n + MIN_INUSE_CHUNK_SIZE, MIN_FREE_CHUNK_SIZE)
+ 2 * MIN_INUSE_CHUNK_SIZE` bytes (recorded in the ghost trace),
registers the returned region via `add_buffer`, and then retries the
allocation once on the grown context. -/
theorem C4_amended (s : MState) (n b m : Nat) (rest : List (Option (Nat × Nat)))
    (hext : s.ext = some (some (b, m) :: rest))
    (hoom : s.free_memory < max (n + MIN_INUSE_CHUNK_SIZE) MIN_FREE_CHUNK_SIZE)
    (hm : max (n + MIN_INUSE_CHUNK_SIZE) MIN_FREE_CHUNK_SIZE + 2 * MIN_INUSE_CHUNK_SIZE ≤ m) :
    malloc s n =
      malloc
        (add_malloc_buffer
          { s with
              ext := some rest
              extCalls := s.extCalls ++
                [max (n + MIN_INUSE_CHUNK_SIZE) MIN_FREE_CHUNK_SIZE + 2 * MIN_INUSE_CHUNK_SIZE] }
          b m)
        (max (n + MIN_INUSE_CHUNK_SIZE) MIN_FREE_CHUNK_SIZE - MIN_INUSE_CHUNK_SIZE) := by
  have hol : oracleLen s.ext = rest.length + 1 := by rw [hext]; rfl
  conv =>
    lhs
    rw [malloc, hol]
  rw [mallocF]
  rw [if_pos hoom]
  rw [out_of_memoryC, hext]
  simp only []
  rw [if_neg (by omega)]
  conv =>
    rhs
    rw [malloc, add_malloc_buffer_ext]
  rfl

/-- Claim C4, witness for the amended theorem: the counterexample
context, where the callback is asked for 124 bytes and offers 300 at
address 10000. -/
theorem C4_amended_witness :
    (init_malloc 0 2250 (some [some (10000, 300)])).ext = some (some (10000, 300) :: []) ∧
    (init_malloc 0 2250 (some [some (10000, 300)])).free_memory <
      max (100 + MIN_INUSE_CHUNK_SIZE) MIN_FREE_CHUNK_SIZE ∧
    malloc (init_malloc 0 2250 (some [some (10000, 300)])) 100 =
      malloc
        (add_malloc_buffer
          { init_malloc 0 2250 (some [some (10000, 300)]) with
              ext := some []
              extCalls := (init_malloc 0 2250 (some [some (10000, 300)])).extCalls ++
                [max (100 + MIN_INUSE_CHUNK_SIZE) MIN_FREE_CHUNK_SIZE +
                  2 * MIN_INUSE_CHUNK_SIZE] }
          10000 300)
        (max (100 + MIN_INUSE_CHUNK_SIZE) MIN_FREE_CHUNK_SIZE - MIN_INUSE_CHUNK_SIZE) :=
  ⟨by decide, by decide,
    C4_amended (init_malloc 0 2250 (some [some (10000, 300)])) 100 10000 300 []
      (by decide) (by decide) (by decide)⟩

/-- Claim C2, counterexample: when the allocation is satisfied through
the growth callback, `release (allocate n)` is *not* a no-op on
`free_memory`: starting from 66 bytes free, `allocate 100` triggers the
callback, a 300-byte buffer is registered, and after releasing the
returned pointer `free_memory` is 350, not 66 — although `audit` is
still clean. -/
theorem C2_counterexample :
    (init_malloc 0 2250 (some [some (10000, 300)])).free_memory = 66 ∧
    (malloc (init_malloc 0 2250 (some [some (10000, 300)])) 100).2 = some 10012 ∧
    ((free (malloc (init_malloc 0 2250 (some [some (10000, 300)])) 100).1 10012).map
      MState.free_memory) = some 350 ∧
    ((free (malloc (init_malloc 0 2250 (some [some (10000, 300)])) 100).1 10012).map
      check_malloc) = some none ∧
    (350 : Nat) ≠ 66 := by
  refine ⟨by decide, by decide, by decide, by decide, by decide⟩

lemma lookup_mem {h : Heap} {a : Nat} {c : Chunk} (hl : lookupChunk h a = some c) :
    (a, c) ∈ h := by
  induction h with
  | nil => simp [lookupChunk] at hl
  | cons e t ih =>
    obtain ⟨k, c'⟩ := e
    simp only [lookupChunk] at hl
    by_cases hak : a = k
    · subst hak
      rw [if_pos rfl] at hl
      cases hl
      exact List.mem_cons_self _ _
    · rw [if_neg hak] at hl
      exact List.mem_cons_of_mem _ (ih hl)

lemma mem_eraseChunk {h : Heap} {a : Nat} {e : Nat × Chunk} :
    e ∈ eraseChunk h a ↔ e ∈ h ∧ e.1 ≠ a := by
  induction h with
  | nil => simp [eraseChunk]
  | cons f t ih =>
    obtain ⟨k, c⟩ := f
    simp only [eraseChunk]
    by_cases hka : k = a
    · subst hka
      rw [if_pos rfl, ih]
      constructor
      · rintro ⟨h1, h2⟩
        exact ⟨List.mem_cons_of_mem _ h1, h2⟩
      · rintro ⟨h1, h2⟩
        rcases List.mem_cons.1 h1 with rfl | h1
        · simp at h2
        · exact ⟨h1, h2⟩
    · rw [if_neg hka]
      simp only [List.mem_cons, ih]
      constructor
      · rintro (rfl | ⟨h1, h2⟩)
        · exact ⟨Or.inl rfl, hka⟩
        · exact ⟨Or.inr h1, h2⟩
      · rintro ⟨rfl | h1, h2⟩
        · exact Or.inl rfl
        · exact Or.inr ⟨h1, h2⟩

lemma eraseChunk_sublist (h : Heap) (a : Nat) : (eraseChunk h a).Sublist h := by
  induction h with
  | nil => simp [eraseChunk]
  | cons f t ih =>
    obtain ⟨k, c⟩ := f
    simp only [eraseChunk]
    by_cases hka : k = a
    · rw [if_pos hka]
      exact ih.cons _
    · rw [if_neg hka]
      exact ih.cons₂ _

lemma eraseChunk_of_none {h : Heap} {a : Nat} (hl : lookupChunk h a = none) :
    eraseChunk h a = h := by
  induction h with
  | nil => rfl
  | cons f t ih =>
    obtain ⟨k, c⟩ := f
    simp only [lookupChunk] at hl
    by_cases hak : a = k
    · rw [if_pos hak] at hl; cases hl
    · rw [if_neg hak] at hl
      have hka : ¬ k = a := fun hka => hak hka.symm
      simp only [eraseChunk, if_neg hka, ih hl]

lemma mem_setChunk {h : Heap} {a : Nat} {c : Chunk} {e : Nat × Chunk} :
    e ∈ setChunk h a c ↔ e = (a, c) ∨ (e ∈ h ∧ e.1 ≠ a) := by
  simp only [setChunk, List.mem_cons, mem_eraseChunk]

/-- Entries found by `lookupChunk` are unique under disjointness. -/
lemma lookup_of_mem {h : Heap} {a : Nat} {c : Chunk}
    (hd : h.Pairwise (fun e f => e.1 + e.2.size ≤ f.1 ∨ f.1 + f.2.size ≤ e.1))
    (hpos : ∀ e ∈ h, 8 ≤ e.2.size)
    (hmem : (a, c) ∈ h) : lookupChunk h a = some c := by
  induction h with
  | nil => simp at hmem
  | cons f t ih =>
    obtain ⟨k, c'⟩ := f
    rcases List.mem_cons.1 hmem with heq | hmem'
    · cases heq
      simp [lookupChunk]
    · simp only [lookupChunk]
      by_cases hak : a = k
      · subst hak
        exfalso
        have hrel := (List.pairwise_cons.1 hd).1 _ hmem'
        have h1 := hpos _ (List.mem_cons_self _ _)
        have h2 := hpos _ (List.mem_cons_of_mem _ hmem')
        simp only at hrel h1 h2
        omega
      · rw [if_neg hak]
        exact ih (List.pairwise_cons.1 hd).2 (fun e he => hpos e (List.mem_cons_of_mem _ he))
          hmem'

/-- No chunk header lies strictly inside another chunk. -/
lemma interior_none {h : Heap} {a : Nat} {c : Chunk} {x : Nat}
    (hd : h.Pairwise (fun e f => e.1 + e.2.size ≤ f.1 ∨ f.1 + f.2.size ≤ e.1))
    (hpos : ∀ e ∈ h, 8 ≤ e.2.size)
    (hmem : (a, c) ∈ h) (h1 : a < x) (h2 : x < a + c.size) :
    lookupChunk h x = none := by
  cases hlx : lookupChunk h x with
  | none => rfl
  | some cx =>
    exfalso
    have hmx := lookup_mem hlx
    have hne : ((a, c) : Nat × Chunk) ≠ (x, cx) := by
      intro he
      cases he
      omega
    have hsym : Symmetric (fun (e f : Nat × Chunk) =>
        e.1 + e.2.size ≤ f.1 ∨ f.1 + f.2.size ≤ e.1) := by
      intro e f hef
      tauto
    have := List.Pairwise.forall hsym hd hmem hmx hne
    have hp := hpos _ hmx
    simp only at this hp
    omega

/-! bins toolkit -/

lemma removeAddr_length (bins : List (List Nat)) (a : Nat) :
    (removeAddr bins a).length = bins.length := by
  simp [removeAddr]

lemma getD_removeAddr (bins : List (List Nat)) (a : Nat) (i : Nat) :
    (removeAddr bins a).getD i [] = (bins.getD i []).erase a := by
  simp only [removeAddr]
  by_cases hi : i < bins.length
  · rw [List.getD_eq_getElem _ _ (by simpa using hi), List.getD_eq_getElem _ _ hi]
    simp
  · rw [List.getD_eq_default _ _ (by simpa using Nat.le_of_not_lt hi),
      List.getD_eq_default _ _ (by simpa using Nat.le_of_not_lt hi)]
    simp

lemma binsJoin_removeAddr (bins : List (List Nat)) (a : Nat)
    (hnd : (binsJoin bins).Nodup) :
    binsJoin (removeAddr bins a) = (binsJoin bins).erase a := by
  induction bins with
  | nil => simp [removeAddr, binsJoin]
  | cons b bs ih =>
    have hnd2 := List.nodup_append.1 (show (b ++ binsJoin bs).Nodup by
      simpa [binsJoin] using hnd)
    simp only [removeAddr, List.map, binsJoin, List.flatten] at ih ⊢
    by_cases hab : a ∈ b
    · rw [List.erase_append_left _ hab]
      have hrest : ∀ l ∈ bs, l.erase a = l := by
        intro l hl
        apply List.erase_of_not_mem
        intro hal
        exact hnd2.2.2 hab (by
          show a ∈ binsJoin bs
          rw [mem_binsJoin]; exact ⟨l, hl, hal⟩)
      have hmap : List.map (fun l => l.erase a) bs = List.map id bs :=
        List.map_congr_left hrest
      rw [hmap, List.map_id]
    · rw [List.erase_append_right _ hab, List.erase_of_not_mem hab, ih hnd2.2.1]

lemma binsSum_congr (h h' : Heap) (bins : List (List Nat))
    (hc : ∀ a ∈ binsJoin bins, sizeAt h' a = sizeAt h a) :
    binsSum h' bins = binsSum h bins := by
  unfold binsSum
  rw [List.map_congr_left hc]

lemma sizeAt_mem_le_sum (h : Heap) (l : List Nat) (a : Nat) (ha : a ∈ l) :
    sizeAt h a ≤ (l.map (sizeAt h)).sum := by
  induction l with
  | nil => simp at ha
  | cons x t ih =>
    rcases List.mem_cons.1 ha with rfl | ha2
    · simp
    · simp only [List.map_cons, List.sum_cons]
      exact le_trans (ih ha2) (Nat.le_add_left _ _)

lemma sum_erase_add (h : Heap) (l : List Nat) (a : Nat) (ha : a ∈ l) :
    ((l.erase a).map (sizeAt h)).sum + sizeAt h a = (l.map (sizeAt h)).sum := by
  have hp : List.Perm l (a :: l.erase a) := List.perm_cons_erase ha
  have := (hp.map (sizeAt h)).sum_eq
  simp only [List.map_cons, List.sum_cons] at this
  omega

lemma binsJoin_set_perm (bins : List (List Nat)) (bi : Nat) (l2 : List Nat)
    (hbi : bi < bins.length) (hperm : List.Perm l2 (bins.getD bi [])) :
    List.Perm (binsJoin (bins.set bi l2)) (binsJoin bins) := by
  induction bins generalizing bi with
  | nil => simp at hbi
  | cons b bs ih =>
    cases bi with
    | zero =>
      simp only [List.set, binsJoin, List.flatten]
      exact hperm.append_right _
    | succ j =>
      simp only [List.set, binsJoin, List.flatten]
      exact List.Perm.append_left _ (ih j (by simpa using hbi) hperm)

lemma insertUpper_perm (h : Heap) (l : List Nat) (a sz : Nat) :
    List.Perm (insertUpper h l a sz) (a :: l) := by
  rw [insertUpper_eq]
  have h2 : List.Perm
      (l.takeWhile (fun x => decide (sizeAt h x ≤ sz)) ++
        a :: l.dropWhile (fun x => decide (sizeAt h x ≤ sz)))
      (a :: (l.takeWhile (fun x => decide (sizeAt h x ≤ sz)) ++
        l.dropWhile (fun x => decide (sizeAt h x ≤ sz)))) := List.perm_middle
  rw [List.takeWhile_append_dropWhile] at h2
  exact h2

lemma binsJoin_set_cons_perm (bins : List (List Nat)) (bi : Nat) (l2 : List Nat) (a : Nat)
    (hbi : bi < bins.length) (hperm : List.Perm l2 (a :: bins.getD bi [])) :
    List.Perm (binsJoin (bins.set bi l2)) (a :: binsJoin bins) := by
  induction bins generalizing bi with
  | nil => simp at hbi
  | cons b bs ih =>
    cases bi with
    | zero =>
      simp only [List.set, binsJoin, List.flatten]
      exact hperm.append_right _
    | succ j =>
      simp only [List.set, binsJoin, List.flatten]
      exact (List.Perm.append_left b (ih j (by simpa using hbi) hperm)).trans
        List.perm_middle

lemma getD_set_self (bins : List (List Nat)) (i : Nat) (l2 : List Nat)
    (hi : i < bins.length) : (bins.set i l2).getD i [] = l2 := by
  rw [List.getD_eq_getElem _ _ (by simpa using hi)]
  exact List.getElem_set_self ..

lemma getD_set_ne (bins : List (List Nat)) (i j : Nat) (l2 : List Nat)
    (hne : j ≠ i) : (bins.set i l2).getD j [] = bins.getD j [] := by
  by_cases hj : j < bins.length
  · rw [List.getD_eq_getElem _ _ (by simpa using hj), List.getD_eq_getElem _ _ hj]
    exact List.getElem_set_ne (by omega) ..
  · rw [List.getD_eq_default _ _ (by simpa using Nat.le_of_not_lt hj),
      List.getD_eq_default _ _ (by simpa using Nat.le_of_not_lt hj)]

lemma mem_binsJoin_idx (bins : List (List Nat)) (a : Nat) :
    a ∈ binsJoin bins ↔ ∃ i, i < bins.length ∧ a ∈ bins.getD i [] := by
  rw [mem_binsJoin]
  constructor
  · rintro ⟨l, hl, hal⟩
    obtain ⟨i, hi, rfl⟩ := List.mem_iff_getElem.1 hl
    exact ⟨i, hi, by rwa [List.getD_eq_getElem _ _ hi]⟩
  · rintro ⟨i, hi, hai⟩
    refine ⟨bins[i], List.getElem_mem _, ?_⟩
    rwa [List.getD_eq_getElem _ _ hi] at hai

lemma find_chunk_some (h : Heap) : ∀ (l : List Nat) (sz a : Nat),
    find_chunk h l sz = some a → a ∈ l ∧ sz ≤ sizeAt h a := by
  intro l
  induction l with
  | nil => intro sz a hf; simp [find_chunk] at hf
  | cons x t ih =>
    intro sz a hf
    simp only [find_chunk] at hf
    by_cases hx : sz ≤ sizeAt h x
    · rw [if_pos hx] at hf
      cases hf
      exact ⟨List.mem_cons_self _ _, hx⟩
    · rw [if_neg hx] at hf
      obtain ⟨h1, h2⟩ := ih sz a hf
      exact ⟨List.mem_cons_of_mem _ h1, h2⟩

lemma find_chunk_none (h : Heap) : ∀ (l : List Nat) (sz : Nat),
    find_chunk h l sz = none → ∀ x ∈ l, sizeAt h x < sz := by
  intro l
  induction l with
  | nil => intro sz _ x hx; simp at hx
  | cons y t ih =>
    intro sz hf x hx
    simp only [find_chunk] at hf
    by_cases hy : sz ≤ sizeAt h y
    · rw [if_pos hy] at hf; cases hf
    · rw [if_neg hy] at hf
      rcases List.mem_cons.1 hx with rfl | hx'
      · omega
      · exact ih sz hf x hx'

lemma firstNE_eq (bins : List (List Nat)) (i : Nat) :
    firstNE bins i =
      if i < bins.length then
        (if bins.getD i [] = [] then firstNE bins (i + 1) else some i)
      else none := by
  by_cases hi : i < bins.length
  · rw [if_pos hi]
    unfold firstNE
    rw [List.drop_eq_getElem_cons hi]
    simp only [firstNEAux]
    rw [List.getD_eq_getElem _ _ hi]
  · rw [if_neg hi]
    unfold firstNE
    rw [List.drop_eq_nil_of_le (Nat.le_of_not_lt hi)]
    rfl

lemma firstNE_some (bins : List (List Nat)) : ∀ (k i j : Nat), bins.length ≤ i + k →
    firstNE bins i = some j →
    i ≤ j ∧ j < bins.length ∧ bins.getD j [] ≠ [] ∧
      ∀ m, i ≤ m → m < j → bins.getD m [] = [] := by
  intro k
  induction k with
  | zero =>
    intro i j hk hf
    rw [firstNE_eq, if_neg (by omega)] at hf
    cases hf
  | succ k ih =>
    intro i j hk hf
    rw [firstNE_eq] at hf
    by_cases hi : i < bins.length
    · rw [if_pos hi] at hf
      by_cases he : bins.getD i [] = []
      · rw [if_pos he] at hf
        obtain ⟨h1, h2, h3, h4⟩ := ih (i + 1) j (by omega) hf
        refine ⟨by omega, h2, h3, ?_⟩
        intro m hm1 hm2
        rcases Nat.eq_or_lt_of_le hm1 with rfl | hm
        · exact he
        · exact h4 m hm hm2
      · rw [if_neg he] at hf
        cases hf
        exact ⟨le_refl _, hi, he, fun m h1 h2 => by omega⟩
    · rw [if_neg hi] at hf
      cases hf

lemma firstNE_none (bins : List (List Nat)) : ∀ (k i : Nat), bins.length ≤ i + k →
    firstNE bins i = none →
    ∀ m, i ≤ m → m < bins.length → bins.getD m [] = [] := by
  intro k
  induction k with
  | zero =>
    intro i hk hf m h1 h2
    omega
  | succ k ih =>
    intro i hk hf m h1 h2
    rw [firstNE_eq, if_pos (by omega)] at hf
    by_cases he : bins.getD i [] = []
    · rw [if_pos he] at hf
      rcases Nat.eq_or_lt_of_le h1 with rfl | hm
      · exact he
      · exact ih (i + 1) (by omega) hf m hm h2
    · rw [if_neg he] at hf
      cases hf

lemma firstNE_isSome_of_nonempty (bins : List (List Nat)) (i j : Nat)
    (hij : i ≤ j) (hj : j < bins.length) (hne : bins.getD j [] ≠ []) :
    ∃ j2, firstNE bins i = some j2 ∧ j2 ≤ j := by
  cases hf : firstNE bins i with
  | none =>
    exact absurd (firstNE_none bins bins.length i (by omega) hf j hij hj) hne
  | some j2 =>
    obtain ⟨h1, h2, h3, h4⟩ := firstNE_some bins bins.length i j2 (by omega) hf
    refine ⟨j2, rfl, ?_⟩
    by_contra hgt
    exact hne (h4 j hij (by omega))

/-- What `add_free_chunk` does to a context whose bins are well formed
and do not yet hold the address being registered. -/
lemma add_free_chunk_spec (T : MState) (a sz : Nat)
    (hlen : T.bins.length = BIN_NUMBER)
    (hnd : (binsJoin T.bins).Nodup)
    (hna : a ∉ binsJoin T.bins) :
    (add_free_chunk T a sz).chunks = setChunk T.chunks a ⟨false, sz, sz⟩ ∧
    (add_free_chunk T a sz).bins.length = BIN_NUMBER ∧
    List.Perm (binsJoin (add_free_chunk T a sz).bins) (a :: binsJoin T.bins) ∧
    (binsJoin (add_free_chunk T a sz).bins).Nodup ∧
    binsSum (add_free_chunk T a sz).chunks (add_free_chunk T a sz).bins =
      sz + binsSum T.chunks T.bins ∧
    ((∀ i, i < T.bins.length → ∀ x ∈ T.bins.getD i [],
        i = find_bin (sizeAt T.chunks x)) →
      ∀ i, i < (add_free_chunk T a sz).bins.length →
        ∀ x ∈ (add_free_chunk T a sz).bins.getD i [],
          i = find_bin (sizeAt (add_free_chunk T a sz).chunks x)) ∧
    (add_free_chunk T a sz).free_memory = T.free_memory ∧
    (add_free_chunk T a sz).last_chunk = T.last_chunk ∧
    (add_free_chunk T a sz).last_chunk_size = T.last_chunk_size ∧
    (add_free_chunk T a sz).ext = T.ext ∧
    (add_free_chunk T a sz).extCalls = T.extCalls := by
  have hbi : find_bin sz < T.bins.length := by rw [hlen]; exact find_bin_lt sz
  have hperm : List.Perm (binsJoin (add_free_chunk T a sz).bins) (a :: binsJoin T.bins) := by
    simp only [add_free_chunk]
    exact binsJoin_set_cons_perm _ _ _ _ hbi (insertUpper_perm _ _ _ _)
  have hcset : (add_free_chunk T a sz).chunks = setChunk T.chunks a ⟨false, sz, sz⟩ := rfl
  refine ⟨rfl, by simp [add_free_chunk, hlen], hperm, ?_, ?_, ?_, rfl, rfl, rfl, rfl, rfl⟩
  · exact hperm.symm.nodup (hnd.cons hna)
  · have h1 : binsSum (add_free_chunk T a sz).chunks (add_free_chunk T a sz).bins =
        ((a :: binsJoin T.bins).map (sizeAt (setChunk T.chunks a ⟨false, sz, sz⟩))).sum := by
      unfold binsSum
      rw [hcset] at *
      exact (hperm.map _).sum_eq
    rw [h1]
    simp only [List.map_cons, List.sum_cons, sizeAt_set_self]
    have h2 : (binsJoin T.bins).map (sizeAt (setChunk T.chunks a ⟨false, sz, sz⟩)) =
        (binsJoin T.bins).map (sizeAt T.chunks) :=
      List.map_congr_left (fun x hx => sizeAt_set_ne _ _ _ _ (fun he => hna (he ▸ hx)))
    rw [h2]
    rfl
  · intro hclass i hi x hx
    have hilen : i < T.bins.length := by
      simpa [add_free_chunk, hlen] using hi
    by_cases hieq : i = find_bin sz
    · subst hieq
      simp only [add_free_chunk] at hx
      rw [getD_set_self _ _ _ hbi] at hx
      rcases (mem_insertUpper_iff _ _ _ _ _).1 hx with rfl | hx'
      · rw [hcset, sizeAt_set_self]
      · have hxa : x ≠ a := fun he => hna (he ▸ (mem_binsJoin_idx _ _).2 ⟨_, hbi, hx'⟩)
        rw [hcset, sizeAt_set_ne _ _ _ _ hxa]
        exact hclass _ hbi x hx'
    · simp only [add_free_chunk] at hx
      rw [getD_set_ne _ _ _ _ hieq] at hx
      have hxa : x ≠ a := fun he => hna (he ▸ (mem_binsJoin_idx _ _).2 ⟨_, hilen, hx⟩)
      rw [hcset, sizeAt_set_ne _ _ _ _ hxa]
      exact hclass _ hilen x hx

/-- A point of a chunk's span is covered. -/
lemma covered_of_mem {h : Heap} {e : Nat × Chunk} {x : Nat} (he : e ∈ h)
    (h1 : e.1 ≤ x) (h2 : x < e.1 + e.2.size) : covered h x :=
  ⟨e, he, h1, h2⟩

/-- An interval whose points all avoid the region `[b, b + sz)` lies
entirely on one side of it. -/
lemma span_fresh (k size b sz : Nat) (hpos : 1 ≤ size) (hsz : 1 ≤ sz)
    (hf : ∀ x, k ≤ x → x < k + size → (x < b ∨ b + sz ≤ x)) :
    k + size ≤ b ∨ b + sz ≤ k := by
  have h1 := hf k (le_refl _) (by omega)
  by_cases hb : k < b
  · by_cases h2 : k + size ≤ b
    · exact Or.inl h2
    · have := hf b (by omega) (by omega)
      omega
  · omega

/-- A fresh address holds no header. -/
lemma lookup_none_of_fresh (s : MState) (b sz y : Nat) (hinv : MInv s)
    (hfresh : ∀ x, covered s.chunks x → x < b ∨ b + sz ≤ x)
    (hy1 : b ≤ y) (hy2 : y < b + sz) : lookupChunk s.chunks y = none := by
  cases hl : lookupChunk s.chunks y with
  | none => rfl
  | some c =>
    exfalso
    have hm := lookup_mem hl
    have hp := hinv.sizePos _ hm
    have := hfresh y (covered_of_mem hm (le_refl _) (by omega))
    omega


lemma BOUND_SIZE_eq : BOUND_SIZE = 8 := rfl

lemma MIN_FREE_eq : MIN_FREE_CHUNK_SIZE = 28 := rfl

lemma MIN_INUSE_eq : MIN_INUSE_CHUNK_SIZE = 8 := rfl

lemma INUSE_HEADER_eq : INUSE_HEADER_SIZE = 4 := rfl

lemma BIN_NUMBER_eq : BIN_NUMBER = 89 := rfl

lemma CONTEXT_SIZE_eq : CONTEXT_SIZE = 2168 := rfl

/-- `add_malloc_buffer` on a fresh region preserves the invariant, only
extends the chunk footprint into the region, and (when the region is
accepted) registers a free chunk of `sz - 2 * BOUND_SIZE` bytes. -/
lemma add_malloc_buffer_spec (s : MState) (b sz : Nat)
    (hinv : MInv s)
    (hfresh : ∀ x, covered s.chunks x → x < b ∨ b + sz ≤ x)
    (hofresh : ∀ p ∈ extRegions s.ext, b + sz ≤ p.1 ∨ p.1 + p.2 ≤ b) :
    MInv (add_malloc_buffer s b sz) ∧
    (∀ x, covered (add_malloc_buffer s b sz).chunks x →
      covered s.chunks x ∨ (b ≤ x ∧ x < b + sz)) ∧
    (add_malloc_buffer s b sz).ext = s.ext ∧
    (add_malloc_buffer s b sz).extCalls = s.extCalls ∧
    (add_malloc_buffer s b sz).last_chunk = s.last_chunk ∧
    (add_malloc_buffer s b sz).last_chunk_size = s.last_chunk_size ∧
    s.free_memory ≤ (add_malloc_buffer s b sz).free_memory ∧
    (¬ sz < 2 * BOUND_SIZE + MIN_FREE_CHUNK_SIZE →
      (b + BOUND_SIZE) ∈ binsJoin (add_malloc_buffer s b sz).bins ∧
      sizeAt (add_malloc_buffer s b sz).chunks (b + BOUND_SIZE) = sz - 2 * BOUND_SIZE ∧
      (add_malloc_buffer s b sz).free_memory = s.free_memory + (sz - 2 * BOUND_SIZE)) := by
  by_cases hsmall : sz < 2 * BOUND_SIZE + MIN_FREE_CHUNK_SIZE
  · rw [add_malloc_buffer, if_pos hsmall]
    exact ⟨hinv, fun x hx => Or.inl hx, rfl, rfl, rfl, rfl, le_refl _,
      fun hc => absurd hsmall hc⟩
  · have hsz44 : 2 * BOUND_SIZE + MIN_FREE_CHUNK_SIZE ≤ sz := Nat.le_of_not_lt hsmall
    have hsz44' : (44 : Nat) ≤ sz := hsz44
    -- fresh keys
    have hkey : ∀ y, b ≤ y → y < b + sz → lookupChunk s.chunks y = none :=
      fun y h1 h2 => lookup_none_of_fresh s b sz y hinv hfresh h1 h2
    have hkb : lookupChunk s.chunks b = none := hkey b (le_refl _) (by omega)
    have hkb2 : lookupChunk s.chunks (b + sz - BOUND_SIZE) = none :=
      hkey _ (by rw [BOUND_SIZE_eq]; omega) (by rw [BOUND_SIZE_eq]; omega)
    have hkb8 : lookupChunk s.chunks (b + BOUND_SIZE) = none :=
      hkey _ (by rw [BOUND_SIZE_eq]; omega) (by rw [BOUND_SIZE_eq]; omega)
    -- the result's chunk list, explicitly
    have hb2ne : b + sz - BOUND_SIZE ≠ b := by rw [BOUND_SIZE_eq]; omega
    have hb8ne : b + BOUND_SIZE ≠ b := by rw [BOUND_SIZE_eq]; omega
    have hb8ne2 : b + BOUND_SIZE ≠ b + sz - BOUND_SIZE := by rw [BOUND_SIZE_eq]; omega
    have hchunks2 : setChunk (setChunk s.chunks b ⟨true, BOUND_SIZE, BOUND_SIZE⟩)
        (b + sz - BOUND_SIZE) ⟨true, BOUND_SIZE, BOUND_SIZE⟩ =
        (b + sz - BOUND_SIZE, ⟨true, BOUND_SIZE, BOUND_SIZE⟩) ::
          (b, ⟨true, BOUND_SIZE, BOUND_SIZE⟩) :: s.chunks := by
      have hb2ne' : ¬ b = b + sz - BOUND_SIZE := fun he => hb2ne he.symm
      simp only [setChunk, eraseChunk, if_neg hb2ne', eraseChunk_of_none hkb,
        eraseChunk_of_none hkb2]
    -- the intermediate state handed to add_free_chunk
    have hT : add_malloc_buffer s b sz =
        { add_free_chunk
            { s with chunks := (b + sz - BOUND_SIZE, ⟨true, BOUND_SIZE, BOUND_SIZE⟩) ::
                (b, ⟨true, BOUND_SIZE, BOUND_SIZE⟩) :: s.chunks }
            (b + BOUND_SIZE) (sz - 2 * BOUND_SIZE) with
          free_memory := (add_free_chunk
            { s with chunks := (b + sz - BOUND_SIZE, ⟨true, BOUND_SIZE, BOUND_SIZE⟩) ::
                (b, ⟨true, BOUND_SIZE, BOUND_SIZE⟩) :: s.chunks }
            (b + BOUND_SIZE) (sz - 2 * BOUND_SIZE)).free_memory + (sz - 2 * BOUND_SIZE) } := by
      rw [add_malloc_buffer, if_neg hsmall]
      simp only [hchunks2]
    -- abbreviations
    rw [hT]
    have hB : BOUND_SIZE = 8 := rfl
    set b2 := b + sz - BOUND_SIZE with hb2def
    set S : Chunk := ⟨true, BOUND_SIZE, BOUND_SIZE⟩ with hSdef
    set a := b + BOUND_SIZE with hadef
    set m := sz - 2 * BOUND_SIZE with hmdef
    set L : Heap := (b2, S) :: (b, S) :: s.chunks with hLdef
    set T : MState := { s with chunks := L } with hTdef
    have ha8 : a = b + 8 := by rw [hadef, hB]
    have hm16 : m = sz - 16 := by rw [hmdef, hB]
    have hb28 : b2 = b + sz - 8 := by rw [hb2def, hB]
    have hS8 : S.size = 8 := by rw [hSdef, hB]
    have hm28 : 28 ≤ m := by omega
    have hna : a ∉ binsJoin s.bins := by
      intro hmem
      obtain ⟨c, hc, _⟩ := hinv.binsFree a hmem
      rw [hkb8] at hc
      cases hc
    obtain ⟨sA1, sA2, sA3, sA4, sA5, sA6, sA7, sA8, sA9, sA10, sA11⟩ :=
      add_free_chunk_spec T a m hinv.binsLen hinv.binsND hna
    set A := add_free_chunk T a m with hAdef
    -- keys of s.chunks avoid the region
    have hkeyne : ∀ x c, lookupChunk s.chunks x = some c → x ≠ a ∧ x ≠ b ∧ x ≠ b2 := by
      intro x c hx
      have hmx := lookup_mem hx
      have hp := hinv.sizePos _ hmx
      have := hfresh x (covered_of_mem hmx (le_refl _) (by omega))
      refine ⟨?_, ?_, ?_⟩ <;> omega
    have heL : eraseChunk L a = L := by
      rw [hLdef]
      simp only [eraseChunk, if_neg (show ¬ b2 = a by omega),
        if_neg (show ¬ b = a by omega), eraseChunk_of_none hkb8]
    have hAchunks : A.chunks = (a, ⟨false, m, m⟩) :: (b2, S) :: (b, S) :: s.chunks := by
      rw [sA1, setChunk, heL, hLdef]
    -- lookups in the result, for old keys
    have hlookA : ∀ x, x ≠ a → x ≠ b → x ≠ b2 →
        lookupChunk A.chunks x = lookupChunk s.chunks x := by
      intro x h1 h2 h3
      rw [hAchunks]
      simp only [lookupChunk, if_neg h1, if_neg h2, if_neg h3]
    have hjoins : ∀ x ∈ binsJoin s.bins, ∃ c, lookupChunk s.chunks x = some c ∧
        c.status = false ∧ lookupChunk A.chunks x = some c := by
      intro x hx
      obtain ⟨c, hc, hcf⟩ := hinv.binsFree x hx
      obtain ⟨h1, h2, h3⟩ := hkeyne x c hc
      exact ⟨c, hc, hcf, by rw [hlookA x h1 h2 h3]; exact hc⟩
    -- spans of old entries avoid the region
    have hspanE : ∀ e ∈ s.chunks, e.1 + e.2.size ≤ b ∨ b + sz ≤ e.1 := by
      intro e he
      have hp := hinv.sizePos _ he
      exact span_fresh e.1 e.2.size b sz (by omega) (by omega)
        (fun x h1 h2 => hfresh x (covered_of_mem he h1 h2))
    -- the covered-extension fact
    have hcov : ∀ x, covered A.chunks x → covered s.chunks x ∨ (b ≤ x ∧ x < b + sz) := by
      intro x hx
      obtain ⟨e, he, he1, he2⟩ := hx
      rw [hAchunks] at he
      rcases List.mem_cons.1 he with rfl | he
      · right
        simp only at he1 he2
        omega
      · rcases List.mem_cons.1 he with rfl | he
        · right
          simp only [hS8] at he2
          simp only at he1
          omega
        · rcases List.mem_cons.1 he with rfl | he
          · right
            simp only [hS8] at he2
            simp only at he1
            omega
          · exact Or.inl ⟨e, he, he1, he2⟩
    -- sizeAt is unchanged on the old bins
    have hsizeT : ∀ x ∈ binsJoin s.bins, sizeAt L x = sizeAt s.chunks x := by
      intro x hx
      obtain ⟨c, hc, _⟩ := hinv.binsFree x hx
      obtain ⟨h1, h2, h3⟩ := hkeyne x c hc
      unfold sizeAt
      rw [hLdef]
      simp only [lookupChunk, if_neg h2, if_neg h3]
    have hsumT : binsSum T.chunks T.bins = s.free_memory := by
      rw [← hinv.sumEq]
      exact binsSum_congr _ _ _ hsizeT
    have hclassT : ∀ i, i < T.bins.length → ∀ x ∈ T.bins.getD i [],
        i = find_bin (sizeAt T.chunks x) := by
      intro i hi x hx
      have h0 := hinv.classEq i hi x hx
      rw [h0]
      congr 1
      exact (hsizeT x ((mem_binsJoin_idx _ _).2 ⟨i, hi, hx⟩)).symm
    have hAfm : A.free_memory = s.free_memory := sA7
    have hminv : MInv { A with free_memory := A.free_memory + m } := by
      refine ⟨sA2, ?_, sA4, ?_, ?_, sA6 hclassT, ?_, ?_, ?_, ?_, ?_⟩
      · -- binsFree
        intro x hx
        have hx2 := List.mem_cons.1 (sA3.mem_iff.1 hx)
        rcases hx2 with rfl | hx3
        · refine ⟨⟨false, m, m⟩, ?_, rfl⟩
          show lookupChunk A.chunks a = _
          rw [sA1]
          exact lookupChunk_set_self ..
        · obtain ⟨c, _, hcf, hcA⟩ := hjoins x hx3
          exact ⟨c, hcA, hcf⟩
      · -- freeInBins
        intro x c hxc hcf
        show x ∈ binsJoin A.bins
        rw [sA3.mem_iff, List.mem_cons]
        by_cases hxa : x = a
        · exact Or.inl hxa
        · right
          have hxc2 : lookupChunk A.chunks x = some c := hxc
          rw [hAchunks] at hxc2
          simp only [lookupChunk, if_neg hxa] at hxc2
          by_cases hxb2 : x = b2
          · rw [if_pos hxb2] at hxc2
            cases hxc2
            rw [hSdef] at hcf
            cases hcf
          · rw [if_neg hxb2] at hxc2
            by_cases hxb : x = b
            · rw [if_pos hxb] at hxc2
              cases hxc2
              rw [hSdef] at hcf
              cases hcf
            · rw [if_neg hxb] at hxc2
              exact hinv.freeInBins x c hxc2 hcf
      · -- sumEq
        show binsSum A.chunks A.bins = A.free_memory + m
        rw [sA5, hsumT, hAfm]
        omega
      · -- lastOK
        intro hlcs
        have hl0 : ({ A with free_memory := A.free_memory + m } : MState).last_chunk_size
            = s.last_chunk_size := sA9
        rw [hl0] at hlcs ⊢
        obtain ⟨hmem, hsz2⟩ := hinv.lastOK hlcs
        have hl1 : ({ A with free_memory := A.free_memory + m } : MState).last_chunk
            = s.last_chunk := sA8
        rw [hl1]
        obtain ⟨c, hc, hcf, hcA⟩ := hjoins s.last_chunk hmem
        refine ⟨?_, ?_⟩
        · rw [sA3.mem_iff, List.mem_cons]
          exact Or.inr hmem
        · show s.last_chunk_size ≤ sizeAt A.chunks s.last_chunk
          unfold sizeAt
          rw [hcA]
          unfold sizeAt at hsz2
          rw [hc] at hsz2
          exact hsz2
      · -- footerEq
        intro e he
        have he2 : e ∈ A.chunks := he
        rw [hAchunks] at he2
        rcases List.mem_cons.1 he2 with rfl | he2
        · rfl
        · rcases List.mem_cons.1 he2 with rfl | he2
          · rfl
          · rcases List.mem_cons.1 he2 with rfl | he2
            · rfl
            · exact hinv.footerEq e he2
      · -- sizePos
        intro e he
        have he2 : e ∈ A.chunks := he
        rw [hAchunks] at he2
        rcases List.mem_cons.1 he2 with rfl | he2
        · show 8 ≤ m
          omega
        · rcases List.mem_cons.1 he2 with rfl | he2
          · show 8 ≤ S.size
            omega
          · rcases List.mem_cons.1 he2 with rfl | he2
            · show 8 ≤ S.size
              omega
            · exact hinv.sizePos e he2
      · -- disj
        show A.chunks.Pairwise _
        rw [hAchunks]
        refine List.pairwise_cons.2 ⟨?_, List.pairwise_cons.2 ⟨?_, List.pairwise_cons.2
          ⟨?_, hinv.disj⟩⟩⟩
        · intro e he
          rcases List.mem_cons.1 he with rfl | he
          · left
            show a + m ≤ b2
            omega
          · rcases List.mem_cons.1 he with rfl | he
            · right
              show b + S.size ≤ a
              omega
            · rcases hspanE e he with h1 | h1
              · right
                show e.1 + e.2.size ≤ a
                omega
              · left
                show a + m ≤ e.1
                omega
        · intro e he
          rcases List.mem_cons.1 he with rfl | he
          · right
            show b + S.size ≤ b2
            omega
          · rcases hspanE e he with h1 | h1
            · right
              show e.1 + e.2.size ≤ b2
              omega
            · left
              show b2 + S.size ≤ e.1
              omega
        · intro e he
          rcases hspanE e he with h1 | h1
          · right
            exact h1
          · left
            show b + S.size ≤ e.1
            omega
      · -- extOK
        obtain ⟨hpw, hreg⟩ := hinv.extOKh
        have hext : ({ A with free_memory := A.free_memory + m } : MState).ext = s.ext := sA10
        refine ⟨?_, ?_⟩
        · rw [hext]
          exact hpw
        · rw [hext]
          intro p hp
          refine ⟨(hreg p hp).1, ?_⟩
          intro x hx
          rcases hcov x hx with hc | hc
          · exact (hreg p hp).2 x hc
          · rcases hofresh p hp with h1 | h1 <;> omega
    refine ⟨hminv, hcov, sA10, sA11, sA8, sA9,
      (show s.free_memory ≤ A.free_memory + m by omega), ?_⟩
    intro _
    refine ⟨?_, ?_, ?_⟩
    · show a ∈ binsJoin A.bins
      rw [sA3.mem_iff, List.mem_cons]
      exact Or.inl rfl
    · show sizeAt A.chunks a = m
      rw [sA1]
      exact sizeAt_set_self ..
    · show A.free_memory + m = s.free_memory + m
      omega

/-- Entries other than the one at `a` avoid the span of the chunk at `a`. -/
lemma disj_other (h : Heap) (a : Nat) (c : Chunk)
    (hd : h.Pairwise (fun e f => e.1 + e.2.size ≤ f.1 ∨ f.1 + f.2.size ≤ e.1))
    (hmem : (a, c) ∈ h) :
    ∀ e ∈ eraseChunk h a, e.1 + e.2.size ≤ a ∨ a + c.size ≤ e.1 := by
  intro e he
  obtain ⟨heh, hene⟩ := mem_eraseChunk.1 he
  have hsym : Symmetric (fun (e f : Nat × Chunk) =>
      e.1 + e.2.size ≤ f.1 ∨ f.1 + f.2.size ≤ e.1) := by
    intro p q hpq
    tauto
  have := List.Pairwise.forall hsym hd hmem heh (fun hcon => hene (by rw [← hcon]))
  tauto

/-- The chunk at a bin-listed address: status, footer, size, budget. -/
lemma bin_chunk_facts (s : MState) (a : Nat) (hinv : MInv s) (ha : a ∈ binsJoin s.bins) :
    ∃ c, lookupChunk s.chunks a = some c ∧ c.status = false ∧ c.footer = c.size ∧
      8 ≤ c.size ∧ c.size = sizeAt s.chunks a ∧ c.size ≤ s.free_memory := by
  obtain ⟨c, hc, hcf⟩ := hinv.binsFree a ha
  have hmem := lookup_mem hc
  refine ⟨c, hc, hcf, hinv.footerEq _ hmem, hinv.sizePos _ hmem, ?_, ?_⟩
  · unfold sizeAt
    rw [hc]
  · have h1 : sizeAt s.chunks a ≤ binsSum s.chunks s.bins := sizeAt_mem_le_sum _ _ _ ha
    rw [hinv.sumEq] at h1
    unfold sizeAt at h1
    rw [hc] at h1
    exact h1

/-- The allocation path of `malloc`: unlink a fitting bin chunk and
split it.  The result keeps the invariant, returns the user pointer
just past the chunk's header, and debits `free_memory` by exactly the
allocated chunk's size. -/
lemma alloc_pick_spec (s : MState) (a sz : Nat)
    (hinv : MInv s) (ha : a ∈ binsJoin s.bins) (h28 : MIN_FREE_CHUNK_SIZE ≤ sz)
    (hfits : sz ≤ sizeAt s.chunks a) :
    MInv (split_chunk { s with bins := removeAddr s.bins a } a sz).1 ∧
    (split_chunk { s with bins := removeAddr s.bins a } a sz).2 = a + INUSE_HEADER_SIZE ∧
    (split_chunk { s with bins := removeAddr s.bins a } a sz).1.ext = s.ext ∧
    (split_chunk { s with bins := removeAddr s.bins a } a sz).1.extCalls = s.extCalls ∧
    ∃ A, sz ≤ A ∧
      lookupChunk (split_chunk { s with bins := removeAddr s.bins a } a sz).1.chunks a =
        some ⟨true, A, A⟩ ∧
      (split_chunk { s with bins := removeAddr s.bins a } a sz).1.free_memory + A =
        s.free_memory := by
  have h28' : (28 : Nat) ≤ sz := h28
  obtain ⟨c, hc, hcfree, hcfoot, hc8, hcsize, hcbudget⟩ := bin_chunk_facts s a hinv ha
  have hfits' : sz ≤ c.size := by rw [hcsize]; exact hfits
  have hamem := lookup_mem hc
  -- the state with the chunk unlinked
  set s1 : MState := { s with bins := removeAddr s.bins a } with hs1def
  have hjoin1 : binsJoin s1.bins = (binsJoin s.bins).erase a :=
    binsJoin_removeAddr _ _ hinv.binsND
  have hnd1 : (binsJoin s1.bins).Nodup := by rw [hjoin1]; exact hinv.binsND.erase a
  have hna1 : a ∉ binsJoin s1.bins := by
    rw [hjoin1]
    exact hinv.binsND.not_mem_erase
  have hmem1 : ∀ x, x ∈ binsJoin s1.bins → x ∈ binsJoin s.bins ∧ x ≠ a := by
    intro x hx
    rw [hjoin1] at hx
    exact ⟨List.mem_of_mem_erase hx, by
      intro he
      subst he
      exact hna1 (by rw [hjoin1]; exact hx)⟩
  have hlen1 : s1.bins.length = BIN_NUMBER := by
    show (removeAddr s.bins a).length = BIN_NUMBER
    rw [removeAddr_length]
    exact hinv.binsLen
  have hsum1 : binsSum s.chunks s1.bins + c.size = s.free_memory := by
    show binsSum s.chunks (removeAddr s.bins a) + c.size = s.free_memory
    unfold binsSum
    rw [binsJoin_removeAddr _ _ hinv.binsND]
    rw [← hinv.sumEq]
    unfold binsSum
    have := sum_erase_add s.chunks (binsJoin s.bins) a ha
    unfold sizeAt at this
    rw [hc] at this
    exact this
  have hclass1 : ∀ i, i < s1.bins.length → ∀ x ∈ s1.bins.getD i [],
      i = find_bin (sizeAt s1.chunks x) := by
    intro i hi x hx
    show i = find_bin (sizeAt s.chunks x)
    have hi' : i < s.bins.length := by
      have : s1.bins.length = s.bins.length := by
        show (removeAddr s.bins a).length = _
        exact removeAddr_length _ _
      omega
    refine hinv.classEq i hi' x ?_
    have : s1.bins.getD i [] = (s.bins.getD i []).erase a := getD_removeAddr _ _ _
    rw [this] at hx
    exact List.mem_of_mem_erase hx
  by_cases hres : c.size - sz < MIN_FREE_CHUNK_SIZE
  · -- absorb: the allocated chunk is the whole chunk
    have hsplit : split_chunk s1 a sz =
        ({ s1 with
            chunks := setChunk s1.chunks a ⟨true, sz + (c.size - sz), sz + (c.size - sz)⟩
            free_memory := s1.free_memory - (sz + (c.size - sz))
            last_chunk_size := 0 }, a + INUSE_HEADER_SIZE) := by
      rw [split_chunk]
      rw [show lookupChunk s1.chunks a = some c from hc]
      simp only [if_pos hres]
    have habs : sz + (c.size - sz) = c.size := by omega
    rw [hsplit]
    simp only
    have hlkres : ∀ x, x ≠ a → lookupChunk (setChunk s.chunks a ⟨true, c.size, c.size⟩) x =
        lookupChunk s.chunks x := fun x hx => lookupChunk_set_ne _ _ _ _ hx
    refine ⟨?_, by trivial, by trivial, by trivial, ⟨c.size, hfits', ?_, ?_⟩⟩
    · refine ⟨hlen1, ?_, hnd1, ?_, ?_, ?_, ?_, ?_, ?_, ?_, ?_⟩
      · -- binsFree
        intro x hx
        obtain ⟨hxs, hxa⟩ := hmem1 x hx
        obtain ⟨cx, hcx, hcxf⟩ := hinv.binsFree x hxs
        refine ⟨cx, ?_, hcxf⟩
        show lookupChunk (setChunk s1.chunks a _) x = some cx
        rw [habs, hlkres x hxa]
        exact hcx
      · -- freeInBins
        intro x cx hcx hcxf
        show x ∈ binsJoin s1.bins
        by_cases hxa : x = a
        · subst hxa
          rw [habs] at hcx
          rw [show lookupChunk (setChunk s1.chunks x ⟨true, c.size, c.size⟩) x =
            some ⟨true, c.size, c.size⟩ from lookupChunk_set_self ..] at hcx
          cases hcx
          cases hcxf
        · rw [habs] at hcx
          rw [hlkres x hxa] at hcx
          have := hinv.freeInBins x cx hcx hcxf
          rw [hjoin1]
          exact List.mem_erase_of_ne hxa |>.2 this
      · -- sumEq
        show binsSum _ s1.bins = s1.free_memory - (sz + (c.size - sz))
        rw [habs]
        have hcongr : binsSum (setChunk s1.chunks a ⟨true, c.size, c.size⟩) s1.bins =
            binsSum s.chunks s1.bins := by
          apply binsSum_congr
          intro x hx
          obtain ⟨hxs, hxa⟩ := hmem1 x hx
          unfold sizeAt
          rw [hlkres x hxa]
        rw [hcongr]
        show binsSum s.chunks s1.bins = s.free_memory - c.size
        omega
      · -- classEq
        intro i hi x hx
        have h0 := hclass1 i hi x hx
        obtain ⟨hxs, hxa⟩ := hmem1 x ((mem_binsJoin_idx _ _).2 ⟨i, hi, hx⟩)
        have hszx : sizeAt (setChunk s1.chunks a
            ⟨true, sz + (c.size - sz), sz + (c.size - sz)⟩) x = sizeAt s1.chunks x := by
          unfold sizeAt
          rw [habs, hlkres x hxa]
        rw [h0, hszx]
      · -- lastOK
        intro hlcs
        exact absurd rfl hlcs
      · -- footerEq
        intro e he
        rcases mem_setChunk.1 he with rfl | ⟨heh, _⟩
        · rfl
        · exact hinv.footerEq e heh
      · -- sizePos
        intro e he
        rcases mem_setChunk.1 he with rfl | ⟨heh, _⟩
        · simp only
          omega
        · exact hinv.sizePos e heh
      · -- disj
        show (setChunk s1.chunks a _).Pairwise _
        rw [habs]
        refine List.pairwise_cons.2 ⟨?_, List.Pairwise.sublist (eraseChunk_sublist _ _) hinv.disj⟩
        intro e he
        have := disj_other s.chunks a c hinv.disj hamem e he
        simp only
        omega
      · -- extOK
        obtain ⟨hpw, hreg⟩ := hinv.extOKh
        refine ⟨hpw, ?_⟩
        intro p hp
        refine ⟨(hreg p hp).1, ?_⟩
        intro x hx
        refine (hreg p hp).2 x ?_
        obtain ⟨e, he, he1, he2⟩ := hx
        rw [habs] at he
        rcases mem_setChunk.1 he with rfl | ⟨heh, _⟩
        · exact covered_of_mem hamem he1 he2
        · exact covered_of_mem heh he1 he2
    · rw [habs]
      exact lookupChunk_set_self ..
    · show s1.free_memory - (sz + (c.size - sz)) + c.size = s.free_memory
      rw [habs]
      show s.free_memory - c.size + c.size = s.free_memory
      omega
  · -- proper split: residue goes back to the bins
    have h28l : MIN_FREE_CHUNK_SIZE ≤ c.size - sz := Nat.le_of_not_lt hres
    have h28l' : (28 : Nat) ≤ c.size - sz := h28l
    have hint : lookupChunk s.chunks (a + sz) = none :=
      interior_none hinv.disj (fun e he => by have := hinv.sizePos e he; omega) hamem
        (by omega) (by omega)
    set T : MState := { s1 with last_chunk := a + sz } with hTdef
    have hna2 : (a + sz) ∉ binsJoin T.bins := by
      intro hmem
      obtain ⟨hxs, _⟩ := hmem1 _ hmem
      obtain ⟨cx, hcx, _⟩ := hinv.binsFree _ hxs
      rw [hint] at hcx
      cases hcx
    obtain ⟨sA1, sA2, sA3, sA4, sA5, sA6, sA7, sA8, sA9, sA10, sA11⟩ :=
      add_free_chunk_spec T (a + sz) (c.size - sz) hlen1 hnd1 hna2
    set A := add_free_chunk T (a + sz) (c.size - sz) with hAdef
    have hsplit : split_chunk s1 a sz =
        ({ A with
            chunks := setChunk A.chunks a ⟨true, sz, sz⟩
            free_memory := A.free_memory - sz
            last_chunk_size := c.size - sz }, a + INUSE_HEADER_SIZE) := by
      rw [split_chunk]
      rw [show lookupChunk s1.chunks a = some c from hc]
      simp only [if_neg hres]
    rw [hsplit]
    simp only
    have hAchunks : A.chunks = (a + sz, ⟨false, c.size - sz, c.size - sz⟩) :: s.chunks := by
      rw [sA1, setChunk]
      rw [show T.chunks = s.chunks from rfl]
      rw [eraseChunk_of_none hint]
    have hreschunks : setChunk A.chunks a ⟨true, sz, sz⟩ =
        (a, ⟨true, sz, sz⟩) :: (a + sz, ⟨false, c.size - sz, c.size - sz⟩) ::
          eraseChunk s.chunks a := by
      rw [setChunk, hAchunks]
      simp only [eraseChunk, if_neg (show ¬ a + sz = a by omega)]
    have hlkres : ∀ x, x ≠ a → x ≠ a + sz →
        lookupChunk (setChunk A.chunks a ⟨true, sz, sz⟩) x = lookupChunk s.chunks x := by
      intro x h1 h2
      rw [hreschunks]
      simp only [lookupChunk, if_neg h1, if_neg h2, lookupChunk_erase, if_neg h1]
    have hAfm : A.free_memory = s.free_memory := sA7
    have hAlast : A.last_chunk = a + sz := sA8
    have hAext : A.ext = s.ext := sA10
    have hAcalls : A.extCalls = s.extCalls := sA11
    have hsum2 : binsSum A.chunks A.bins = (c.size - sz) + binsSum s.chunks s1.bins := sA5
    have hjoinmem : ∀ x ∈ binsJoin A.bins, x = a + sz ∨ (x ∈ binsJoin s.bins ∧ x ≠ a) := by
      intro x hx
      rcases List.mem_cons.1 (sA3.mem_iff.1 hx) with rfl | hx2
      · exact Or.inl rfl
      · exact Or.inr (hmem1 x hx2)
    have hxnotsz : ∀ x, x ∈ binsJoin s.bins → x ≠ a + sz := by
      intro x hxs he
      obtain ⟨cx, hcx, _⟩ := hinv.binsFree x hxs
      rw [he, hint] at hcx
      cases hcx
    refine ⟨?_, by trivial, by trivial, by trivial, ⟨sz, le_refl _, ?_, ?_⟩⟩
    · refine ⟨sA2, ?_, sA4, ?_, ?_, ?_, ?_, ?_, ?_, ?_, ?_⟩
      · -- binsFree
        intro x hx
        rcases hjoinmem x hx with rfl | ⟨hxs, hxa⟩
        · refine ⟨⟨false, c.size - sz, c.size - sz⟩, ?_, rfl⟩
          show lookupChunk (setChunk A.chunks a ⟨true, sz, sz⟩) (a + sz) = _
          rw [hreschunks]
          simp only [lookupChunk, if_neg (show ¬ a + sz = a by omega), if_pos rfl, if_true]
        · obtain ⟨cx, hcx, hcxf⟩ := hinv.binsFree x hxs
          refine ⟨cx, ?_, hcxf⟩
          show lookupChunk (setChunk A.chunks a ⟨true, sz, sz⟩) x = some cx
          rw [hlkres x hxa (hxnotsz x hxs)]
          exact hcx
      · -- freeInBins
        intro x cx hcx hcxf
        show x ∈ binsJoin A.bins
        by_cases hxa : x = a
        · subst hxa
          rw [show lookupChunk (setChunk A.chunks x ⟨true, sz, sz⟩) x =
            some ⟨true, sz, sz⟩ from lookupChunk_set_self ..] at hcx
          cases hcx
          cases hcxf
        · by_cases hxsz : x = a + sz
          · rw [sA3.mem_iff, List.mem_cons]
            exact Or.inl hxsz
          · have hcx2 : lookupChunk s.chunks x = some cx := by
              rw [← hlkres x hxa hxsz]
              exact hcx
            have := hinv.freeInBins x cx hcx2 hcxf
            rw [sA3.mem_iff, List.mem_cons]
            right
            rw [hjoin1]
            exact (List.mem_erase_of_ne hxa).2 this
      · -- sumEq
        show binsSum (setChunk A.chunks a ⟨true, sz, sz⟩) A.bins = A.free_memory - sz
        have hcongr : binsSum (setChunk A.chunks a ⟨true, sz, sz⟩) A.bins =
            binsSum A.chunks A.bins := by
          apply binsSum_congr
          intro x hx
          rcases hjoinmem x hx with rfl | ⟨hxs, hxa⟩
          · unfold sizeAt
            rw [hreschunks, hAchunks]
            simp only [lookupChunk, if_neg (show ¬ a + sz = a by omega), if_pos rfl, if_true]
          · unfold sizeAt
            rw [hlkres x hxa (hxnotsz x hxs), hAchunks]
            simp only [lookupChunk, if_neg (hxnotsz x hxs)]
        rw [hcongr, hsum2, hAfm]
        omega
      · -- classEq
        intro i hi x hx
        have h0 := sA6 (by
          intro i hi x hx
          exact hclass1 i hi x hx) i hi x hx
        rw [h0]
        congr 1
        rcases hjoinmem x ((mem_binsJoin_idx _ _).2
          ⟨i, (show i < A.bins.length from hi), hx⟩) with rfl | ⟨hxs, hxa⟩
        · unfold sizeAt
          rw [hreschunks, hAchunks]
          simp only [lookupChunk, if_neg (show ¬ a + sz = a by omega), if_pos rfl, if_true]
        · unfold sizeAt
          rw [hlkres x hxa (hxnotsz x hxs), hAchunks]
          simp only [lookupChunk, if_neg (hxnotsz x hxs)]
      · -- lastOK
        intro _
        constructor
        · show A.last_chunk ∈ binsJoin A.bins
          rw [hAlast, sA3.mem_iff, List.mem_cons]
          exact Or.inl rfl
        · show _ ≤ sizeAt (setChunk A.chunks a ⟨true, sz, sz⟩) A.last_chunk
          rw [hAlast]
          unfold sizeAt
          rw [hreschunks]
          simp only [lookupChunk, if_neg (show ¬ a + sz = a by omega), if_pos rfl, if_true]
          exact le_refl _
      · -- footerEq
        intro e he
        have he2 : e ∈ setChunk A.chunks a ⟨true, sz, sz⟩ := he
        rw [hreschunks] at he2
        rcases List.mem_cons.1 he2 with rfl | he2
        · rfl
        · rcases List.mem_cons.1 he2 with rfl | he2
          · rfl
          · exact hinv.footerEq e (mem_eraseChunk.1 he2).1
      · -- sizePos
        intro e he
        have he2 : e ∈ setChunk A.chunks a ⟨true, sz, sz⟩ := he
        rw [hreschunks] at he2
        rcases List.mem_cons.1 he2 with rfl | he2
        · show 8 ≤ sz
          omega
        · rcases List.mem_cons.1 he2 with rfl | he2
          · show 8 ≤ c.size - sz
            omega
          · exact hinv.sizePos e (mem_eraseChunk.1 he2).1
      · -- disj
        show (setChunk A.chunks a ⟨true, sz, sz⟩).Pairwise _
        rw [hreschunks]
        refine List.pairwise_cons.2 ⟨?_, List.pairwise_cons.2 ⟨?_,
          List.Pairwise.sublist (eraseChunk_sublist _ _) hinv.disj⟩⟩
        · intro e he
          rcases List.mem_cons.1 he with rfl | he
          · left
            show a + sz ≤ a + sz
            exact le_refl _
          · have := disj_other s.chunks a c hinv.disj hamem e he
            simp only
            omega
        · intro e he
          have := disj_other s.chunks a c hinv.disj hamem e he
          simp only
          omega
      · -- extOK
        obtain ⟨hpw, hreg⟩ := hinv.extOKh
        have hcovres : ∀ x, covered (setChunk A.chunks a ⟨true, sz, sz⟩) x →
            covered s.chunks x := by
          intro x hx
          obtain ⟨e, he, he1, he2⟩ := hx
          rw [hreschunks] at he
          rcases List.mem_cons.1 he with rfl | he
          · refine covered_of_mem hamem he1 ?_
            show x < a + c.size
            have h2 : x < a + sz := he2
            omega
          · rcases List.mem_cons.1 he with rfl | he
            · refine covered_of_mem hamem ?_ ?_
              · show a ≤ x
                have h1 : a + sz ≤ x := he1
                omega
              · show x < a + c.size
                have h2 : x < a + sz + (c.size - sz) := he2
                omega
            · exact covered_of_mem (mem_eraseChunk.1 he).1 he1 he2
        refine ⟨?_, ?_⟩
        · show (extRegions A.ext).Pairwise _
          rw [hAext]
          exact hpw
        · intro p hp
          have hp2 : p ∈ extRegions s.ext := by
            rw [← hAext]
            exact hp
          refine ⟨(hreg p hp2).1, ?_⟩
          intro x hx
          exact (hreg p hp2).2 x (hcovres x hx)
    · exact lookupChunk_set_self ..
    · show A.free_memory - sz + sz = s.free_memory
      rw [hAfm]
      omega

/-- Replacing the oracle by one offering a subset of the regions (and
touching only the ghost call trace) preserves the invariant. -/
lemma minv_ext_sub (s : MState) (ext2 : Option (List (Option (Nat × Nat))))
    (calls2 : List Nat) (hinv : MInv s)
    (hsub : (extRegions ext2).Sublist (extRegions s.ext)) :
    MInv { s with ext := ext2, extCalls := calls2 } := by
  obtain ⟨hpw, hreg⟩ := hinv.extOKh
  refine ⟨hinv.binsLen, hinv.binsFree, hinv.binsND, hinv.freeInBins, hinv.sumEq,
    hinv.classEq, hinv.lastOK, hinv.footerEq, hinv.sizePos, hinv.disj, ?_, ?_⟩
  · exact hpw.sublist hsub
  · intro p hp
    exact hreg p (hsub.mem hp)

/-- The regions of the tail of an oracle form a sublist of its regions. -/
lemma extRegions_tail_sublist (r : Option (Nat × Nat)) (rest : List (Option (Nat × Nat))) :
    (extRegions (some rest)).Sublist (extRegions (some (r :: rest))) := by
  cases r with
  | none => simp [extRegions, List.filterMap]
  | some p =>
    show List.Sublist _ (p :: _)
    exact (List.sublist_cons_self ..)

/-- `out_of_memory` preserves the invariant, given that the retry
continuation does. -/
lemma out_of_memoryC_inv (fuel : Nat) (s : MState) (sz : Nat) (hinv : MInv s)
    (ih : ∀ t n2, MInv t → MInv (mallocF fuel t n2).1) :
    MInv (out_of_memoryC (mallocF fuel) s sz).1 := by
  rw [out_of_memoryC]
  cases hx : s.ext with
  | none => exact hinv
  | some l =>
    cases l with
    | nil =>
      refine minv_ext_sub s (some []) _ hinv ?_
      rw [hx]
    | cons r rest =>
      have hsub : (extRegions (some rest)).Sublist (extRegions s.ext) := by
        rw [hx]
        exact extRegions_tail_sublist r rest
      have hinv1 : MInv { s with
          ext := some rest
          extCalls := s.extCalls ++ [sz + 2 * MIN_INUSE_CHUNK_SIZE] } :=
        minv_ext_sub s _ _ hinv hsub
      cases r with
      | none => exact hinv1
      | some bm =>
        obtain ⟨b, m⟩ := bm
        by_cases hm : m < sz + 2 * MIN_INUSE_CHUNK_SIZE
        · simp only [if_pos hm]
          exact hinv1
        · simp only [if_neg hm]
          have hbm : (b, m) ∈ extRegions s.ext := by
            rw [hx]
            show (b, m) ∈ List.filterMap id (some (b, m) :: rest)
            simp [List.filterMap]
          obtain ⟨hpw, hreg⟩ := hinv.extOKh
          have hfresh : ∀ x, covered ({ s with
              ext := some rest
              extCalls := s.extCalls ++ [sz + 2 * MIN_INUSE_CHUNK_SIZE] } : MState).chunks x →
              x < b ∨ b + m ≤ x := by
            intro x hxc
            exact (hreg _ hbm).2 x hxc
          have hofresh : ∀ p ∈ extRegions (some rest), b + m ≤ p.1 ∨ p.1 + p.2 ≤ b := by
            intro p hp
            have : List.Pairwise (fun p q => p.1 + p.2 ≤ q.1 ∨ q.1 + q.2 ≤ p.1)
                ((b, m) :: extRegions (some rest)) := by
              have he : extRegions s.ext = (b, m) :: extRegions (some rest) := by
                rw [hx]
                show List.filterMap id (some (b, m) :: rest) = _
                simp [extRegions, List.filterMap]
              rw [he] at hpw
              exact hpw
            have := (List.pairwise_cons.1 this).1 p hp
            tauto
          obtain ⟨hinv2, _⟩ := add_malloc_buffer_spec _ b m hinv1 hfresh hofresh
          exact ih _ _ hinv2

/-- `malloc` (at any fuel) preserves the allocator invariant. -/
lemma mallocF_inv : ∀ (fuel : Nat) (s : MState) (n : Nat), MInv s →
    MInv (mallocF fuel s n).1 := by
  intro fuel
  induction fuel with
  | zero => intro s n hinv; exact hinv
  | succ fuel ih =>
    intro s n hinv
    rw [mallocF]
    by_cases h1 : s.free_memory < max (n + MIN_INUSE_CHUNK_SIZE) MIN_FREE_CHUNK_SIZE
    · rw [if_pos h1]
      exact out_of_memoryC_inv fuel s _ hinv ih
    · rw [if_neg h1]
      have h28 : MIN_FREE_CHUNK_SIZE ≤ max (n + MIN_INUSE_CHUNK_SIZE) MIN_FREE_CHUNK_SIZE :=
        le_max_right _ _
      set sz := max (n + MIN_INUSE_CHUNK_SIZE) MIN_FREE_CHUNK_SIZE with hszdef
      cases hfe : firstNE s.bins (find_bin sz) with
      | none =>
        simp only
        exact out_of_memoryC_inv fuel s _ hinv ih
      | some i =>
        simp only
        obtain ⟨hi1, hi2, hi3, hi4⟩ := firstNE_some s.bins s.bins.length _ i (by omega) hfe
        -- the candidate chunk
        have hpick : ∀ a0, (a0 ∈ binsJoin s.bins ∧ sz ≤ sizeAt s.chunks a0) →
            MInv ((fun a0 =>
              (let a := if sz < sizeAt s.chunks a0 ∧ sz ≤ s.last_chunk_size ∧
                  sz ≤ MAX_SMALL_REQUEST then s.last_chunk else a0
               let s1 := { s with bins := removeAddr s.bins a }
               let r := split_chunk s1 a sz
               (r.1, some r.2))) a0).1 := by
          intro a0 ⟨ha0, hsz0⟩
          by_cases hheur : sz < sizeAt s.chunks a0 ∧ sz ≤ s.last_chunk_size ∧
              sz ≤ MAX_SMALL_REQUEST
          · simp only [if_pos hheur]
            have hlcs : s.last_chunk_size ≠ 0 := by
              have : (28 : Nat) ≤ sz := h28
              omega
            obtain ⟨hmem, hszl⟩ := hinv.lastOK hlcs
            exact (alloc_pick_spec s s.last_chunk sz hinv hmem h28
              (le_trans hheur.2.1 hszl)).1
          · simp only [if_neg hheur]
            exact (alloc_pick_spec s a0 sz hinv ha0 h28 hsz0).1
        have hlen89 : s.bins.length = 89 := by
          have := hinv.binsLen
          rw [BIN_NUMBER_eq] at this
          exact this
        have h8sz : (8 : Nat) ≤ sz := le_trans (by rw [MIN_FREE_eq]; omega) h28
        cases hfc : find_chunk s.chunks (s.bins.getD i []) sz with
        | some a =>
          simp only [hfc]
          obtain ⟨hmem2, hsz2⟩ := find_chunk_some s.chunks _ sz a hfc
          exact hpick a ⟨(mem_binsJoin_idx _ _).2 ⟨i, hi2, hmem2⟩, hsz2⟩
        | none =>
          simp only [hfc]
          cases hf2 : firstNE s.bins (i + 1) with
          | none =>
            simp only
            exact out_of_memoryC_inv fuel s _ hinv ih
          | some j =>
            simp only
            obtain ⟨hj1, hj2, hj3, hj4⟩ := firstNE_some s.bins s.bins.length _ j (by omega) hf2
            cases hhd : (s.bins.getD j []).head? with
            | none =>
              simp only
              exact out_of_memoryC_inv fuel s _ hinv ih
            | some a0 =>
              simp only
              have hmem0 : a0 ∈ s.bins.getD j [] := by
                cases hgd : s.bins.getD j [] with
                | nil => rw [hgd] at hhd; cases hhd
                | cons y t =>
                  rw [hgd] at hhd
                  cases hhd
                  exact List.mem_cons_self _ _
              have hjoin0 : a0 ∈ binsJoin s.bins := (mem_binsJoin_idx _ _).2 ⟨j, hj2, hmem0⟩
              obtain ⟨c0, hc0, _, _, hc08, hc0size, _⟩ := bin_chunk_facts s a0 hinv hjoin0
              have hclassj : j = find_bin (sizeAt s.chunks a0) := hinv.classEq j hj2 a0 hmem0
              have hfits0 : sz ≤ sizeAt s.chunks a0 := by
                rcases (find_bin_spec sz h8sz).2 with h89 | hup
                · rw [BIN_NUMBER_eq] at h89
                  omega
                · have hmono : bin_sizes.getD (find_bin sz + 1) 0 ≤ bin_sizes.getD j 0 := by
                    refine bin_sizes_mono _ _ (by omega) ?_
                    rw [BIN_NUMBER_eq]
                    omega
                  have hlow : bin_sizes.getD j 0 ≤ sizeAt s.chunks a0 := by
                    rw [hclassj]
                    exact (find_bin_spec (sizeAt s.chunks a0) (by omega)).1
                  omega
              exact hpick a0 ⟨hjoin0, hfits0⟩

/-- Two distinct-keyed entries of a disjoint heap have disjoint spans. -/
lemma disj_pair {h : Heap} {e f : Nat × Chunk}
    (hd : h.Pairwise (fun e f => e.1 + e.2.size ≤ f.1 ∨ f.1 + f.2.size ≤ e.1))
    (he : e ∈ h) (hf : f ∈ h) (hne : e.1 ≠ f.1) :
    e.1 + e.2.size ≤ f.1 ∨ f.1 + f.2.size ≤ e.1 := by
  have hsym : Symmetric (fun (x y : Nat × Chunk) =>
      x.1 + x.2.size ≤ y.1 ∨ y.1 + y.2.size ≤ x.1) := by
    intro x y hxy
    tauto
  exact List.Pairwise.forall hsym hd he hf (fun hc => hne (by rw [hc]))

/-- Registering a fresh free chunk re-establishes the allocator
invariant, given that the state already satisfies every component
relative to the chunk about to be added. -/
lemma afc_minv (T : MState) (a sz : Nat)
    (hlen : T.bins.length = BIN_NUMBER)
    (hnd : (binsJoin T.bins).Nodup)
    (hna : a ∉ binsJoin T.bins)
    (hfree : ∀ x ∈ binsJoin T.bins, ∃ c, lookupChunk T.chunks x = some c ∧ c.status = false)
    (hfib : ∀ x cx, lookupChunk T.chunks x = some cx → cx.status = false →
      x = a ∨ x ∈ binsJoin T.bins)
    (hsum : binsSum T.chunks T.bins + sz = T.free_memory)
    (hclass : ∀ i, i < T.bins.length → ∀ x ∈ T.bins.getD i [],
      i = find_bin (sizeAt T.chunks x))
    (hlast : T.last_chunk_size ≠ 0 →
      (T.last_chunk = a ∧ T.last_chunk_size ≤ sz) ∨
      (T.last_chunk ∈ binsJoin T.bins ∧ T.last_chunk ≠ a ∧
        T.last_chunk_size ≤ sizeAt T.chunks T.last_chunk))
    (hfoot : ∀ e ∈ T.chunks, e.2.footer = e.2.size)
    (hpos : ∀ e ∈ T.chunks, 8 ≤ e.2.size)
    (hsz8 : 8 ≤ sz)
    (hdisj : T.chunks.Pairwise (fun e f => e.1 + e.2.size ≤ f.1 ∨ f.1 + f.2.size ≤ e.1))
    (hspan : ∀ e ∈ eraseChunk T.chunks a, e.1 + e.2.size ≤ a ∨ a + sz ≤ e.1)
    (hpw : (extRegions T.ext).Pairwise (fun p q => p.1 + p.2 ≤ q.1 ∨ q.1 + q.2 ≤ p.1))
    (hreg : ∀ p ∈ extRegions T.ext, p.2 < 2 ^ 31 ∧
      ∀ x, (covered T.chunks x ∨ (a ≤ x ∧ x < a + sz)) → x < p.1 ∨ p.1 + p.2 ≤ x) :
    MInv (add_free_chunk T a sz) := by
  obtain ⟨sA1, sA2, sA3, sA4, sA5, sA6, sA7, sA8, sA9, sA10, sA11⟩ :=
    add_free_chunk_spec T a sz hlen hnd hna
  set A := add_free_chunk T a sz with hAdef
  have hmemA : ∀ x, x ∈ binsJoin A.bins ↔ x = a ∨ x ∈ binsJoin T.bins := by
    intro x
    rw [sA3.mem_iff, List.mem_cons]
  refine ⟨sA2, ?_, sA4, ?_, ?_, sA6 hclass, ?_, ?_, ?_, ?_, ?_⟩
  · -- binsFree
    intro x hx
    rcases (hmemA x).1 hx with rfl | hx'
    · exact ⟨⟨false, sz, sz⟩, by rw [sA1]; exact lookupChunk_set_self .., rfl⟩
    · have hxa : x ≠ a := fun he => hna (he ▸ hx')
      obtain ⟨cx, hcx, hf⟩ := hfree x hx'
      exact ⟨cx, by rw [sA1, lookupChunk_set_ne _ _ _ _ hxa]; exact hcx, hf⟩
  · -- freeInBins
    intro x cx hcx hf
    by_cases hxa : x = a
    · exact (hmemA x).2 (Or.inl hxa)
    · rw [sA1, lookupChunk_set_ne _ _ _ _ hxa] at hcx
      rcases hfib x cx hcx hf with heq | hx'
      · exact absurd heq hxa
      · exact (hmemA x).2 (Or.inr hx')
  · -- sumEq
    have hAfm : A.free_memory = T.free_memory := sA7
    omega
  · -- lastOK
    intro hl0
    have hl0' : T.last_chunk_size ≠ 0 := by
      have : A.last_chunk_size = T.last_chunk_size := sA9
      omega
    have hAl : A.last_chunk = T.last_chunk := sA8
    rcases hlast hl0' with ⟨heq, hle⟩ | ⟨hmem, hne, hle⟩
    · constructor
      · rw [hAl, heq]
        exact (hmemA a).2 (Or.inl rfl)
      · rw [hAl, heq, sA1, sizeAt_set_self]
        show A.last_chunk_size ≤ sz
        have : A.last_chunk_size = T.last_chunk_size := sA9
        omega
    · constructor
      · rw [hAl]
        exact (hmemA _).2 (Or.inr hmem)
      · rw [hAl, sA1, sizeAt_set_ne _ _ _ _ hne]
        have : A.last_chunk_size = T.last_chunk_size := sA9
        omega
  · -- footerEq
    intro e he
    rw [sA1] at he
    rcases mem_setChunk.1 he with rfl | ⟨heT, _⟩
    · rfl
    · exact hfoot e heT
  · -- sizePos
    intro e he
    rw [sA1] at he
    rcases mem_setChunk.1 he with rfl | ⟨heT, _⟩
    · exact hsz8
    · exact hpos e heT
  · -- disj
    rw [sA1]
    show ((a, (⟨false, sz, sz⟩ : Chunk)) :: eraseChunk T.chunks a).Pairwise _
    refine List.pairwise_cons.2 ⟨?_, List.Pairwise.sublist (eraseChunk_sublist _ _) hdisj⟩
    intro e he
    have := hspan e he
    simp only
    tauto
  · -- extOK
    have hAe : A.ext = T.ext := sA10
    refine ⟨?_, ?_⟩
    · rw [hAe]
      exact hpw
    · rw [hAe]
      intro p hp
      refine ⟨(hreg p hp).1, ?_⟩
      intro x hx
      obtain ⟨e, he, he1, he2⟩ := hx
      rw [sA1] at he
      rcases mem_setChunk.1 he with rfl | ⟨heT, _⟩
      · exact (hreg p hp).2 x (Or.inr ⟨he1, he2⟩)
      · exact (hreg p hp).2 x (Or.inl ⟨e, heT, he1, he2⟩)

/-- The state of `free` after the previous-neighbour stage: either no
merge happened (`hdr1 = hdr`) or the free previous neighbour at `hdr1`
was unlinked and the freed chunk absorbed into it.  Packages every fact
the remaining stages need. -/
lemma free_stage (s : MState) (hdr : Nat) (c : Chunk) (hdr1 sz1 : Nat)
    (bins1 : List (List Nat)) (chunks1 : Heap)
    (hinv : MInv s) (hc : lookupChunk s.chunks hdr = some c) (hst : c.status = true)
    (hprev : (hdr1 = hdr ∧ sz1 = c.size ∧ bins1 = s.bins ∧ chunks1 = s.chunks) ∨
      (∃ psz, lookupChunk s.chunks hdr1 = some ⟨false, psz, psz⟩ ∧ hdr1 + psz = hdr ∧
        sz1 = c.size + psz ∧ bins1 = removeAddr s.bins hdr1 ∧
        chunks1 = eraseChunk s.chunks hdr)) :
    (hdr1 + sz1 = hdr + c.size) ∧
    (c.size ≤ sz1) ∧
    (∀ x, x ≠ hdr → lookupChunk chunks1 x = lookupChunk s.chunks x) ∧
    (∀ e, e ∈ chunks1 → e ∈ s.chunks) ∧
    (chunks1.Pairwise (fun e f => e.1 + e.2.size ≤ f.1 ∨ f.1 + f.2.size ≤ e.1)) ∧
    (∀ x ∈ binsJoin bins1, x ∈ binsJoin s.bins ∧ x ≠ hdr1 ∧ x ≠ hdr) ∧
    (∀ x ∈ binsJoin s.bins, x ≠ hdr1 → x ∈ binsJoin bins1) ∧
    ((binsJoin bins1).Nodup) ∧
    (bins1.length = BIN_NUMBER) ∧
    (∀ i x, x ∈ bins1.getD i [] → x ∈ s.bins.getD i []) ∧
    (binsSum chunks1 bins1 + sz1 = s.free_memory + c.size) ∧
    (∀ x, hdr1 ≤ x → x < hdr1 + sz1 → covered s.chunks x) ∧
    (∀ e ∈ s.chunks, e.1 ≠ hdr1 → e.1 ≠ hdr →
      e.1 + e.2.size ≤ hdr1 ∨ hdr + c.size ≤ e.1) ∧
    (hdr1 ∉ binsJoin bins1) ∧
    (∀ cx, lookupChunk chunks1 hdr = some cx → cx.status = true) ∧
    (∀ e ∈ chunks1, e.1 ≠ hdr1 → e.1 ≠ hdr) ∧
    (s.last_chunk_size ≠ 0 →
      (s.last_chunk = hdr1 ∧ s.last_chunk_size ≤ sz1) ∨
      (s.last_chunk ∈ binsJoin bins1 ∧ s.last_chunk ≠ hdr1 ∧
        s.last_chunk_size ≤ sizeAt chunks1 s.last_chunk)) := by
  have hcmem : (hdr, c) ∈ s.chunks := lookup_mem hc
  have h8c : 8 ≤ c.size := hinv.sizePos _ hcmem
  have hdrNB : hdr ∉ binsJoin s.bins := by
    intro hm
    obtain ⟨c2, hc2, hf2⟩ := hinv.binsFree hdr hm
    rw [hc] at hc2
    cases hc2
    exact absurd hf2 (by rw [hst]; simp)
  rcases hprev with ⟨rfl, rfl, rfl, rfl⟩ | ⟨psz, hlkp, hph, rfl, rfl, rfl⟩
  · refine ⟨rfl, le_refl _, fun _ _ => rfl, fun _ h => h, hinv.disj, ?_, fun x hx _ => hx,
      hinv.binsND, hinv.binsLen, fun _ _ h => h, ?_, ?_, ?_, hdrNB, ?_, fun _ _ h => h, ?_⟩
    · intro x hx
      exact ⟨hx, fun he => hdrNB (he ▸ hx), fun he => hdrNB (he ▸ hx)⟩
    · have := hinv.sumEq
      omega
    · intro x h1 h2
      exact ⟨(hdr1, c), hcmem, h1, h2⟩
    · intro e he hne _
      exact disj_pair hinv.disj he hcmem hne
    · intro cx hcx
      rw [hc] at hcx
      cases hcx
      exact hst
    · intro hl0
      obtain ⟨hm, hs⟩ := hinv.lastOK hl0
      exact Or.inr ⟨hm, fun he => hdrNB (he ▸ hm), hs⟩
  · have hpam : (hdr1, (⟨false, psz, psz⟩ : Chunk)) ∈ s.chunks := lookup_mem hlkp
    have h8p : 8 ≤ psz := hinv.sizePos _ hpam
    have hpaB : hdr1 ∈ binsJoin s.bins := hinv.freeInBins hdr1 _ hlkp rfl
    have hne_ph : hdr1 ≠ hdr := by omega
    have hszpa : sizeAt s.chunks hdr1 = psz := by
      unfold sizeAt
      rw [hlkp]
    have hjoin1 : binsJoin (removeAddr s.bins hdr1) = (binsJoin s.bins).erase hdr1 :=
      binsJoin_removeAddr _ _ hinv.binsND
    have P3 : ∀ x, x ≠ hdr →
        lookupChunk (eraseChunk s.chunks hdr) x = lookupChunk s.chunks x := by
      intro x hx
      rw [lookupChunk_erase, if_neg hx]
    have P6 : ∀ x ∈ binsJoin (removeAddr s.bins hdr1),
        x ∈ binsJoin s.bins ∧ x ≠ hdr1 ∧ x ≠ hdr := by
      intro x hx
      rw [hjoin1] at hx
      have hxs := List.mem_of_mem_erase hx
      refine ⟨hxs, ?_, fun he => hdrNB (he ▸ hxs)⟩
      intro he
      subst he
      exact hinv.binsND.not_mem_erase hx
    refine ⟨by omega, by omega, P3, fun e he => (mem_eraseChunk.1 he).1,
      List.Pairwise.sublist (eraseChunk_sublist _ _) hinv.disj, P6, ?_, ?_, ?_, ?_, ?_,
      ?_, ?_, ?_, ?_, fun e he _ => (mem_eraseChunk.1 he).2, ?_⟩
    · intro x hx hne
      rw [hjoin1]
      exact (List.mem_erase_of_ne hne).2 hx
    · rw [hjoin1]
      exact hinv.binsND.erase _
    · rw [removeAddr_length]
      exact hinv.binsLen
    · intro i x hx
      rw [getD_removeAddr] at hx
      exact List.mem_of_mem_erase hx
    · -- accounting
      have hcg : binsSum (eraseChunk s.chunks hdr) (removeAddr s.bins hdr1) =
          binsSum s.chunks (removeAddr s.bins hdr1) := by
        apply binsSum_congr
        intro x hx
        have hxh : x ≠ hdr := (P6 x hx).2.2
        unfold sizeAt
        rw [lookupChunk_erase, if_neg hxh]
      have h1 := sum_erase_add s.chunks (binsJoin s.bins) hdr1 hpaB
      rw [hszpa] at h1
      have h2 := hinv.sumEq
      unfold binsSum at h2
      rw [hcg]
      unfold binsSum
      rw [hjoin1]
      omega
    · intro x h1 h2
      by_cases hxh : x < hdr
      · exact ⟨(hdr1, ⟨false, psz, psz⟩), hpam, h1, by
          show x < hdr1 + psz
          omega⟩
      · exact ⟨(hdr, c), hcmem, by show hdr ≤ x; omega, by show x < hdr + c.size; omega⟩
    · intro e he hne1 hneh
      have d1' : e.1 + e.2.size ≤ hdr1 ∨ hdr1 + psz ≤ e.1 :=
        disj_pair hinv.disj he hpam hne1
      have d2' : e.1 + e.2.size ≤ hdr ∨ hdr + c.size ≤ e.1 :=
        disj_pair hinv.disj he hcmem hneh
      have h8e := hinv.sizePos e he
      omega
    · rw [hjoin1]
      exact hinv.binsND.not_mem_erase
    · intro cx hcx
      rw [lookupChunk_erase, if_pos rfl] at hcx
      cases hcx
    · intro hl0
      obtain ⟨hm, hs⟩ := hinv.lastOK hl0
      by_cases hlp : s.last_chunk = hdr1
      · rw [hlp, hszpa] at hs
        exact Or.inl ⟨hlp, by omega⟩
      · refine Or.inr ⟨by rw [hjoin1]; exact (List.mem_erase_of_ne hlp).2 hm, hlp, ?_⟩
        have hlh : s.last_chunk ≠ hdr := fun he => hdrNB (he ▸ hm)
        have heq : sizeAt (eraseChunk s.chunks hdr) s.last_chunk =
            sizeAt s.chunks s.last_chunk := by
          unfold sizeAt
          rw [lookupChunk_erase, if_neg hlh]
        omega

/-- Each single bin list is duplicate-free when the joined lists are. -/
lemma bin_nodup (bins : List (List Nat)) (i : Nat) (hnd : (binsJoin bins).Nodup) :
    (bins.getD i []).Nodup := by
  induction bins generalizing i with
  | nil => cases i <;> simp
  | cons b bs ih =>
    have hnd2 := List.nodup_append.1 (show (b ++ binsJoin bs).Nodup by
      simpa [binsJoin] using hnd)
    cases i with
    | zero => exact hnd2.1
    | succ j => exact ih j hnd2.2.1

/-- The final stage of `free` when the next neighbour is not merged:
registering the chunk `[hdr1, hdr1 + sz1)` preserves the invariant. -/
lemma free_leaf1 (s : MState) (hdr : Nat) (c : Chunk) (hdr1 sz1 : Nat)
    (bins1 : List (List Nat)) (chunks1 : Heap)
    (hinv : MInv s) (hc : lookupChunk s.chunks hdr = some c) (hst : c.status = true)
    (hprev : (hdr1 = hdr ∧ sz1 = c.size ∧ bins1 = s.bins ∧ chunks1 = s.chunks) ∨
      (∃ psz, lookupChunk s.chunks hdr1 = some ⟨false, psz, psz⟩ ∧ hdr1 + psz = hdr ∧
        sz1 = c.size + psz ∧ bins1 = removeAddr s.bins hdr1 ∧
        chunks1 = eraseChunk s.chunks hdr)) :
    MInv (add_free_chunk { s with chunks := chunks1, bins := bins1, free_memory := s.free_memory + c.size } hdr1 sz1) := by
  obtain ⟨P1, P2, P3, P4, P5, P6, P7, P8, P9, P10, P11, P12, P13, P14, P15, P17, P16⟩ :=
    free_stage s hdr c hdr1 sz1 bins1 chunks1 hinv hc hst hprev
  have h8c : 8 ≤ c.size := hinv.sizePos _ (lookup_mem hc)
  refine afc_minv _ _ _ P9 P8 P14 ?_ ?_ P11 ?_ P16 ?_ ?_ (by omega) P5 ?_ hinv.extOKh.1 ?_
  · -- binsFree
    intro x hx
    obtain ⟨hxs, hxne1, hxneh⟩ := P6 x hx
    obtain ⟨cx, hcx, hf⟩ := hinv.binsFree x hxs
    refine ⟨cx, ?_, hf⟩
    show lookupChunk chunks1 x = some cx
    rw [P3 x hxneh]
    exact hcx
  · -- freeInBins
    intro x cx hcx hf
    by_cases hxh : x = hdr
    · subst hxh
      exact absurd hf (by rw [P15 cx hcx]; simp)
    · rw [show lookupChunk _ x = lookupChunk chunks1 x from rfl, P3 x hxh] at hcx
      have hxs := hinv.freeInBins x cx hcx hf
      by_cases hx1 : x = hdr1
      · exact Or.inl hx1
      · exact Or.inr (P7 x hxs hx1)
  · -- classEq
    intro i hi x hx
    have hxs := P10 i x hx
    have hi' : i < s.bins.length := by
      have h1 : bins1.length = BIN_NUMBER := P9
      have h2 := hinv.binsLen
      show i < s.bins.length
      have h3 : i < bins1.length := hi
      omega
    have hcl := hinv.classEq i hi' x hxs
    have hxj : x ∈ binsJoin bins1 := (mem_binsJoin_idx _ _).2 ⟨i, hi, hx⟩
    have hxneh : x ≠ hdr := (P6 x hxj).2.2
    show i = find_bin (sizeAt chunks1 x)
    have hsz : sizeAt chunks1 x = sizeAt s.chunks x := by
      unfold sizeAt
      rw [P3 x hxneh]
    rw [hsz]
    exact hcl
  · -- footerEq
    intro e he
    exact hinv.footerEq e (P4 e he)
  · -- sizePos
    intro e he
    exact hinv.sizePos e (P4 e he)
  · -- span freshness
    intro e he
    obtain ⟨hec, hene⟩ := mem_eraseChunk.1 he
    have hes := P4 e hec
    have hneh : e.1 ≠ hdr := P17 e hec hene
    have := P13 e hes hene hneh
    omega
  · -- oracle regions
    intro p hp
    refine ⟨(hinv.extOKh.2 p hp).1, ?_⟩
    intro x hx
    rcases hx with ⟨e, he, h1, h2⟩ | ⟨h1, h2⟩
    · exact (hinv.extOKh.2 p hp).2 x ⟨e, P4 e he, h1, h2⟩
    · obtain ⟨e, he, g1, g2⟩ := P12 x h1 h2
      exact (hinv.extOKh.2 p hp).2 x ⟨e, he, g1, g2⟩

/-- The final stage of `free` when the free next neighbour at
`hdr + c.size` is also merged: unlink it and register the union chunk. -/
lemma free_leaf2 (s : MState) (hdr : Nat) (c : Chunk) (hdr1 sz1 nsz : Nat)
    (bins1 : List (List Nat)) (chunks1 : Heap)
    (hinv : MInv s) (hc : lookupChunk s.chunks hdr = some c) (hst : c.status = true)
    (hprev : (hdr1 = hdr ∧ sz1 = c.size ∧ bins1 = s.bins ∧ chunks1 = s.chunks) ∨
      (∃ psz, lookupChunk s.chunks hdr1 = some ⟨false, psz, psz⟩ ∧ hdr1 + psz = hdr ∧
        sz1 = c.size + psz ∧ bins1 = removeAddr s.bins hdr1 ∧
        chunks1 = eraseChunk s.chunks hdr))
    (hnc : lookupChunk chunks1 (hdr + c.size) = some ⟨false, nsz, nsz⟩) :
    MInv (add_free_chunk { s with chunks := eraseChunk chunks1 (hdr + c.size), bins := removeAddr bins1 (hdr + c.size), free_memory := s.free_memory + c.size, last_chunk_size := if s.last_chunk = hdr + c.size then 0 else s.last_chunk_size } hdr1 (sz1 + nsz)) := by
  obtain ⟨P1, P2, P3, P4, P5, P6, P7, P8, P9, P10, P11, P12, P13, P14, P15, P17, P16⟩ :=
    free_stage s hdr c hdr1 sz1 bins1 chunks1 hinv hc hst hprev
  have h8c : 8 ≤ c.size := hinv.sizePos _ (lookup_mem hc)
  set na := hdr + c.size with hnadef
  have hna_ne_h : na ≠ hdr := by omega
  have hlks_na : lookupChunk s.chunks na = some ⟨false, nsz, nsz⟩ := by
    rw [← P3 na hna_ne_h]
    exact hnc
  have hnam : (na, (⟨false, nsz, nsz⟩ : Chunk)) ∈ s.chunks := lookup_mem hlks_na
  have h8n : 8 ≤ nsz := hinv.sizePos _ hnam
  have hnaB : na ∈ binsJoin s.bins := hinv.freeInBins na _ hlks_na rfl
  have hna_ne1 : na ≠ hdr1 := by omega
  have hnaB1 : na ∈ binsJoin bins1 := P7 na hnaB (by omega)
  have hjoin2 : binsJoin (removeAddr bins1 na) = (binsJoin bins1).erase na :=
    binsJoin_removeAddr _ _ P8
  have hszna1 : sizeAt chunks1 na = nsz := by
    unfold sizeAt
    rw [hnc]
  have hmem2 : ∀ x ∈ binsJoin (removeAddr bins1 na), x ≠ na ∧ x ∈ binsJoin bins1 := by
    intro x hx
    rw [hjoin2] at hx
    exact (P8.mem_erase_iff.1 hx)
  refine afc_minv _ _ _ ?_ ?_ ?_ ?_ ?_ ?_ ?_ ?_ ?_ ?_ (by omega) ?_ ?_ hinv.extOKh.1 ?_
  · rw [removeAddr_length]
    exact P9
  · rw [hjoin2]
    exact P8.erase _
  · rw [hjoin2]
    exact fun h => P14 (List.mem_of_mem_erase h)
  · -- binsFree
    intro x hx
    obtain ⟨hxna, hxb1⟩ := hmem2 x hx
    obtain ⟨hxs, hxne1, hxneh⟩ := P6 x hxb1
    obtain ⟨cx, hcx, hf⟩ := hinv.binsFree x hxs
    refine ⟨cx, ?_, hf⟩
    show lookupChunk (eraseChunk chunks1 na) x = some cx
    rw [lookupChunk_erase, if_neg hxna, P3 x hxneh]
    exact hcx
  · -- freeInBins
    intro x cx hcx hf
    rw [show lookupChunk _ x = lookupChunk (eraseChunk chunks1 na) x from rfl,
      lookupChunk_erase] at hcx
    by_cases hxna : x = na
    · rw [if_pos hxna] at hcx
      cases hcx
    · rw [if_neg hxna] at hcx
      by_cases hxh : x = hdr
      · subst hxh
        exact absurd hf (by rw [P15 cx hcx]; simp)
      · rw [P3 x hxh] at hcx
        have hxs := hinv.freeInBins x cx hcx hf
        by_cases hx1 : x = hdr1
        · exact Or.inl hx1
        · refine Or.inr ?_
          rw [hjoin2]
          exact (List.mem_erase_of_ne hxna).2 (P7 x hxs hx1)
  · -- sumEq
    have hcg : binsSum (eraseChunk chunks1 na) (removeAddr bins1 na) =
        binsSum chunks1 (removeAddr bins1 na) := by
      apply binsSum_congr
      intro x hx
      have hxna := (hmem2 x hx).1
      unfold sizeAt
      rw [lookupChunk_erase, if_neg hxna]
    have h1 := sum_erase_add chunks1 (binsJoin bins1) na hnaB1
    rw [hszna1] at h1
    unfold binsSum at P11
    show binsSum (eraseChunk chunks1 na) (removeAddr bins1 na) + (sz1 + nsz) =
      s.free_memory + c.size
    rw [hcg]
    unfold binsSum
    rw [hjoin2]
    omega
  · -- classEq
    intro i hi x hx
    rw [getD_removeAddr] at hx
    have hbnd : (bins1.getD i []).Nodup := bin_nodup bins1 i P8
    obtain ⟨hxna, hx1⟩ := hbnd.mem_erase_iff.1 hx
    have hxs := P10 i x hx1
    have hi1 : i < bins1.length := by
      have hi0 : i < (removeAddr bins1 na).length := hi
      rw [removeAddr_length] at hi0
      exact hi0
    have hi' : i < s.bins.length := by
      have h1 : bins1.length = BIN_NUMBER := P9
      have h2 := hinv.binsLen
      omega
    have hxj : x ∈ binsJoin bins1 := (mem_binsJoin_idx _ _).2 ⟨i, hi1, hx1⟩
    have hxneh : x ≠ hdr := (P6 x hxj).2.2
    show i = find_bin (sizeAt (eraseChunk chunks1 na) x)
    have hsz : sizeAt (eraseChunk chunks1 na) x = sizeAt s.chunks x := by
      unfold sizeAt
      rw [lookupChunk_erase, if_neg hxna, P3 x hxneh]
    rw [hsz]
    exact hinv.classEq i hi' x hxs
  · -- lastOK
    intro hl0
    by_cases hlna : s.last_chunk = na
    · exfalso
      apply hl0
      show (if s.last_chunk = na then 0 else s.last_chunk_size) = 0
      rw [if_pos hlna]
    · have hT2 : (if s.last_chunk = na then 0 else s.last_chunk_size) = s.last_chunk_size :=
        if_neg hlna
      have hl0' : s.last_chunk_size ≠ 0 := by
        intro he
        apply hl0
        show (if s.last_chunk = na then 0 else s.last_chunk_size) = 0
        rw [hT2, he]
      rcases P16 hl0' with ⟨heq, hle⟩ | ⟨hm, hne1, hle⟩
      · refine Or.inl ⟨heq, ?_⟩
        show (if s.last_chunk = na then 0 else s.last_chunk_size) ≤ sz1 + nsz
        rw [hT2]
        omega
      · refine Or.inr ⟨?_, hne1, ?_⟩
        · show s.last_chunk ∈ binsJoin (removeAddr bins1 na)
          rw [hjoin2]
          exact (List.mem_erase_of_ne hlna).2 hm
        · show (if s.last_chunk = na then 0 else s.last_chunk_size) ≤
            sizeAt (eraseChunk chunks1 na) s.last_chunk
          rw [hT2]
          have hsz : sizeAt (eraseChunk chunks1 na) s.last_chunk =
              sizeAt chunks1 s.last_chunk := by
            unfold sizeAt
            rw [lookupChunk_erase, if_neg hlna]
          rw [hsz]
          exact hle
  · -- footerEq
    intro e he
    exact hinv.footerEq e (P4 e (mem_eraseChunk.1 he).1)
  · -- sizePos
    intro e he
    exact hinv.sizePos e (P4 e (mem_eraseChunk.1 he).1)
  · -- disj
    exact List.Pairwise.sublist (eraseChunk_sublist _ _) P5
  · -- span freshness
    intro e he
    obtain ⟨he2, hene1⟩ := mem_eraseChunk.1 he
    obtain ⟨hec, hena⟩ := mem_eraseChunk.1 he2
    have hes := P4 e hec
    have hneh : e.1 ≠ hdr := P17 e hec hene1
    have hd1 := P13 e hes hene1 hneh
    have hd2 : e.1 + e.2.size ≤ na ∨ na + nsz ≤ e.1 := disj_pair hinv.disj hes hnam hena
    have h8e := hinv.sizePos e hes
    omega
  · -- oracle regions
    intro p hp
    refine ⟨(hinv.extOKh.2 p hp).1, ?_⟩
    intro x hx
    rcases hx with ⟨e, he, h1, h2⟩ | ⟨h1, h2⟩
    · exact (hinv.extOKh.2 p hp).2 x ⟨e, P4 e (mem_eraseChunk.1 he).1, h1, h2⟩
    · by_cases hxna : x < na
      · obtain ⟨e, he, g1, g2⟩ := P12 x h1 (by omega)
        exact (hinv.extOKh.2 p hp).2 x ⟨e, he, g1, g2⟩
      · exact (hinv.extOKh.2 p hp).2 x ⟨(na, ⟨false, nsz, nsz⟩), hnam, by omega, by
          show x < na + nsz
          omega⟩

/-- A free chunk with matching footer is determined by its size. -/
lemma chunk_eta (c : Chunk) (h1 : c.status = false) (h2 : c.footer = c.size) :
    c = ⟨false, c.size, c.size⟩ := by
  obtain ⟨st, szv, ftv⟩ := c
  simp only [] at h1 h2 ⊢
  rw [h1, h2]

/-- `free` preserves the allocator invariant, touches neither the oracle
nor its trace, and (for a nonnull pointer) credits `free_memory` with
exactly the released chunk's size. -/
lemma free_inv (s : MState) (p : Nat) (s' : MState) (hinv : MInv s)
    (h : free s p = some s') :
    MInv s' ∧ s'.ext = s.ext ∧ s'.extCalls = s.extCalls ∧
    (p = 0 → s' = s) ∧
    (p ≠ 0 → ∃ c, lookupChunk s.chunks (p - INUSE_HEADER_SIZE) = some c ∧
      c.status = true ∧ s'.free_memory = s.free_memory + c.size) := by
  by_cases hp : p = 0
  · subst hp
    rw [free, if_pos rfl] at h
    cases h
    exact ⟨hinv, rfl, rfl, fun _ => rfl, fun hc => absurd rfl hc⟩
  · rw [free, if_neg hp] at h
    set hdr := p - INUSE_HEADER_SIZE with hhdr
    cases hc : lookupChunk s.chunks hdr with
    | none =>
      simp only [hc] at h
      cases h
    | some c =>
      simp only [hc] at h
      by_cases hck : c.status = true ∧ c.size = c.footer
      · simp only [if_pos hck] at h
        cases hpc : chunkEndingAt s.chunks hdr with
        | none =>
          simp only [hpc] at h
          cases hnc : lookupChunk s.chunks (hdr + c.size) with
          | none =>
            simp only [hnc] at h
            cases h
            exact ⟨free_leaf1 s hdr c hdr c.size s.bins s.chunks hinv hc hck.1
                (Or.inl ⟨rfl, rfl, rfl, rfl⟩),
              rfl, rfl, fun h0 => absurd h0 hp, fun _ => ⟨c, rfl, hck.1, rfl⟩⟩
          | some nc =>
            by_cases hncs : nc.status = false
            · by_cases hnf : nc.size = nc.footer
              · simp only [hnc, if_pos hncs, if_pos hnf] at h
                cases h
                refine ⟨?_, rfl, rfl, fun h0 => absurd h0 hp, fun _ => ⟨c, rfl, hck.1, rfl⟩⟩
                have hnc' : lookupChunk s.chunks (hdr + c.size) =
                    some ⟨false, nc.size, nc.size⟩ := by
                  rw [← chunk_eta nc hncs hnf.symm]
                  exact hnc
                exact free_leaf2 s hdr c hdr c.size nc.size s.bins s.chunks hinv hc hck.1
                  (Or.inl ⟨rfl, rfl, rfl, rfl⟩) hnc'
              · simp only [hnc, if_pos hncs, if_neg hnf] at h
                cases h
            · simp only [hnc, if_neg hncs] at h
              cases h
              exact ⟨free_leaf1 s hdr c hdr c.size s.bins s.chunks hinv hc hck.1
                  (Or.inl ⟨rfl, rfl, rfl, rfl⟩),
                rfl, rfl, fun h0 => absurd h0 hp, fun _ => ⟨c, rfl, hck.1, rfl⟩⟩
        | some pc =>
          have hpcm : pc ∈ s.chunks := List.mem_of_find?_eq_some hpc
          have hpcEnd : pc.1 + pc.2.size = hdr := by
            have := List.find?_some hpc
            simpa using this
          have hpf : pc.2.footer = pc.2.size := hinv.footerEq pc hpcm
          have h8pc : 8 ≤ pc.2.size := hinv.sizePos pc hpcm
          have hsub : hdr - pc.2.footer = pc.1 := by omega
          have hlkpa : lookupChunk s.chunks (hdr - pc.2.footer) = some pc.2 := by
            rw [hsub]
            exact lookup_of_mem hinv.disj hinv.sizePos hpcm
          simp only [hpc, hlkpa] at h
          by_cases hpst : pc.2.status = false
          · have hfv : pc.2.size = pc.2.footer := hpf.symm
            simp only [if_pos hpst, if_pos hfv] at h
            rw [hsub] at h
            have hlkpa' : lookupChunk s.chunks pc.1 =
                some ⟨false, pc.2.size, pc.2.size⟩ := by
              rw [← chunk_eta pc.2 hpst hpf]
              exact lookup_of_mem hinv.disj hinv.sizePos hpcm
            have hprev2 : (pc.1 = hdr ∧ c.size + pc.2.size = c.size ∧
                removeAddr s.bins pc.1 = s.bins ∧ eraseChunk s.chunks hdr = s.chunks) ∨
                (∃ psz, lookupChunk s.chunks pc.1 = some ⟨false, psz, psz⟩ ∧
                  pc.1 + psz = hdr ∧ c.size + pc.2.size = c.size + psz ∧
                  removeAddr s.bins pc.1 = removeAddr s.bins pc.1 ∧
                  eraseChunk s.chunks hdr = eraseChunk s.chunks hdr) :=
              Or.inr ⟨pc.2.size, hlkpa', hpcEnd, rfl, rfl, rfl⟩
            cases hnc : lookupChunk (eraseChunk s.chunks hdr) (hdr + c.size) with
            | none =>
              simp only [hnc] at h
              cases h
              exact ⟨free_leaf1 s hdr c pc.1 (c.size + pc.2.size)
                  (removeAddr s.bins pc.1) (eraseChunk s.chunks hdr) hinv hc hck.1 hprev2,
                rfl, rfl, fun h0 => absurd h0 hp, fun _ => ⟨c, rfl, hck.1, rfl⟩⟩
            | some nc =>
              by_cases hncs : nc.status = false
              · by_cases hnf : nc.size = nc.footer
                · simp only [hnc, if_pos hncs, if_pos hnf] at h
                  cases h
                  refine ⟨?_, rfl, rfl, fun h0 => absurd h0 hp,
                    fun _ => ⟨c, rfl, hck.1, rfl⟩⟩
                  have hnc' : lookupChunk (eraseChunk s.chunks hdr) (hdr + c.size) =
                      some ⟨false, nc.size, nc.size⟩ := by
                    rw [← chunk_eta nc hncs hnf.symm]
                    exact hnc
                  exact free_leaf2 s hdr c pc.1 (c.size + pc.2.size) nc.size
                    (removeAddr s.bins pc.1) (eraseChunk s.chunks hdr) hinv hc hck.1
                    hprev2 hnc'
                · simp only [hnc, if_pos hncs, if_neg hnf] at h
                  cases h
              · simp only [hnc, if_neg hncs] at h
                cases h
                exact ⟨free_leaf1 s hdr c pc.1 (c.size + pc.2.size)
                    (removeAddr s.bins pc.1) (eraseChunk s.chunks hdr) hinv hc hck.1 hprev2,
                  rfl, rfl, fun h0 => absurd h0 hp, fun _ => ⟨c, rfl, hck.1, rfl⟩⟩
          · simp only [if_neg hpst] at h
            cases hnc : lookupChunk s.chunks (hdr + c.size) with
            | none =>
              simp only [hnc] at h
              cases h
              exact ⟨free_leaf1 s hdr c hdr c.size s.bins s.chunks hinv hc hck.1
                  (Or.inl ⟨rfl, rfl, rfl, rfl⟩),
                rfl, rfl, fun h0 => absurd h0 hp, fun _ => ⟨c, rfl, hck.1, rfl⟩⟩
            | some nc =>
              by_cases hncs : nc.status = false
              · by_cases hnf : nc.size = nc.footer
                · simp only [hnc, if_pos hncs, if_pos hnf] at h
                  cases h
                  refine ⟨?_, rfl, rfl, fun h0 => absurd h0 hp,
                    fun _ => ⟨c, rfl, hck.1, rfl⟩⟩
                  have hnc' : lookupChunk s.chunks (hdr + c.size) =
                      some ⟨false, nc.size, nc.size⟩ := by
                    rw [← chunk_eta nc hncs hnf.symm]
                    exact hnc
                  exact free_leaf2 s hdr c hdr c.size nc.size s.bins s.chunks hinv hc
                    hck.1 (Or.inl ⟨rfl, rfl, rfl, rfl⟩) hnc'
                · simp only [hnc, if_pos hncs, if_neg hnf] at h
                  cases h
              · simp only [hnc, if_neg hncs] at h
                cases h
                exact ⟨free_leaf1 s hdr c hdr c.size s.bins s.chunks hinv hc hck.1
                    (Or.inl ⟨rfl, rfl, rfl, rfl⟩),
                  rfl, rfl, fun h0 => absurd h0 hp, fun _ => ⟨c, rfl, hck.1, rfl⟩⟩
      · simp only [if_neg hck] at h
        cases h

/-- `free` of a valid in-use chunk never hits an `assert`: it returns a
state. -/
lemma free_total (s : MState) (hdr : Nat) (c : Chunk) (hinv : MInv s)
    (hc : lookupChunk s.chunks hdr = some c) (hst : c.status = true) :
    ∃ s', free s (hdr + INUSE_HEADER_SIZE) = some s' := by
  have hp0 : hdr + INUSE_HEADER_SIZE ≠ 0 := by
    rw [INUSE_HEADER_eq]
    omega
  have hsub0 : hdr + INUSE_HEADER_SIZE - INUSE_HEADER_SIZE = hdr := by omega
  have hck : c.status = true ∧ c.size = c.footer :=
    ⟨hst, (hinv.footerEq _ (lookup_mem hc)).symm⟩
  rw [free, if_neg hp0]
  simp only [hsub0, hc, if_pos hck]
  cases hpc : chunkEndingAt s.chunks hdr with
  | none =>
    simp only
    cases hnc : lookupChunk s.chunks (hdr + c.size) with
    | none => exact ⟨_, rfl⟩
    | some nc =>
      by_cases hncs : nc.status = false
      · have hnf : nc.size = nc.footer :=
          (hinv.footerEq _ (lookup_mem hnc)).symm
        simp only [if_pos hncs, if_pos hnf]
        exact ⟨_, rfl⟩
      · simp only [if_neg hncs]
        exact ⟨_, rfl⟩
  | some pc =>
    have hpcm : pc ∈ s.chunks := List.mem_of_find?_eq_some hpc
    have hpf : pc.2.footer = pc.2.size := hinv.footerEq pc hpcm
    have hlkpa : lookupChunk s.chunks (hdr - pc.2.footer) = some pc.2 := by
      have hpcEnd : pc.1 + pc.2.size = hdr := by
        have := List.find?_some hpc
        simpa using this
      have hsub : hdr - pc.2.footer = pc.1 := by omega
      rw [hsub]
      exact lookup_of_mem hinv.disj hinv.sizePos hpcm
    simp only [hlkpa]
    by_cases hpst : pc.2.status = false
    · have hfv : pc.2.size = pc.2.footer := hpf.symm
      simp only [if_pos hpst, if_pos hfv]
      cases hnc : lookupChunk (eraseChunk s.chunks hdr) (hdr + c.size) with
      | none => exact ⟨_, rfl⟩
      | some nc =>
        by_cases hncs : nc.status = false
        · have hnf : nc.size = nc.footer := by
            have hm := lookup_mem hnc
            exact (hinv.footerEq _ (mem_eraseChunk.1 hm).1).symm
          simp only [if_pos hncs, if_pos hnf]
          exact ⟨_, rfl⟩
        · simp only [if_neg hncs]
          exact ⟨_, rfl⟩
    · simp only [if_neg hpst]
      cases hnc : lookupChunk s.chunks (hdr + c.size) with
      | none => exact ⟨_, rfl⟩
      | some nc =>
        by_cases hncs : nc.status = false
        · have hnf : nc.size = nc.footer :=
            (hinv.footerEq _ (lookup_mem hnc)).symm
          simp only [if_pos hncs, if_pos hnf]
          exact ⟨_, rfl⟩
        · simp only [if_neg hncs]
          exact ⟨_, rfl⟩

/-- A bin whose members are well-formed free chunks audits cleanly to
the sum of their sizes. -/
lemma auditBin_ok (h : Heap) : ∀ l : List Nat,
    (∀ x ∈ l, ∃ c, lookupChunk h x = some c ∧ c.status = false ∧ c.footer = c.size) →
    auditBin h l = Except.ok ((l.map (sizeAt h)).sum) := by
  intro l
  induction l with
  | nil => intro _; rfl
  | cons a t ih =>
    intro hl
    obtain ⟨c, hc, hf, hft⟩ := hl a (List.mem_cons_self _ _)
    have hs1 : ¬ c.status ≠ false := by simp [hf]
    have hs2 : ¬ c.size ≠ c.footer := by simp [hft]
    simp only [auditBin, hc, if_neg hs1, if_neg hs2,
      ih (fun x hx => hl x (List.mem_cons_of_mem _ hx))]
    simp only [List.map_cons, List.sum_cons]
    have : sizeAt h a = c.size := by
      unfold sizeAt
      rw [hc]
    rw [this]

/-- All bins audit cleanly to the free-chunk size sum. -/
lemma auditBins_ok (h : Heap) : ∀ bins : List (List Nat),
    (∀ x ∈ binsJoin bins, ∃ c, lookupChunk h x = some c ∧ c.status = false ∧
      c.footer = c.size) →
    auditBins h bins = Except.ok (binsSum h bins) := by
  intro bins
  induction bins with
  | nil => intro _; rfl
  | cons b bs ih =>
    intro hl
    have hb : ∀ x ∈ b, ∃ c, lookupChunk h x = some c ∧ c.status = false ∧
        c.footer = c.size := by
      intro x hx
      exact hl x (by
        show x ∈ binsJoin (b :: bs)
        rw [mem_binsJoin]
        exact ⟨b, List.mem_cons_self _ _, hx⟩)
    have hbs : ∀ x ∈ binsJoin bs, ∃ c, lookupChunk h x = some c ∧ c.status = false ∧
        c.footer = c.size := by
      intro x hx
      refine hl x ?_
      show x ∈ binsJoin (b :: bs)
      rw [mem_binsJoin] at hx ⊢
      obtain ⟨l2, hl2, hxl2⟩ := hx
      exact ⟨l2, List.mem_cons_of_mem _ hl2, hxl2⟩
    simp only [auditBins, auditBin_ok h b hb, ih hbs]
    show Except.ok _ = Except.ok (binsSum h (b :: bs))
    unfold binsSum
    show Except.ok ((b.map (sizeAt h)).sum + ((binsJoin bs).map (sizeAt h)).sum) = _
    have : binsJoin (b :: bs) = b ++ binsJoin bs := rfl
    rw [this, List.map_append, List.sum_append]

/-- Under the invariant the auditor finds nothing. -/
lemma minv_check (s : MState) (hinv : MInv s) : check_malloc s = none := by
  have hmem : ∀ x ∈ binsJoin s.bins, ∃ c, lookupChunk s.chunks x = some c ∧
      c.status = false ∧ c.footer = c.size := by
    intro x hx
    obtain ⟨c, hc, hf⟩ := hinv.binsFree x hx
    exact ⟨c, hc, hf, hinv.footerEq _ (lookup_mem hc)⟩
  rw [check_malloc, auditBins_ok s.chunks s.bins hmem]
  simp only [hinv.sumEq, if_pos rfl, if_true]

/-- Splitting an in-use chunk into two in-use chunks covering the same
span (the shrink path of `realloc`, before the tail is released)
preserves the invariant. -/
lemma carve_minv (s : MState) (hdr : Nat) (c : Chunk) (sz : Nat)
    (hinv : MInv s) (hc : lookupChunk s.chunks hdr = some c) (hst : c.status = true)
    (h8 : 8 ≤ sz) (h8l : 8 ≤ c.size - sz) :
    MInv { s with chunks := setChunk (setChunk s.chunks hdr ⟨true, sz, sz⟩) (hdr + sz) ⟨true, c.size - sz, c.size - sz⟩ } ∧
    lookupChunk (setChunk (setChunk s.chunks hdr ⟨true, sz, sz⟩) (hdr + sz) ⟨true, c.size - sz, c.size - sz⟩) (hdr + sz) = some ⟨true, c.size - sz, c.size - sz⟩ := by
  have hcm : (hdr, c) ∈ s.chunks := lookup_mem hc
  have h8c : 8 ≤ c.size := hinv.sizePos _ hcm
  have hlt : sz < c.size := by omega
  set na := hdr + sz with hnadef
  set cA : Chunk := ⟨true, sz, sz⟩ with hcA
  set cB : Chunk := ⟨true, c.size - sz, c.size - sz⟩ with hcB
  have hna_ne : na ≠ hdr := by omega
  have hint : lookupChunk s.chunks na = none :=
    interior_none hinv.disj hinv.sizePos hcm (by omega) (by omega)
  have hdrNB : hdr ∉ binsJoin s.bins := by
    intro hm
    obtain ⟨c2, hc2, hf2⟩ := hinv.binsFree hdr hm
    rw [hc] at hc2
    cases hc2
    exact absurd hf2 (by rw [hst]; simp)
  have hnaNB : na ∉ binsJoin s.bins := by
    intro hm
    obtain ⟨c2, hc2, _⟩ := hinv.binsFree na hm
    rw [hint] at hc2
    cases hc2
  have hlkne : ∀ x, x ≠ hdr → x ≠ na →
      lookupChunk (setChunk (setChunk s.chunks hdr cA) na cB) x =
        lookupChunk s.chunks x := by
    intro x h1 h2
    rw [lookupChunk_set_ne _ _ _ _ h2, lookupChunk_set_ne _ _ _ _ h1]
  have hH2 : setChunk (setChunk s.chunks hdr cA) na cB =
      (na, cB) :: (hdr, cA) :: eraseChunk s.chunks hdr := by
    show (na, cB) :: eraseChunk ((hdr, cA) :: eraseChunk s.chunks hdr) na = _
    have hne : ¬ hdr = na := fun he => hna_ne he.symm
    simp only [eraseChunk, if_neg hne]
    have : eraseChunk (eraseChunk s.chunks hdr) na = eraseChunk s.chunks hdr := by
      apply eraseChunk_of_none
      rw [lookupChunk_erase, if_neg hna_ne]
      exact hint
    rw [this]
  have hmemH2 : ∀ e, e ∈ setChunk (setChunk s.chunks hdr cA) na cB →
      e = (na, cB) ∨ e = (hdr, cA) ∨ (e ∈ s.chunks ∧ e.1 ≠ hdr) := by
    intro e he
    rw [hH2] at he
    rcases List.mem_cons.1 he with rfl | he2
    · exact Or.inl rfl
    · rcases List.mem_cons.1 he2 with rfl | he3
      · exact Or.inr (Or.inl rfl)
      · exact Or.inr (Or.inr (mem_eraseChunk.1 he3))
  refine ⟨⟨hinv.binsLen, ?_, hinv.binsND, ?_, ?_, ?_, ?_, ?_, ?_, ?_, ?_⟩,
    lookupChunk_set_self ..⟩
  · -- binsFree
    intro x hx
    obtain ⟨cx, hcx, hf⟩ := hinv.binsFree x hx
    refine ⟨cx, ?_, hf⟩
    show lookupChunk _ x = some cx
    rw [hlkne x (fun he => hdrNB (he ▸ hx)) (fun he => hnaNB (he ▸ hx))]
    exact hcx
  · -- freeInBins
    intro x cx hcx hf
    show x ∈ binsJoin s.bins
    by_cases h1 : x = na
    · subst h1
      have e0 : lookupChunk (setChunk (setChunk s.chunks hdr cA) na cB) na = some cB :=
        lookupChunk_set_self ..
      rw [e0] at hcx
      cases hcx
      exact absurd hf (by rw [hcB]; simp)
    · by_cases h2 : x = hdr
      · subst h2
        have e1 : lookupChunk (setChunk (setChunk s.chunks x cA) na cB) x =
            lookupChunk (setChunk s.chunks x cA) x :=
          lookupChunk_set_ne _ _ _ _ (fun he => h1 he)
        rw [e1, lookupChunk_set_self] at hcx
        cases hcx
        exact absurd hf (by rw [hcA]; simp)
      · rw [hlkne x h2 h1] at hcx
        exact hinv.freeInBins x cx hcx hf
  · -- sumEq
    show binsSum _ s.bins = s.free_memory
    rw [← hinv.sumEq]
    apply binsSum_congr
    intro x hx
    unfold sizeAt
    rw [hlkne x (fun he => hdrNB (he ▸ hx)) (fun he => hnaNB (he ▸ hx))]
  · -- classEq
    intro i hi x hx
    have hi' : i < s.bins.length := hi
    have hxj : x ∈ binsJoin s.bins := (mem_binsJoin_idx _ _).2 ⟨i, hi', hx⟩
    show i = find_bin (sizeAt _ x)
    have : sizeAt (setChunk (setChunk s.chunks hdr cA) na cB) x = sizeAt s.chunks x := by
      unfold sizeAt
      rw [hlkne x (fun he => hdrNB (he ▸ hxj)) (fun he => hnaNB (he ▸ hxj))]
    rw [this]
    exact hinv.classEq i hi' x hx
  · -- lastOK
    intro hl0
    obtain ⟨hm, hs⟩ := hinv.lastOK hl0
    refine ⟨hm, ?_⟩
    have : sizeAt (setChunk (setChunk s.chunks hdr cA) na cB) s.last_chunk =
        sizeAt s.chunks s.last_chunk := by
      unfold sizeAt
      rw [hlkne _ (fun he => hdrNB (he ▸ hm)) (fun he => hnaNB (he ▸ hm))]
    rw [this]
    exact hs
  · -- footerEq
    intro e he
    rcases hmemH2 e he with rfl | rfl | ⟨hes, _⟩
    · rfl
    · rfl
    · exact hinv.footerEq e hes
  · -- sizePos
    intro e he
    rcases hmemH2 e he with rfl | rfl | ⟨hes, _⟩
    · show 8 ≤ c.size - sz
      omega
    · exact h8
    · exact hinv.sizePos e hes
  · -- disj
    show (setChunk (setChunk s.chunks hdr cA) na cB).Pairwise _
    rw [hH2]
    have hother : ∀ e ∈ eraseChunk s.chunks hdr,
        e.1 + e.2.size ≤ hdr ∨ hdr + c.size ≤ e.1 := by
      intro e he
      obtain ⟨hes, hene⟩ := mem_eraseChunk.1 he
      exact disj_pair hinv.disj hes hcm hene
    refine List.pairwise_cons.2 ⟨?_, List.pairwise_cons.2 ⟨?_, ?_⟩⟩
    · intro e he
      rcases List.mem_cons.1 he with rfl | he2
      · right
        show hdr + sz ≤ na
        omega
      · rcases hother e he2 with h1 | h1
        · right
          show e.1 + e.2.size ≤ na
          omega
        · left
          show na + (c.size - sz) ≤ e.1
          omega
    · intro e he
      rcases hother e he with h1 | h1
      · right
        show e.1 + e.2.size ≤ hdr
        omega
      · left
        show hdr + sz ≤ e.1
        omega
    · exact List.Pairwise.sublist (eraseChunk_sublist _ _) hinv.disj
  · -- extOK
    refine ⟨hinv.extOKh.1, ?_⟩
    intro q hq
    refine ⟨(hinv.extOKh.2 q hq).1, ?_⟩
    intro x hx
    obtain ⟨e, he, h1, h2⟩ := hx
    rcases hmemH2 e he with rfl | rfl | ⟨hes, _⟩
    · refine (hinv.extOKh.2 q hq).2 x ⟨(hdr, c), hcm, ?_, ?_⟩
      · show hdr ≤ x
        have : na ≤ x := h1
        omega
      · show x < hdr + c.size
        have hx2 : x < na + (c.size - sz) := h2
        omega
    · refine (hinv.extOKh.2 q hq).2 x ⟨(hdr, c), hcm, h1, ?_⟩
      show x < hdr + c.size
      have hx2 : x < hdr + sz := h2
      omega
    · exact (hinv.extOKh.2 q hq).2 x ⟨e, hes, h1, h2⟩

/-- The absorb path of `realloc`: merging the free next neighbour into
the in-use chunk preserves the invariant. -/
lemma absorb_minv (s : MState) (hdr : Nat) (c : Chunk) (nsz : Nat)
    (hinv : MInv s) (hc : lookupChunk s.chunks hdr = some c) (hst : c.status = true)
    (hnc : lookupChunk s.chunks (hdr + c.size) = some ⟨false, nsz, nsz⟩) :
    MInv { s with chunks := setChunk (eraseChunk s.chunks (hdr + c.size)) hdr ⟨true, c.size + nsz, c.size + nsz⟩, bins := removeAddr s.bins (hdr + c.size), free_memory := s.free_memory - nsz, last_chunk_size := 0 } := by
  have hcm : (hdr, c) ∈ s.chunks := lookup_mem hc
  have h8c : 8 ≤ c.size := hinv.sizePos _ hcm
  set na := hdr + c.size with hnadef
  set cA : Chunk := ⟨true, c.size + nsz, c.size + nsz⟩ with hcA
  have hnam : (na, (⟨false, nsz, nsz⟩ : Chunk)) ∈ s.chunks := lookup_mem hnc
  have h8n : 8 ≤ nsz := hinv.sizePos _ hnam
  have hnaB : na ∈ binsJoin s.bins := hinv.freeInBins na _ hnc rfl
  have hna_ne : na ≠ hdr := by omega
  have hdrNB : hdr ∉ binsJoin s.bins := by
    intro hm
    obtain ⟨c2, hc2, hf2⟩ := hinv.binsFree hdr hm
    rw [hc] at hc2
    cases hc2
    exact absurd hf2 (by rw [hst]; simp)
  have hjoin1 : binsJoin (removeAddr s.bins na) = (binsJoin s.bins).erase na :=
    binsJoin_removeAddr _ _ hinv.binsND
  have hlkne : ∀ x, x ≠ hdr → x ≠ na →
      lookupChunk (setChunk (eraseChunk s.chunks na) hdr cA) x =
        lookupChunk s.chunks x := by
    intro x h1 h2
    rw [lookupChunk_set_ne _ _ _ _ h1, lookupChunk_erase, if_neg h2]
  have hmem1 : ∀ x ∈ binsJoin (removeAddr s.bins na),
      x ∈ binsJoin s.bins ∧ x ≠ na ∧ x ≠ hdr := by
    intro x hx
    rw [hjoin1] at hx
    obtain ⟨hxna, hxs⟩ := hinv.binsND.mem_erase_iff.1 hx
    exact ⟨hxs, hxna, fun he => hdrNB (he ▸ hxs)⟩
  have hmemH : ∀ e, e ∈ setChunk (eraseChunk s.chunks na) hdr cA →
      e = (hdr, cA) ∨ (e ∈ s.chunks ∧ e.1 ≠ hdr ∧ e.1 ≠ na) := by
    intro e he
    rcases mem_setChunk.1 he with rfl | ⟨he2, hene⟩
    · exact Or.inl rfl
    · obtain ⟨hes, hena⟩ := mem_eraseChunk.1 he2
      exact Or.inr ⟨hes, hene, hena⟩
  refine ⟨?_, ?_, ?_, ?_, ?_, ?_, ?_, ?_, ?_, ?_, ?_⟩
  · show (removeAddr s.bins na).length = BIN_NUMBER
    rw [removeAddr_length]
    exact hinv.binsLen
  · -- binsFree
    intro x hx
    obtain ⟨hxs, hxna, hxh⟩ := hmem1 x hx
    obtain ⟨cx, hcx, hf⟩ := hinv.binsFree x hxs
    refine ⟨cx, ?_, hf⟩
    show lookupChunk _ x = some cx
    rw [hlkne x hxh hxna]
    exact hcx
  · show (binsJoin (removeAddr s.bins na)).Nodup
    rw [hjoin1]
    exact hinv.binsND.erase _
  · -- freeInBins
    intro x cx hcx hf
    show x ∈ binsJoin (removeAddr s.bins na)
    by_cases h1 : x = hdr
    · subst h1
      have e0 : lookupChunk (setChunk (eraseChunk s.chunks na) x cA) x = some cA :=
        lookupChunk_set_self ..
      rw [e0] at hcx
      cases hcx
      exact absurd hf (by rw [hcA]; simp)
    · by_cases h2 : x = na
      · subst h2
        rw [lookupChunk_set_ne _ _ _ _ h1, lookupChunk_erase, if_pos rfl] at hcx
        cases hcx
      · rw [hlkne x h1 h2] at hcx
        have := hinv.freeInBins x cx hcx hf
        rw [hjoin1]
        exact (List.mem_erase_of_ne h2).2 this
  · -- sumEq
    show binsSum _ (removeAddr s.bins na) = s.free_memory - nsz
    have hcg : binsSum (setChunk (eraseChunk s.chunks na) hdr cA)
        (removeAddr s.bins na) = binsSum s.chunks (removeAddr s.bins na) := by
      apply binsSum_congr
      intro x hx
      obtain ⟨hxs, hxna, hxh⟩ := hmem1 x hx
      unfold sizeAt
      rw [hlkne x hxh hxna]
    have h1 := sum_erase_add s.chunks (binsJoin s.bins) na hnaB
    have hszna : sizeAt s.chunks na = nsz := by
      unfold sizeAt
      rw [hnc]
    rw [hszna] at h1
    have h2 := hinv.sumEq
    unfold binsSum at h2
    rw [hcg]
    unfold binsSum
    rw [hjoin1]
    omega
  · -- classEq
    intro i hi x hx
    have hi0 : i < (removeAddr s.bins na).length := hi
    rw [removeAddr_length] at hi0
    rw [show (removeAddr s.bins na).getD i [] = (s.bins.getD i []).erase na from
      getD_removeAddr _ _ _] at hx
    have hx1 := List.mem_of_mem_erase hx
    have hxj : x ∈ binsJoin (removeAddr s.bins na) := by
      rw [hjoin1]
      have hbnd := bin_nodup s.bins i hinv.binsND
      obtain ⟨hxna, _⟩ := hbnd.mem_erase_iff.1 hx
      exact (List.mem_erase_of_ne hxna).2 ((mem_binsJoin_idx _ _).2 ⟨i, hi0, hx1⟩)
    obtain ⟨hxs, hxna, hxh⟩ := hmem1 x hxj
    show i = find_bin (sizeAt _ x)
    have : sizeAt (setChunk (eraseChunk s.chunks na) hdr cA) x = sizeAt s.chunks x := by
      unfold sizeAt
      rw [hlkne x hxh hxna]
    rw [this]
    exact hinv.classEq i hi0 x hx1
  · -- lastOK
    intro hl0
    exact absurd rfl hl0
  · -- footerEq
    intro e he
    rcases hmemH e he with rfl | ⟨hes, _, _⟩
    · rfl
    · exact hinv.footerEq e hes
  · -- sizePos
    intro e he
    rcases hmemH e he with rfl | ⟨hes, _, _⟩
    · show 8 ≤ c.size + nsz
      omega
    · exact hinv.sizePos e hes
  · -- disj
    show ((hdr, cA) :: eraseChunk (eraseChunk s.chunks na) hdr).Pairwise _
    refine List.pairwise_cons.2 ⟨?_,
      List.Pairwise.sublist (eraseChunk_sublist _ _)
        (List.Pairwise.sublist (eraseChunk_sublist _ _) hinv.disj)⟩
    intro e he
    obtain ⟨he2, hene⟩ := mem_eraseChunk.1 he
    obtain ⟨hes, hena⟩ := mem_eraseChunk.1 he2
    have d1 : e.1 + e.2.size ≤ hdr ∨ hdr + c.size ≤ e.1 := disj_pair hinv.disj hes hcm hene
    have d2 : e.1 + e.2.size ≤ na ∨ na + nsz ≤ e.1 := disj_pair hinv.disj hes hnam hena
    have h8e := hinv.sizePos e hes
    have hgoal : hdr + (c.size + nsz) ≤ e.1 ∨ e.1 + e.2.size ≤ hdr := by omega
    exact hgoal
  · -- extOK
    refine ⟨hinv.extOKh.1, ?_⟩
    intro q hq
    refine ⟨(hinv.extOKh.2 q hq).1, ?_⟩
    intro x hx
    obtain ⟨e, he, h1, h2⟩ := hx
    rcases hmemH e he with rfl | ⟨hes, _, _⟩
    · have hx1 : hdr ≤ x := h1
      have hx2 : x < hdr + (c.size + nsz) := h2
      by_cases hxc : x < na
      · refine (hinv.extOKh.2 q hq).2 x ⟨(hdr, c), hcm, hx1, ?_⟩
        show x < hdr + c.size
        omega
      · refine (hinv.extOKh.2 q hq).2 x ⟨(na, ⟨false, nsz, nsz⟩), hnam, by omega, ?_⟩
        show x < na + nsz
        omega
    · exact (hinv.extOKh.2 q hq).2 x ⟨e, hes, h1, h2⟩

/-- `realloc` preserves the allocator invariant on every path. -/
lemma realloc_inv (s : MState) (p n : Nat) (out : MState × Option Nat × Option Nat)
    (hinv : MInv s) (h : realloc s p n = some out) : MInv out.1 := by
  have hmi : MInv (malloc s n).1 := mallocF_inv (oracleLen s.ext + 1) s n hinv
  rw [realloc] at h
  by_cases hp : p = 0
  · rw [if_pos hp] at h
    rcases hm : malloc s n with ⟨s1, r⟩
    rw [hm] at hmi
    simp only [hm] at h
    cases h
    exact hmi
  · rw [if_neg hp] at h
    set hdr := p - INUSE_HEADER_SIZE with hh
    cases hc : lookupChunk s.chunks hdr with
    | none =>
      simp only [hc] at h
      cases h
    | some c =>
      simp only [hc] at h
      by_cases hck : c.status = true ∧ c.size = c.footer
      · simp only [if_pos hck] at h
        by_cases hfit : n + MIN_INUSE_CHUNK_SIZE ≤ c.size
        · simp only [if_pos hfit] at h
          by_cases hsmall : c.size - (n + MIN_INUSE_CHUNK_SIZE) < MIN_FREE_CHUNK_SIZE
          · simp only [if_pos hsmall] at h
            cases h
            exact hinv
          · simp only [if_neg hsmall] at h
            obtain ⟨hcv, _⟩ := carve_minv s hdr c (n + MIN_INUSE_CHUNK_SIZE) hinv hc hck.1
              (by rw [MIN_INUSE_eq]; omega)
              (by rw [MIN_FREE_eq] at hsmall; omega)
            cases hfr : free { s with chunks := setChunk (setChunk s.chunks hdr ⟨true, n + MIN_INUSE_CHUNK_SIZE, n + MIN_INUSE_CHUNK_SIZE⟩) (hdr + (n + MIN_INUSE_CHUNK_SIZE)) ⟨true, c.size - (n + MIN_INUSE_CHUNK_SIZE), c.size - (n + MIN_INUSE_CHUNK_SIZE)⟩ } (hdr + (n + MIN_INUSE_CHUNK_SIZE) + INUSE_HEADER_SIZE) with
            | none =>
              simp only [hfr] at h
              cases h
            | some s2 =>
              simp only [hfr] at h
              cases h
              exact (free_inv _ _ _ hcv hfr).1
        · simp only [if_neg hfit] at h
          cases hnl : lookupChunk s.chunks (hdr + c.size) with
          | some nc =>
            simp only [hnl] at h
            by_cases habs : nc.status = false ∧ nc.size + c.size < n + MIN_INUSE_CHUNK_SIZE
            · simp only [if_pos habs] at h
              cases h
              have hnf : nc.footer = nc.size := hinv.footerEq _ (lookup_mem hnl)
              have hnc' : lookupChunk s.chunks (hdr + c.size) =
                  some ⟨false, nc.size, nc.size⟩ := by
                rw [← chunk_eta nc habs.1 hnf]
                exact hnl
              exact absorb_minv s hdr c nc.size hinv hc hck.1 hnc'
            · simp only [if_neg habs] at h
              rcases hm : malloc s n with ⟨s1, r⟩
              rw [hm] at hmi
              simp only [hm] at h
              cases r with
              | none =>
                simp only at h
                cases h
                exact hmi
              | some p2 =>
                simp only at h
                cases hfr : free s1 p with
                | none =>
                  simp only [hfr] at h
                  cases h
                | some s2 =>
                  simp only [hfr] at h
                  cases h
                  exact (free_inv _ _ _ hmi hfr).1
          | none =>
            simp only [hnl] at h
            rcases hm : malloc s n with ⟨s1, r⟩
            rw [hm] at hmi
            simp only [hm] at h
            cases r with
            | none =>
              simp only at h
              cases h
              exact hmi
            | some p2 =>
              simp only at h
              cases hfr : free s1 p with
              | none =>
                simp only [hfr] at h
                cases h
              | some s2 =>
                simp only [hfr] at h
                cases h
                exact (free_inv _ _ _ hmi hfr).1
      · simp only [if_neg hck] at h
        cases h

/-- `init_malloc` establishes the allocator invariant. -/
lemma init_minv (base sz : Nat) (ext : Option (List (Option (Nat × Nat))))
    (h1 : CONTEXT_SIZE ≤ sz) (h2 : sz < 2 ^ 31) (h3 : extInit ext base sz) :
    MInv (init_malloc base sz ext) := by
  set s0 : MState := { chunks := [], bins := List.replicate BIN_NUMBER [], free_memory := 0, last_chunk := 0, last_chunk_size := 0, ext := ext, extCalls := [] } with hs0
  have hj : binsJoin (List.replicate BIN_NUMBER ([] : List Nat)) = [] := by decide
  have hinv0 : MInv s0 := by
    refine ⟨?_, ?_, ?_, ?_, ?_, ?_, ?_, ?_, ?_, ?_, ?_⟩
    · show (List.replicate BIN_NUMBER ([] : List Nat)).length = BIN_NUMBER
      simp
    · intro a ha
      rw [show binsJoin s0.bins = [] from hj] at ha
      cases ha
    · rw [show binsJoin s0.bins = [] from hj]
      exact List.nodup_nil
    · intro x cx hcx _
      cases hcx
    · show binsSum s0.chunks s0.bins = 0
      unfold binsSum
      rw [show binsJoin s0.bins = [] from hj]
      rfl
    · intro i hi x hx
      have hi' : i < BIN_NUMBER := by
        have : (List.replicate BIN_NUMBER ([] : List Nat)).length = BIN_NUMBER := by simp
        have hi2 : i < (List.replicate BIN_NUMBER ([] : List Nat)).length := hi
        omega
      have : (List.replicate BIN_NUMBER ([] : List Nat)).getD i [] = [] := by
        rw [List.getD_eq_getElem _ _ (by simpa using hi'), List.getElem_replicate]
      rw [show s0.bins.getD i [] = [] from this] at hx
      cases hx
    · intro h0
      exact absurd rfl h0
    · intro e he
      cases he
    · intro e he
      cases he
    · exact List.Pairwise.nil
    · refine ⟨h3.1, ?_⟩
      intro q hq
      refine ⟨(h3.2 q hq).1, ?_⟩
      intro x hx
      obtain ⟨e, he, _, _⟩ := hx
      cases he
  have hfresh : ∀ x, covered s0.chunks x →
      x < base + CONTEXT_SIZE ∨ base + CONTEXT_SIZE + (sz - CONTEXT_SIZE) ≤ x := by
    intro x hx
    obtain ⟨e, he, _, _⟩ := hx
    cases he
  have hofresh : ∀ q ∈ extRegions s0.ext,
      base + CONTEXT_SIZE + (sz - CONTEXT_SIZE) ≤ q.1 ∨
        q.1 + q.2 ≤ base + CONTEXT_SIZE := by
    intro q hq
    rcases (h3.2 q hq).2 with hq2 | hq2
    · left
      omega
    · right
      omega
  exact (add_malloc_buffer_spec s0 (base + CONTEXT_SIZE) (sz - CONTEXT_SIZE)
    hinv0 hfresh hofresh).1

/-- Every reachable state satisfies the allocator invariant. -/
lemma reach_minv (s : MState) (h : Reach s) : MInv s := by
  induction h with
  | init base sz ext h1 h2 h3 => exact init_minv base sz ext h1 h2 h3
  | step_alloc s n hr h2 ih => exact mallocF_inv _ s n ih
  | step_free s p s' hr hf ih => exact (free_inv s p s' ih hf).1
  | step_realloc s p n out hr h2 hre ih => exact realloc_inv s p n out ih hre
  | step_add_buffer s b sz hr h2 hfresh hofresh ih =>
    exact (add_malloc_buffer_spec s b sz ih hfresh hofresh).1
  | step_set_ext s ext hr hok ih =>
    exact ⟨ih.binsLen, ih.binsFree, ih.binsND, ih.freeInBins, ih.sumEq, ih.classEq,
      ih.lastOK, ih.footerEq, ih.sizePos, ih.disj, hok⟩

/-- If some bin chunk fits the (adjusted) request, `malloc` returns a
pointer. -/
lemma mallocF_succeeds (fuel : Nat) (s : MState) (n : Nat) (hinv : MInv s)
    (hex : ∃ a ∈ binsJoin s.bins,
      max (n + MIN_INUSE_CHUNK_SIZE) MIN_FREE_CHUNK_SIZE ≤ sizeAt s.chunks a) :
    ∃ p, (mallocF (fuel + 1) s n).2 = some p := by
  obtain ⟨a, haB, hasz⟩ := hex
  obtain ⟨ca, hca, _, _, h8a, hcas, hbud⟩ := bin_chunk_facts s a hinv haB
  have hfm : ¬ s.free_memory < max (n + MIN_INUSE_CHUNK_SIZE) MIN_FREE_CHUNK_SIZE := by
    omega
  rw [mallocF, if_neg hfm]
  set sz := max (n + MIN_INUSE_CHUNK_SIZE) MIN_FREE_CHUNK_SIZE with hszdef
  have h28 : MIN_FREE_CHUNK_SIZE ≤ sz := le_max_right _ _
  have h28' : (28 : Nat) ≤ sz := h28
  have h8sz : (8 : Nat) ≤ sz := by omega
  obtain ⟨ia, hialt, haIn⟩ := (mem_binsJoin_idx s.bins a).1 haB
  have hclass_a : ia = find_bin (sizeAt s.chunks a) := hinv.classEq ia hialt a haIn
  have hbne : s.bins.getD ia [] ≠ [] :=
    fun he => absurd (he ▸ haIn) (List.not_mem_nil a)
  have hfb_le : find_bin sz ≤ ia := by
    rw [hclass_a]
    exact find_bin_mono sz _ h8sz hasz
  obtain ⟨i, hfe, hile⟩ := firstNE_isSome_of_nonempty s.bins (find_bin sz) ia hfb_le
    hialt hbne
  simp only [hfe]
  obtain ⟨hi1, hi2, hi3, hi4⟩ := firstNE_some s.bins s.bins.length _ i (by omega) hfe
  cases hfc : find_chunk s.chunks (s.bins.getD i []) sz with
  | some a0 =>
    simp only [hfc]
    exact ⟨_, rfl⟩
  | none =>
    simp only [hfc]
    have hne_ia : i ≠ ia := by
      intro he
      subst he
      have := find_chunk_none s.chunks _ sz hfc a haIn
      omega
    have hlt_ia : i < ia := by
      rcases Nat.lt_or_ge i ia with hcase | hcase
      · exact hcase
      · rcases Nat.eq_or_lt_of_le hcase with he | hlt
        · exact absurd he.symm hne_ia
        · exact absurd (hi4 ia hfb_le hlt) hbne
    obtain ⟨j, hf2, hjle⟩ := firstNE_isSome_of_nonempty s.bins (i + 1) ia (by omega)
      hialt hbne
    simp only [hf2]
    cases hhd : (s.bins.getD j []).head? with
    | none =>
      exfalso
      obtain ⟨hj1, hj2, hj3, hj4⟩ := firstNE_some s.bins s.bins.length _ j (by omega) hf2
      cases hgd : s.bins.getD j [] with
      | nil => exact hj3 hgd
      | cons y t =>
        rw [hgd] at hhd
        cases hhd
    | some a0 =>
      simp only [hhd]
      exact ⟨_, rfl⟩

/-- When `out_of_memory` fails to produce memory, the context core is
untouched; with enough fuel (always supplied by `malloc`) the retry
after a successful grow cannot fail. -/
lemma oom_fail (fuel : Nat) (s : MState) (sz : Nat) (hinv : MInv s)
    (hsz : MIN_FREE_CHUNK_SIZE ≤ sz)
    (hfl : oracleLen s.ext < fuel + 1)
    (h2 : (out_of_memoryC (mallocF fuel) s sz).2 = none) :
    coreEq (out_of_memoryC (mallocF fuel) s sz).1 s := by
  rw [out_of_memoryC] at h2 ⊢
  cases hx : s.ext with
  | none =>
    simp only [hx]
    exact ⟨rfl, rfl, rfl, rfl, rfl⟩
  | some l =>
    simp only [hx] at h2 ⊢
    cases l with
    | nil => exact ⟨rfl, rfl, rfl, rfl, rfl⟩
    | cons r rest =>
      cases r with
      | none => exact ⟨rfl, rfl, rfl, rfl, rfl⟩
      | some bm =>
        obtain ⟨b, m⟩ := bm
        by_cases hm : m < sz + 2 * MIN_INUSE_CHUNK_SIZE
        · simp only [if_pos hm]
          exact ⟨rfl, rfl, rfl, rfl, rfl⟩
        · simp only [if_neg hm] at h2 ⊢
          exfalso
          cases fuel with
          | zero =>
            rw [hx] at hfl
            have : oracleLen (some (some (b, m) :: rest)) = rest.length + 1 := by
              simp [oracleLen]
            omega
          | succ f =>
            -- the grown state satisfies the invariant and holds a fitting chunk
            have hsub : (extRegions (some rest)).Sublist (extRegions s.ext) := by
              rw [hx]
              exact extRegions_tail_sublist _ rest
            have hinv1 : MInv { s with
                ext := some rest
                extCalls := s.extCalls ++ [sz + 2 * MIN_INUSE_CHUNK_SIZE] } :=
              minv_ext_sub s _ _ hinv hsub
            have hbm : (b, m) ∈ extRegions s.ext := by
              rw [hx]
              show (b, m) ∈ List.filterMap id (some (b, m) :: rest)
              simp [List.filterMap]
            obtain ⟨hpw, hreg⟩ := hinv.extOKh
            have hfresh : ∀ x, covered ({ s with
                ext := some rest
                extCalls := s.extCalls ++ [sz + 2 * MIN_INUSE_CHUNK_SIZE] } : MState).chunks x →
                x < b ∨ b + m ≤ x := by
              intro x hxc
              exact (hreg _ hbm).2 x hxc
            have hofresh : ∀ q ∈ extRegions (some rest), b + m ≤ q.1 ∨ q.1 + q.2 ≤ b := by
              intro q hq
              have hcons : List.Pairwise (fun p q => p.1 + p.2 ≤ q.1 ∨ q.1 + q.2 ≤ p.1)
                  ((b, m) :: extRegions (some rest)) := by
                have he : extRegions s.ext = (b, m) :: extRegions (some rest) := by
                  rw [hx]
                  show List.filterMap id (some (b, m) :: rest) = _
                  simp [extRegions, List.filterMap]
                rw [he] at hpw
                exact hpw
              have := (List.pairwise_cons.1 hcons).1 q hq
              tauto
            obtain ⟨hinv2, _, _, _, _, _, _, hacc⟩ :=
              add_malloc_buffer_spec _ b m hinv1 hfresh hofresh
            have hsz28 : (28 : Nat) ≤ sz := hsz
            have hnot44 : ¬ m < 2 * BOUND_SIZE + MIN_FREE_CHUNK_SIZE := by
              rw [BOUND_SIZE_eq, MIN_FREE_eq]
              rw [MIN_INUSE_eq] at hm
              omega
            obtain ⟨hmemb, hszb, _⟩ := hacc hnot44
            have hszeq : max (sz - MIN_INUSE_CHUNK_SIZE + MIN_INUSE_CHUNK_SIZE)
                MIN_FREE_CHUNK_SIZE = sz := by
              rw [MIN_INUSE_eq, MIN_FREE_eq]
              omega
            obtain ⟨p, hp⟩ := mallocF_succeeds f _ (sz - MIN_INUSE_CHUNK_SIZE) hinv2
              ⟨_, hmemb, by
                rw [hszeq, hszb, BOUND_SIZE_eq]
                rw [MIN_INUSE_eq] at hm
                omega⟩
            rw [hp] at h2
            cases h2

/-- A failed `malloc` (with the canonical fuel budget) leaves every
observable context field unchanged. -/
lemma mallocF_fail : ∀ (fuel : Nat) (s : MState) (n : Nat), MInv s →
    oracleLen s.ext < fuel →
    (mallocF fuel s n).2 = none → coreEq (mallocF fuel s n).1 s := by
  intro fuel
  cases fuel with
  | zero =>
    intro s n _ hfl _
    omega
  | succ fuel =>
    intro s n hinv hfl h2
    rw [mallocF] at h2 ⊢
    by_cases h1 : s.free_memory < max (n + MIN_INUSE_CHUNK_SIZE) MIN_FREE_CHUNK_SIZE
    · rw [if_pos h1] at h2 ⊢
      exact oom_fail fuel s _ hinv (le_max_right _ _) hfl h2
    · rw [if_neg h1] at h2 ⊢
      set sz := max (n + MIN_INUSE_CHUNK_SIZE) MIN_FREE_CHUNK_SIZE with hszdef
      cases hfe : firstNE s.bins (find_bin sz) with
      | none =>
        simp only [hfe] at h2 ⊢
        exact oom_fail fuel s _ hinv (le_max_right _ _) hfl h2
      | some i =>
        simp only [hfe] at h2 ⊢
        cases hfc : find_chunk s.chunks (s.bins.getD i []) sz with
        | some a =>
          simp only [hfc] at h2
          exact absurd h2 (Option.some_ne_none _)
        | none =>
          simp only [hfc] at h2 ⊢
          cases hf2 : firstNE s.bins (i + 1) with
          | none =>
            simp only [hf2] at h2 ⊢
            exact oom_fail fuel s _ hinv (le_max_right _ _) hfl h2
          | some j =>
            simp only [hf2] at h2 ⊢
            cases hhd : (s.bins.getD j []).head? with
            | none =>
              simp only [hhd] at h2 ⊢
              exact oom_fail fuel s _ hinv (le_max_right _ _) hfl h2
            | some a0 =>
              simp only [hhd] at h2
              exact absurd h2 (Option.some_ne_none _)

/-- A successful `malloc` with no growth callback installed comes from
the split path: the returned pointer sits just past an in-use header
whose size was debited from `free_memory`. -/
lemma malloc_ext_none_spec (s : MState) (n p : Nat) (hinv : MInv s)
    (hext : s.ext = none) (hp : (malloc s n).2 = some p) :
    ∃ a A, p = a + INUSE_HEADER_SIZE ∧
      lookupChunk (malloc s n).1.chunks a = some ⟨true, A, A⟩ ∧
      (malloc s n).1.free_memory + A = s.free_memory := by
  rw [malloc, hext] at hp ⊢
  rw [show oracleLen none + 1 = 0 + 1 from rfl] at hp ⊢
  rw [mallocF] at hp ⊢
  have h28 : MIN_FREE_CHUNK_SIZE ≤ max (n + MIN_INUSE_CHUNK_SIZE) MIN_FREE_CHUNK_SIZE :=
    le_max_right _ _
  by_cases h1 : s.free_memory < max (n + MIN_INUSE_CHUNK_SIZE) MIN_FREE_CHUNK_SIZE
  · rw [if_pos h1] at hp
    rw [out_of_memoryC, hext] at hp
    cases hp
  · rw [if_neg h1] at hp ⊢
    set sz := max (n + MIN_INUSE_CHUNK_SIZE) MIN_FREE_CHUNK_SIZE with hszdef
    have hpick : ∀ a0, a0 ∈ binsJoin s.bins → sz ≤ sizeAt s.chunks a0 →
        ∀ q, ((fun a0 =>
            (let a := if sz < sizeAt s.chunks a0 ∧ sz ≤ s.last_chunk_size ∧
                sz ≤ MAX_SMALL_REQUEST then s.last_chunk else a0
             let s1 := { s with bins := removeAddr s.bins a }
             let r := split_chunk s1 a sz
             (r.1, some r.2))) a0).2 = some q →
        ∃ a A, q = a + INUSE_HEADER_SIZE ∧
          lookupChunk ((fun a0 =>
            (let a := if sz < sizeAt s.chunks a0 ∧ sz ≤ s.last_chunk_size ∧
                sz ≤ MAX_SMALL_REQUEST then s.last_chunk else a0
             let s1 := { s with bins := removeAddr s.bins a }
             let r := split_chunk s1 a sz
             (r.1, some r.2))) a0).1.chunks a = some ⟨true, A, A⟩ ∧
          ((fun a0 =>
            (let a := if sz < sizeAt s.chunks a0 ∧ sz ≤ s.last_chunk_size ∧
                sz ≤ MAX_SMALL_REQUEST then s.last_chunk else a0
             let s1 := { s with bins := removeAddr s.bins a }
             let r := split_chunk s1 a sz
             (r.1, some r.2))) a0).1.free_memory + A = s.free_memory := by
      intro a0 ha0 hsz0 q hq
      by_cases hheur : sz < sizeAt s.chunks a0 ∧ sz ≤ s.last_chunk_size ∧
          sz ≤ MAX_SMALL_REQUEST
      · simp only [if_pos hheur] at hq ⊢
        have hlcs : s.last_chunk_size ≠ 0 := by
          have h28' : (28 : Nat) ≤ sz := h28
          omega
        obtain ⟨hmem, hszl⟩ := hinv.lastOK hlcs
        obtain ⟨_, hptr, _, _, A, hA, hlk, hfm⟩ :=
          alloc_pick_spec s s.last_chunk sz hinv hmem h28 (le_trans hheur.2.1 hszl)
        cases hq
        exact ⟨s.last_chunk, A, by rw [← hptr], hlk, by omega⟩
      · simp only [if_neg hheur] at hq ⊢
        obtain ⟨_, hptr, _, _, A, hA, hlk, hfm⟩ :=
          alloc_pick_spec s a0 sz hinv ha0 h28 hsz0
        cases hq
        exact ⟨a0, A, by rw [← hptr], hlk, by omega⟩
    cases hfe : firstNE s.bins (find_bin sz) with
    | none =>
      simp only [hfe] at hp
      rw [out_of_memoryC, hext] at hp
      cases hp
    | some i =>
      simp only [hfe] at hp ⊢
      obtain ⟨hi1, hi2, hi3, hi4⟩ := firstNE_some s.bins s.bins.length _ i (by omega) hfe
      cases hfc : find_chunk s.chunks (s.bins.getD i []) sz with
      | some a =>
        simp only [hfc] at hp ⊢
        obtain ⟨hmem2, hsz2⟩ := find_chunk_some s.chunks _ sz a hfc
        exact hpick a ((mem_binsJoin_idx _ _).2 ⟨i, hi2, hmem2⟩) hsz2 p hp
      | none =>
        simp only [hfc] at hp ⊢
        cases hf2 : firstNE s.bins (i + 1) with
        | none =>
          simp only [hf2] at hp
          rw [out_of_memoryC, hext] at hp
          cases hp
        | some j =>
          simp only [hf2] at hp ⊢
          obtain ⟨hj1, hj2, hj3, hj4⟩ := firstNE_some s.bins s.bins.length _ j (by omega) hf2
          cases hhd : (s.bins.getD j []).head? with
          | none =>
            simp only [hhd] at hp
            rw [out_of_memoryC, hext] at hp
            cases hp
          | some a0 =>
            simp only [hhd] at hp ⊢
            have hmem0 : a0 ∈ s.bins.getD j [] := by
              cases hgd : s.bins.getD j [] with
              | nil =>
                rw [hgd] at hhd
                cases hhd
              | cons y t =>
                rw [hgd] at hhd
                cases hhd
                exact List.mem_cons_self _ _
            have hjoin0 : a0 ∈ binsJoin s.bins := (mem_binsJoin_idx _ _).2 ⟨j, hj2, hmem0⟩
            obtain ⟨c0, hc0, _, _, hc08, hc0size, _⟩ := bin_chunk_facts s a0 hinv hjoin0
            have hlen89 : s.bins.length = 89 := by
              have := hinv.binsLen
              rw [BIN_NUMBER_eq] at this
              exact this
            have h8sz : (8 : Nat) ≤ sz := le_trans (by rw [MIN_FREE_eq]; omega) h28
            have hclassj : j = find_bin (sizeAt s.chunks a0) := hinv.classEq j hj2 a0 hmem0
            have hfits0 : sz ≤ sizeAt s.chunks a0 := by
              rcases (find_bin_spec sz h8sz).2 with h89 | hup
              · rw [BIN_NUMBER_eq] at h89
                omega
              · have hmono : bin_sizes.getD (find_bin sz + 1) 0 ≤ bin_sizes.getD j 0 := by
                  refine bin_sizes_mono _ _ (by omega) ?_
                  rw [BIN_NUMBER_eq]
                  omega
                have hlow : bin_sizes.getD j 0 ≤ sizeAt s.chunks a0 := by
                  rw [hclassj]
                  exact (find_bin_spec (sizeAt s.chunks a0) (by omega)).1
                omega
            exact hpick a0 hjoin0 hfits0 p hp

/-- When `realloc` returns a null pointer, the observable context is
exactly the pre-call one. -/
lemma realloc_fail (s : MState) (p n : Nat) (out : MState × Option Nat × Option Nat)
    (hinv : MInv s) (hre : realloc s p n = some out) (hnull : out.2.1 = none) :
    coreEq out.1 s := by
  have hmf : (malloc s n).2 = none → coreEq (malloc s n).1 s := fun h2 =>
    mallocF_fail (oracleLen s.ext + 1) s n hinv (by omega) h2
  rw [realloc] at hre
  by_cases hp0 : p = 0
  · rw [if_pos hp0] at hre
    rcases hm : malloc s n with ⟨s1, r⟩
    simp only [hm] at hre
    cases hre
    have h2 : (malloc s n).2 = none := by
      rw [hm]
      exact hnull
    have hcore := hmf h2
    rw [hm] at hcore
    exact hcore
  · rw [if_neg hp0] at hre
    cases hc : lookupChunk s.chunks (p - INUSE_HEADER_SIZE) with
    | none =>
      simp only [hc] at hre
      cases hre
    | some c =>
      simp only [hc] at hre
      by_cases hck : c.status = true ∧ c.size = c.footer
      · simp only [if_pos hck] at hre
        by_cases hfit : n + MIN_INUSE_CHUNK_SIZE ≤ c.size
        · simp only [if_pos hfit] at hre
          by_cases hsmall : c.size - (n + MIN_INUSE_CHUNK_SIZE) < MIN_FREE_CHUNK_SIZE
          · simp only [if_pos hsmall] at hre
            cases hre
            simp at hnull
          · simp only [if_neg hsmall] at hre
            cases hfr : free { s with chunks := setChunk (setChunk s.chunks (p - INUSE_HEADER_SIZE) ⟨true, n + MIN_INUSE_CHUNK_SIZE, n + MIN_INUSE_CHUNK_SIZE⟩) (p - INUSE_HEADER_SIZE + (n + MIN_INUSE_CHUNK_SIZE)) ⟨true, c.size - (n + MIN_INUSE_CHUNK_SIZE), c.size - (n + MIN_INUSE_CHUNK_SIZE)⟩ } (p - INUSE_HEADER_SIZE + (n + MIN_INUSE_CHUNK_SIZE) + INUSE_HEADER_SIZE) with
            | none =>
              simp only [hfr] at hre
              cases hre
            | some s2 =>
              simp only [hfr] at hre
              cases hre
              simp at hnull
        · simp only [if_neg hfit] at hre
          cases hnl : lookupChunk s.chunks (p - INUSE_HEADER_SIZE + c.size) with
          | some nc =>
            simp only [hnl] at hre
            by_cases habs : nc.status = false ∧ nc.size + c.size < n + MIN_INUSE_CHUNK_SIZE
            · simp only [if_pos habs] at hre
              cases hre
              simp at hnull
            · simp only [if_neg habs] at hre
              rcases hm : malloc s n with ⟨s1, r⟩
              simp only [hm] at hre
              cases r with
              | none =>
                simp only at hre
                cases hre
                have h2 : (malloc s n).2 = none := by
                  rw [hm]
                have hcore := hmf h2
                rw [hm] at hcore
                exact hcore
              | some p2 =>
                simp only at hre
                cases hfr : free s1 p with
                | none =>
                  simp only [hfr] at hre
                  cases hre
                | some s2 =>
                  simp only [hfr] at hre
                  cases hre
                  simp at hnull
          | none =>
            simp only [hnl] at hre
            rcases hm : malloc s n with ⟨s1, r⟩
            simp only [hm] at hre
            cases r with
            | none =>
              simp only at hre
              cases hre
              have h2 : (malloc s n).2 = none := by
                rw [hm]
              have hcore := hmf h2
              rw [hm] at hcore
              exact hcore
            | some p2 =>
              simp only at hre
              cases hfr : free s1 p with
              | none =>
                simp only [hfr] at hre
                cases hre
              | some s2 =>
                simp only [hfr] at hre
                cases hre
                simp at hnull
      · simp only [if_neg hck] at hre
        cases hre

/-- C1: in every state reachable from `initialise` by any sequence of
`allocate`, `release`, `resize` and `add_buffer` (and oracle changes),
the sum of the sizes of all chunks on the bin lists equals
`context.free_memory`, and `audit()` returns null. -/
theorem C1_reachable_invariant (s : MState) (h : Reach s) :
    binsSum s.chunks s.bins = s.free_memory ∧ check_malloc s = none :=
  ⟨(reach_minv s h).sumEq, minv_check s (reach_minv s h)⟩

/-- Witness for C1 at a freshly initialised 2250-byte context. -/
theorem C1_reachable_invariant_witness :
    Reach (init_malloc 0 2250 none) ∧
    (binsSum (init_malloc 0 2250 none).chunks (init_malloc 0 2250 none).bins =
      (init_malloc 0 2250 none).free_memory ∧
     check_malloc (init_malloc 0 2250 none) = none) :=
  have hr : Reach (init_malloc 0 2250 none) :=
    Reach.init 0 2250 none (by decide) (by decide)
      ⟨List.Pairwise.nil, fun q hq => absurd hq (List.not_mem_nil q)⟩
  ⟨hr, C1_reachable_invariant _ hr⟩

/-- C5: whenever `allocate` or `resize` fails and returns a null
pointer — including runs in which the growth callback was invoked
before the failure — every observable context field (`free_memory`,
the bin lists, every chunk, and the `last_chunk` hint) is exactly as
before the call. -/
theorem C5_fail_unchanged (s : MState) (p n : Nat) (h : Reach s) :
    ((malloc s n).2 = none → coreEq (malloc s n).1 s) ∧
    (∀ out, realloc s p n = some out → out.2.1 = none → coreEq out.1 s) :=
  ⟨fun h2 => mallocF_fail (oracleLen s.ext + 1) s n (reach_minv s h) (by omega) h2,
   fun out hre hnull => realloc_fail s p n out (reach_minv s h) hre hnull⟩

/-- Witness for C5: a 2250-byte context holds 66 free bytes, so a
100-byte request fails, through `malloc` and through `realloc` of the
null pointer alike. -/
theorem C5_fail_unchanged_witness :
    Reach (init_malloc 0 2250 none) ∧
    (((malloc (init_malloc 0 2250 none) 100).2 = none →
        coreEq (malloc (init_malloc 0 2250 none) 100).1 (init_malloc 0 2250 none)) ∧
     (∀ out, realloc (init_malloc 0 2250 none) 0 100 = some out → out.2.1 = none →
        coreEq out.1 (init_malloc 0 2250 none))) :=
  have hr : Reach (init_malloc 0 2250 none) :=
    Reach.init 0 2250 none (by decide) (by decide)
      ⟨List.Pairwise.nil, fun q hq => absurd hq (List.not_mem_nil q)⟩
  ⟨hr, C5_fail_unchanged _ 0 100 hr⟩

/-- C2 (amended): when no growth callback is installed, a successful
allocation followed by a release of the returned pointer restores
`context.free_memory` to exactly its prior value, and the audit stays
clean. -/
theorem C2_amended (s : MState) (n p : Nat) (h : Reach s) (hext : s.ext = none)
    (hp : (malloc s n).2 = some p) :
    ∃ s', free (malloc s n).1 p = some s' ∧ s'.free_memory = s.free_memory ∧
      check_malloc s' = none := by
  have hinv := reach_minv s h
  have hminv1 : MInv (malloc s n).1 := mallocF_inv _ s n hinv
  obtain ⟨a, A, rfl, hlk, hfm⟩ := malloc_ext_none_spec s n p hinv hext hp
  obtain ⟨s', hfr⟩ := free_total (malloc s n).1 a ⟨true, A, A⟩ hminv1 hlk rfl
  obtain ⟨hminv2, _, _, _, hacc⟩ := free_inv _ _ _ hminv1 hfr
  have hane : a + INUSE_HEADER_SIZE ≠ 0 := by
    rw [INUSE_HEADER_eq]
    omega
  obtain ⟨c2, hc2, _, hfm2⟩ := hacc hane
  have hsub : a + INUSE_HEADER_SIZE - INUSE_HEADER_SIZE = a := by omega
  rw [hsub, hlk] at hc2
  cases hc2
  refine ⟨s', hfr, ?_, minv_check s' hminv2⟩
  have hfm3 : s'.free_memory = (malloc s n).1.free_memory + A := hfm2
  omega

/-- Witness for C2 (amended): round trip of a 50-byte allocation in a
fresh 2300-byte context with no callback. -/
theorem C2_amended_witness :
    Reach (init_malloc 0 2300 none) ∧ (init_malloc 0 2300 none).ext = none ∧
    (malloc (init_malloc 0 2300 none) 50).2 = some 2180 ∧
    (∃ s', free (malloc (init_malloc 0 2300 none) 50).1 2180 = some s' ∧
      s'.free_memory = (init_malloc 0 2300 none).free_memory ∧
      check_malloc s' = none) :=
  have hr : Reach (init_malloc 0 2300 none) :=
    Reach.init 0 2300 none (by decide) (by decide)
      ⟨List.Pairwise.nil, fun q hq => absurd hq (List.not_mem_nil q)⟩
  ⟨hr, rfl, by decide, C2_amended (init_malloc 0 2300 none) 50 2180 hr rfl (by decide)⟩
